import Mathlib

/-!
Shallow embedding of the gtaf core engine (the reference-layer `AtomLog` /
`AtomStore` design of `src/core/atom_log.cpp`, `src/core/temporal_chunk.cpp`,
`src/core/mutable_state.cpp`, `src/core/node.cpp`, `src/core/query_index.cpp`,
`src/core/persistence.cpp` and `src/types/hash_utils.h`), together with
theorems settling the claims about it.

Modelling conventions:
  * C++ `std::string` and raw byte buffers are `List Nat` with every element
    below 256 (well-formedness is hypothesised where it matters).
  * 128-bit ids are two 64-bit halves (`lo`, `hi`), matching the C++ layout of
    `AtomId`/`EntityId` (16 bytes; serialisation writes `lo` then `hi` in the
    host little-endian order).
  * `uint64_t` arithmetic in the hasher and the codec is `Nat` with explicit
    `% 2^64`; the LSN and sequential-id counters are plain `Nat` (their 64-bit
    wrap is unreachable in any run the claims quantify over).
  * `double` and `float` values are carried as their raw bit patterns (the
    engine never does floating-point arithmetic on them: it only stores,
    hashes and serialises the bytes).
  * `std::unordered_map` members are association lists with unique keys;
    `operator[]` is update-or-append, `emplace`/`try_emplace` is
    insert-if-absent. Contents, not bucket order, are what every claim below
    depends on, except for the sealed-chunk container: the declaration of the
    newer `AtomStore` class (`src/core/atom_store.h`, included by the tests)
    is absent from the sources, so the sealed-chunk container is modelled from
    the spec as a map iterated in chunk-id order (spec section 4.4), keyed by
    the chunk id alone exactly as `atom_log.cpp` uses it.
  * wall-clock sampling (`get_current_timestamp`) is an explicit `now`
    argument threaded into each append operation; the stored timestamp is
    `now % 2^64` (the C++ `Timestamp` is a `uint64_t`). A mutable append that
    also emits a snapshot reuses its `now` for the snapshot record; no claim
    depends on the two samples differing.
-/

namespace GTAF

/-- Two to the sixty-fourth, the modulus of all `uint64_t` arithmetic. -/
def U64 : Nat := 2 ^ 64

/-- Two to the thirty-second, the modulus of `uint32_t` arithmetic. -/
def U32 : Nat := 2 ^ 32

/-- FNV-1a 64-bit offset basis (`hash_utils.h`). -/
def FNV_OFFSET_BASIS : Nat := 14695981039346656037

/-- FNV-1a 64-bit prime (`hash_utils.h`). -/
def FNV_PRIME : Nat := 1099511628211

/-- One FNV-1a step: xor in one byte, multiply by the prime, in `uint64_t`. -/
def fnv_update (h b : Nat) : Nat := ((h ^^^ b % 256) * FNV_PRIME) % U64

/-- Stream a byte list into the FNV-1a accumulator
(`detail::StreamingHasher::update`). -/
def fnv_hash (bs : List Nat) (h : Nat) : Nat := bs.foldl fnv_update h

/-- Little-endian byte decomposition: `k` bytes of `n` (host order on x86). -/
def le_bytes : Nat → Nat → List Nat
  | 0, _ => []
  | k + 1, n => n % 256 :: le_bytes k (n / 256)

/-- Recompose a little-endian byte list into a number. -/
def from_le : List Nat → Nat
  | [] => 0
  | b :: bs => b % 256 + 256 * from_le bs

/-- A 16-byte entity id, two 64-bit halves, assigned by the caller. -/
structure EntityId where
  lo : Nat
  hi : Nat
deriving DecidableEq

/-- A 16-byte atom id, two 64-bit halves: a content hash for Canonical atoms,
a sequential counter packed into the first 8 bytes for the others. -/
structure AtomId where
  lo : Nat
  hi : Nat
deriving DecidableEq

/-- Atom classification (`types::AtomType`). -/
inductive AtomType where
  | Canonical
  | Temporal
  | Mutable
deriving DecidableEq

/-- The `types::AtomValue` variant. Numeric payloads are raw bit patterns. -/
inductive AtomValue where
  | vnull
  | vbool (b : Bool)
  | vint (bits : Nat)
  | vdouble (bits : Nat)
  | vstring (s : List Nat)
  | vfloat_vec (fs : List Nat)
  | vblob (bs : List Nat)
  | vedge (target : EntityId) (relation : List Nat)
deriving DecidableEq

/-- The variant discriminator `value.index()` in `[0,7]`. -/
def variant_index : AtomValue → Nat
  | .vnull => 0
  | .vbool _ => 1
  | .vint _ => 2
  | .vdouble _ => 3
  | .vstring _ => 4
  | .vfloat_vec _ => 5
  | .vblob _ => 6
  | .vedge _ _ => 7

/-- The 16 raw bytes of an entity id, `lo` half first (host little-endian). -/
def entity_id_bytes (e : EntityId) : List Nat := le_bytes 8 e.lo ++ le_bytes 8 e.hi

/-- Bytes fed to the hasher for a value, after the tag and the discriminator
(`compute_content_hash`'s `std::visit`): lengths are 8-byte `size_t`. -/
def hash_value_bytes : AtomValue → List Nat
  | .vnull => []
  | .vbool b => [if b then 1 else 0]
  | .vint n => le_bytes 8 n
  | .vdouble n => le_bytes 8 n
  | .vstring s => s
  | .vfloat_vec fs => le_bytes 8 fs.length ++ (fs.map (le_bytes 4)).flatten
  | .vblob bs => le_bytes 8 bs.length ++ bs
  | .vedge t r => entity_id_bytes t ++ r

/-- Salt mixed into the second hash half (`hash_utils.h`). -/
def HASH_SALT : Nat := 0xDEADBEEFCAFEBABE

/-- Deterministic 128-bit content hash of `(tag, value)`
(`types::compute_content_hash`): FNV-1a over the tag bytes, the 8-byte
discriminator, and the canonical value bytes; the second half continues the
mix over the 8 salt bytes. -/
def compute_content_hash (tag : List Nat) (value : AtomValue) : AtomId :=
  let h := fnv_hash tag FNV_OFFSET_BASIS
  let h := fnv_hash (le_bytes 8 (variant_index value)) h
  let hash1 := fnv_hash (hash_value_bytes value) h
  let hash2 := fnv_hash (le_bytes 8 HASH_SALT) hash1
  ⟨hash1, hash2⟩

section AssocList

variable {κ : Type} {ν : Type} [DecidableEq κ]

/-- Find the value bound to a key in an association list
(`unordered_map::find`). -/
def alist_find (k : κ) : List (κ × ν) → Option ν
  | [] => none
  | (k', v) :: rest => if k' = k then some v else alist_find k rest

/-- Update the binding of a key, or append a new one at the end
(`unordered_map::operator[] = v`). -/
def alist_set (k : κ) (v : ν) : List (κ × ν) → List (κ × ν)
  | [] => [(k, v)]
  | (k', v') :: rest =>
      if k' = k then (k, v) :: rest else (k', v') :: alist_set k v rest

/-- Insert a binding only if the key is absent (`unordered_map::emplace`). -/
def alist_emplace (k : κ) (v : ν) (l : List (κ × ν)) : List (κ × ν) :=
  match alist_find k l with
  | some _ => l
  | none => l ++ [(k, v)]

/-- Erase the binding of a key (`unordered_map::erase`). -/
def alist_erase (k : κ) : List (κ × ν) → List (κ × ν)
  | [] => []
  | (k', v') :: rest =>
      if k' = k then rest else (k', v') :: alist_erase k rest

end AssocList

/-- Insert-if-absent into a key-sorted list. Modelled from the spec: sealed
chunks are kept in a map iterated in chunk-id order (spec section 4.4); the
container's declaration lives in the `atom_store.h` header absent from the
sources, while `atom_log.cpp` shows it keyed by the chunk id alone with
`emplace` (first writer wins). -/
def sorted_emplace {ν : Type} (k : Nat) (v : ν) : List (Nat × ν) → List (Nat × ν)
  | [] => [(k, v)]
  | (k', v') :: rest =>
      if k < k' then (k, v) :: (k', v') :: rest
      else if k = k' then (k', v') :: rest
      else (k', v') :: sorted_emplace k v rest

/-- An immutable content record (`core::Atom`, the reference-layer version:
no entity id and no LSN on the atom itself). -/
structure Atom where
  atom_id : AtomId
  classification : AtomType
  type_tag : List Nat
  value : AtomValue
  created_at : Nat
deriving DecidableEq

instance : Inhabited Atom := ⟨⟨⟨0, 0⟩, .Canonical, [], .vnull, 0⟩⟩

/-- One entry of a per-entity reference list (`AtomReference`). -/
structure AtomReference where
  atom_id : AtomId
  lsn : Nat
deriving DecidableEq

/-- A temporal stream key: `(entity_id, tag)` (`TemporalKey`). -/
abbrev StreamKey := EntityId × List Nat

/-- Metadata of a temporal chunk (`TemporalChunkMetadata`). -/
structure TemporalChunkMetadata where
  chunk_id : Nat
  entity_id : EntityId
  tag : List Nat
  start_lsn : Nat
  end_lsn : Nat
  created_at : Nat
  sealed_at : Nat
  value_count : Nat
  is_sealed : Bool
deriving DecidableEq

/-- A temporal chunk: metadata plus three parallel columns
(`core::TemporalChunk`). -/
structure TemporalChunk where
  metadata : TemporalChunkMetadata
  values : List AtomValue
  timestamps : List Nat
  lsns : List Nat
deriving DecidableEq

/-- Construct a new active chunk (`TemporalChunk::TemporalChunk`). -/
def new_chunk (chunk_id : Nat) (entity_id : EntityId) (tag : List Nat)
    (start_lsn : Nat) (created_at : Nat) : TemporalChunk :=
  ⟨⟨chunk_id, entity_id, tag, start_lsn, start_lsn, created_at, 0, 0, false⟩,
    [], [], []⟩

/-- Append one value into the three columns (`TemporalChunk::append`; the
sealed guard never fires in the store, which appends only to active chunks). -/
def chunk_append (c : TemporalChunk) (value : AtomValue) (lsn ts : Nat) :
    TemporalChunk :=
  { c with
    values := c.values ++ [value]
    timestamps := c.timestamps ++ [ts]
    lsns := c.lsns ++ [lsn]
    metadata := { c.metadata with
                  end_lsn := lsn
                  value_count := c.metadata.value_count + 1 } }

/-- Threshold check (`TemporalChunk::should_seal`). -/
def chunk_should_seal (c : TemporalChunk) (threshold : Nat) : Bool :=
  c.metadata.value_count ≥ threshold

/-- Seal a chunk (`TemporalChunk::seal`). -/
def chunk_seal (c : TemporalChunk) (final_lsn sealed_at : Nat) : TemporalChunk :=
  { c with metadata := { c.metadata with
                         end_lsn := final_lsn
                         sealed_at := sealed_at
                         is_sealed := true } }

/-- One logged mutation of a mutable stream (`MutableDelta`). -/
structure MutableDelta where
  lsn : Nat
  timestamp : Nat
  old_value : AtomValue
  new_value : AtomValue
deriving DecidableEq

/-- Metadata of a mutable stream (`MutableStateMetadata`). -/
structure MutableStateMetadata where
  atom_id : AtomId
  entity_id : EntityId
  tag : List Nat
  created_lsn : Nat
  last_snapshot_lsn : Nat
  last_snapshot_time : Nat
  delta_count_since_snapshot : Nat
deriving DecidableEq

/-- Per-`(entity, tag)` mutable state (`core::MutableState`). -/
structure MutableState where
  metadata : MutableStateMetadata
  current_value : AtomValue
  deltas : List MutableDelta
deriving DecidableEq

/-- Construct a fresh mutable state (`MutableState::MutableState`). -/
def new_mutable_state (atom_id : AtomId) (entity_id : EntityId)
    (tag : List Nat) (initial_value : AtomValue) (created_lsn created_at : Nat) :
    MutableState :=
  ⟨⟨atom_id, entity_id, tag, created_lsn, created_lsn, created_at, 0⟩,
    initial_value, []⟩

/-- Apply one mutation and log the delta (`MutableState::mutate`). -/
def mutate (st : MutableState) (new_value : AtomValue) (lsn ts : Nat) :
    MutableState :=
  { st with
    current_value := new_value
    deltas := st.deltas ++ [⟨lsn, ts, st.current_value, new_value⟩]
    metadata := { st.metadata with
                  delta_count_since_snapshot :=
                    st.metadata.delta_count_since_snapshot + 1 } }

/-- Threshold check (`MutableState::should_snapshot`). -/
def should_snapshot (st : MutableState) (threshold : Nat) : Bool :=
  st.metadata.delta_count_since_snapshot ≥ threshold

/-- Record that a snapshot was emitted: reset the counter, clear the delta
buffer (`MutableState::mark_snapshot`). -/
def mark_snapshot (st : MutableState) (lsn ts : Nat) : MutableState :=
  { st with
    deltas := []
    metadata := { st.metadata with
                  last_snapshot_lsn := lsn
                  last_snapshot_time := ts
                  delta_count_since_snapshot := 0 } }

/-- The whole store state (`AtomLog` / `AtomStore` members). -/
structure Store where
  next_atom_id : Nat
  next_lsn : Nat
  atoms : List Atom
  content_index : List (AtomId × Nat)
  canonical_dedup_map : List (AtomId × Nat)
  entity_refs : List (EntityId × List AtomReference)
  refcounts : List (AtomId × Nat)
  active_chunks : List (StreamKey × TemporalChunk)
  sealed_chunks : List (Nat × TemporalChunk)
  next_chunk_id : List (StreamKey × Nat)
  mutable_states : List (StreamKey × MutableState)
  canonical_atom_count : Nat
  dedup_hits : Nat
  snapshot_count : Nat
  chunk_size_threshold : Nat
  snapshot_delta_threshold : Nat
deriving DecidableEq

/-- A freshly constructed store. The two thresholds are configuration
(their defaults, 1000 and 10, live in the header absent from the sources and
in spec section 4.3). -/
def new_store (chunk_size_threshold snapshot_delta_threshold : Nat) : Store :=
  ⟨0, 0, [], [], [], [], [], [], [], [], [], 0, 0, 0,
    chunk_size_threshold, snapshot_delta_threshold⟩

/-- Stored timestamps are the sampled clock truncated to `uint64_t`. -/
def ts_of (now : Nat) : Nat := now % U64

/-- Append a reference to an entity's list, creating the list when absent
(`m_entity_refs[entity].push_back(...)`). -/
def refs_push (refs : List (EntityId × List AtomReference)) (e : EntityId)
    (r : AtomReference) : List (EntityId × List AtomReference) :=
  alist_set e ((alist_find e refs).getD [] ++ [r]) refs

/-- Bump a refcount through `operator[]` (default 0) and `++`. -/
def refcount_bump (rc : List (AtomId × Nat)) (id : AtomId) :
    List (AtomId × Nat) :=
  alist_set id ((alist_find id rc).getD 0 + 1) rc

/-- Generate a sequential 16-byte id: the incremented counter packed into the
first 8 bytes, the rest zero (`AtomLog::generate_sequential_id`). -/
def sequential_id (counter : Nat) : AtomId := ⟨counter, 0⟩

/-- The Canonical append path (`AtomLog::append_canonical`): hash, dedup
lookup, reference insertion, and storage of a new content record when the
hash is unseen. -/
def append_canonical (s : Store) (entity : EntityId) (tag : List Nat)
    (value : AtomValue) (now : Nat) : Atom × Store :=
  let atom_id := compute_content_hash tag value
  match alist_find atom_id s.canonical_dedup_map with
  | some idx =>
      let s := { s with
                 dedup_hits := s.dedup_hits + 1
                 refcounts := refcount_bump s.refcounts atom_id }
      let lsn := s.next_lsn + 1
      let s := { s with
                 next_lsn := lsn
                 entity_refs := refs_push s.entity_refs entity ⟨atom_id, lsn⟩ }
      ((s.atoms.get? idx).getD default, s)
  | none =>
      let lsn := s.next_lsn + 1
      let s := { s with
                 next_lsn := lsn
                 entity_refs := refs_push s.entity_refs entity ⟨atom_id, lsn⟩ }
      let atom : Atom := ⟨atom_id, .Canonical, tag, value, ts_of now⟩
      let index := s.atoms.length
      let s := { s with
                 atoms := s.atoms ++ [atom]
                 content_index := alist_set atom_id index s.content_index
                 canonical_dedup_map := alist_set atom_id index s.canonical_dedup_map
                 refcounts := alist_set atom_id 1 s.refcounts
                 canonical_atom_count := s.canonical_atom_count + 1 }
      (atom, s)

/-- Locate or create the active chunk of a stream
(`AtomLog::get_or_create_active_chunk`): the first chunk of a stream gets id
0; the note that `start_lsn` is `m_next_lsn + 1` (one past the lsn of the
append that created the chunk) is faithful to the source. -/
def get_or_create_active_chunk (s : Store) (key : StreamKey) (now : Nat) :
    TemporalChunk × Store :=
  match alist_find key s.active_chunks with
  | some c => (c, s)
  | none =>
      let (chunk_id, s) :=
        match alist_find key s.next_chunk_id with
        | some n => (n, { s with next_chunk_id := alist_set key (n + 1) s.next_chunk_id })
        | none => (0, { s with next_chunk_id := alist_set key 1 s.next_chunk_id })
      let c := new_chunk chunk_id key.1 key.2 (s.next_lsn + 1) (ts_of now)
      (c, { s with active_chunks := alist_emplace key c s.active_chunks })

/-- Seal the stream's active chunk and move it into the sealed map, keyed by
the chunk id alone (`AtomLog::seal_and_rotate_chunk`). -/
def seal_and_rotate_chunk (s : Store) (key : StreamKey) (now : Nat) : Store :=
  match alist_find key s.active_chunks with
  | none => s
  | some c =>
      let c := chunk_seal c s.next_lsn (ts_of now)
      { s with
        sealed_chunks := sorted_emplace c.metadata.chunk_id c s.sealed_chunks
        active_chunks := alist_erase key s.active_chunks }

/-- The Temporal append path (`AtomLog::append_temporal`). -/
def append_temporal (s : Store) (entity : EntityId) (tag : List Nat)
    (value : AtomValue) (now : Nat) : Atom × Store :=
  let lsn := s.next_lsn + 1
  let s := { s with next_lsn := lsn }
  let key : StreamKey := (entity, tag)
  let (c, s) := get_or_create_active_chunk s key now
  let c := chunk_append c value lsn (ts_of now)
  let s := { s with active_chunks := alist_set key c s.active_chunks }
  let s := if chunk_should_seal c s.chunk_size_threshold
           then seal_and_rotate_chunk s key now else s
  let s := { s with next_atom_id := s.next_atom_id + 1 }
  let atom_id := sequential_id s.next_atom_id
  let s := { s with entity_refs := refs_push s.entity_refs entity ⟨atom_id, lsn⟩ }
  let atom : Atom := ⟨atom_id, .Temporal, tag, value, ts_of now⟩
  let index := s.atoms.length
  let s := { s with
             atoms := s.atoms ++ [atom]
             content_index := alist_set atom_id index s.content_index }
  (atom, s)

/-- Locate or create the mutable state of a stream; on creation the stable
sequential id and the current `m_next_lsn` are recorded
(`AtomLog::get_or_create_mutable_state`). -/
def get_or_create_mutable_state (s : Store) (key : StreamKey)
    (initial_value : AtomValue) (now : Nat) : MutableState × Store :=
  match alist_find key s.mutable_states with
  | some st => (st, s)
  | none =>
      let s := { s with next_atom_id := s.next_atom_id + 1 }
      let st := new_mutable_state (sequential_id s.next_atom_id) key.1 key.2
        initial_value s.next_lsn (ts_of now)
      (st, { s with mutable_states := alist_emplace key st s.mutable_states })

/-- The UTF-8 bytes of the `".snapshot"` tag suffix. -/
def DOT_SNAPSHOT : List Nat := [46, 115, 110, 97, 112, 115, 104, 111, 116]

/-- Emit a snapshot for a mutable stream (`AtomLog::emit_snapshot`): a fresh
LSN, a reference to the entity, and a Canonical content record with tag
`"<tag>.snapshot"`, stored without any dedup-map or refcount bookkeeping. -/
def emit_snapshot (s : Store) (key : StreamKey) (now : Nat) : Store :=
  match alist_find key s.mutable_states with
  | none => s
  | some st =>
      let lsn := s.next_lsn + 1
      let s := { s with next_lsn := lsn }
      let snapshot_tag := st.metadata.tag ++ DOT_SNAPSHOT
      let snapshot_id := compute_content_hash snapshot_tag st.current_value
      let s := { s with
                 entity_refs :=
                   refs_push s.entity_refs st.metadata.entity_id ⟨snapshot_id, lsn⟩ }
      let atom : Atom := ⟨snapshot_id, .Canonical, snapshot_tag,
        st.current_value, ts_of now⟩
      let index := s.atoms.length
      let s := { s with
                 atoms := s.atoms ++ [atom]
                 content_index := alist_set snapshot_id index s.content_index }
      let st := mark_snapshot st lsn (ts_of now)
      { s with
        mutable_states := alist_set key st s.mutable_states
        snapshot_count := s.snapshot_count + 1 }

/-- The Mutable append path (`AtomLog::append_mutable`): mutate and log the
delta, emit a snapshot when the threshold is reached (which pushes the
snapshot's reference first), then push the mutation's own reference and a
companion content record under the stream's stable id. -/
def append_mutable (s : Store) (entity : EntityId) (tag : List Nat)
    (value : AtomValue) (now : Nat) : Atom × Store :=
  let lsn := s.next_lsn + 1
  let s := { s with next_lsn := lsn }
  let key : StreamKey := (entity, tag)
  let (st, s) := get_or_create_mutable_state s key value now
  let st := mutate st value lsn (ts_of now)
  let s := { s with mutable_states := alist_set key st s.mutable_states }
  let s := if should_snapshot st s.snapshot_delta_threshold
           then emit_snapshot s key now else s
  let atom_id := st.metadata.atom_id
  let s := { s with entity_refs := refs_push s.entity_refs entity ⟨atom_id, lsn⟩ }
  let atom : Atom := ⟨atom_id, .Mutable, tag, value, ts_of now⟩
  let index := s.atoms.length
  let s := { s with
             atoms := s.atoms ++ [atom]
             content_index := alist_set atom_id index s.content_index }
  (atom, s)

/-- One append call, dispatched on classification (`AtomLog::append`), with
its sampled wall-clock value. -/
inductive AppendOp where
  | canonical (entity : EntityId) (tag : List Nat) (value : AtomValue) (now : Nat)
  | temporal (entity : EntityId) (tag : List Nat) (value : AtomValue) (now : Nat)
  | mutableOp (entity : EntityId) (tag : List Nat) (value : AtomValue) (now : Nat)

/-- Run one append call for its state effect. -/
def apply_op (s : Store) : AppendOp → Store
  | .canonical e tag v now => (append_canonical s e tag v now).2
  | .temporal e tag v now => (append_temporal s e tag v now).2
  | .mutableOp e tag v now => (append_mutable s e tag v now).2

/-- Run a sequence of append calls. -/
def run_ops (s : Store) (ops : List AppendOp) : Store := ops.foldl apply_op s

/-- Look up a content record by atom id (`AtomLog::get_atom`): the content
index names a position in the log. -/
def get_atom (s : Store) (id : AtomId) : Option Atom :=
  match alist_find id s.content_index with
  | none => none
  | some idx => s.atoms.get? idx

/-- The reference list of an entity, absent when never written
(`AtomLog::get_entity_atoms`). -/
def get_entity_atoms (s : Store) (e : EntityId) : Option (List AtomReference) :=
  alist_find e s.entity_refs

/-- Enumerate the entity-reference map keys (`AtomLog::get_all_entities`). -/
def get_all_entities (s : Store) : List EntityId := s.entity_refs.map Prod.fst

/-- Store statistics (`AtomLog::Stats`, the `atom_log.cpp` version). -/
structure Stats where
  total_atoms : Nat
  canonical_atoms : Nat
  deduplicated_hits : Nat
  unique_canonical_atoms : Nat
  total_entities : Nat
  total_references : Nat
deriving DecidableEq

/-- Compute statistics (`AtomLog::get_stats`). -/
def get_stats (s : Store) : Stats :=
  ⟨s.atoms.length, s.canonical_atom_count, s.dedup_hits,
    s.canonical_dedup_map.length, s.entity_refs.length,
    (s.entity_refs.map (fun er => er.2.length)).sum⟩

/-- A temporal query result: three parallel columns and a count
(`AtomLog::TemporalQueryResult`). -/
structure TemporalQueryResult where
  values : List AtomValue
  timestamps : List Nat
  lsns : List Nat
  total_count : Nat
deriving DecidableEq

/-- The rows of a chunk whose timestamp falls in the inclusive range
(`AtomLog::collect_chunk_values`, as (value, timestamp, lsn) triples). -/
def chunk_rows_in_range (c : TemporalChunk) (start_time end_time : Nat) :
    List (AtomValue × Nat × Nat) :=
  (c.values.zip (c.timestamps.zip c.lsns)).filter
    (fun row => start_time ≤ row.2.1 ∧ row.2.1 ≤ end_time)

/-- Range query over a stream (`AtomLog::query_temporal_range`): all sealed
chunks whose metadata matches the stream, in the sealed map's (chunk-id)
iteration order, then the active chunk. -/
def query_temporal_range (s : Store) (entity : EntityId) (tag : List Nat)
    (start_time end_time : Nat) : TemporalQueryResult :=
  let sealed_rows :=
    (s.sealed_chunks.filter
      (fun kc => kc.2.metadata.entity_id = entity ∧ kc.2.metadata.tag = tag)).flatMap
      (fun kc => chunk_rows_in_range kc.2 start_time end_time)
  let rows :=
    match alist_find (entity, tag) s.active_chunks with
    | some c => sealed_rows ++ chunk_rows_in_range c start_time end_time
    | none => sealed_rows
  ⟨rows.map (fun row => row.1), rows.map (fun row => row.2.1),
    rows.map (fun row => row.2.2), rows.length⟩

/-- Full-range query (`AtomLog::query_temporal_all`): `[0, UINT64_MAX]`. -/
def query_temporal_all (s : Store) (entity : EntityId) (tag : List Nat) :
    TemporalQueryResult :=
  query_temporal_range s entity tag 0 (U64 - 1)

/-- A projected per-tag slot (`Node::Entry`). -/
structure NodeEntry where
  atom_id : AtomId
  value : AtomValue
  lsn : Nat
deriving DecidableEq

/-- The projected state of one entity (`core::Node`): latest slot per tag
(the map holds `Option` values, as the C++ map holds `std::optional`) and the
unconditional history. -/
structure Node where
  entity_id : EntityId
  latest_by_tag : List (List Nat × Option NodeEntry)
  history : List (AtomId × Nat)
deriving DecidableEq

/-- Apply one reference to a node (`Node::apply`): the per-tag slot is
replaced only when the slot is empty or the new LSN strictly exceeds the
slot's; history is appended unconditionally. -/
def node_apply (n : Node) (atom_id : AtomId) (type_tag : List Nat)
    (value : AtomValue) (lsn : Nat) : Node :=
  let slot := (alist_find type_tag n.latest_by_tag).getD none
  let slot :=
    match slot with
    | none => some (⟨atom_id, value, lsn⟩ : NodeEntry)
    | some e => if lsn > e.lsn then some ⟨atom_id, value, lsn⟩ else some e
  { n with
    latest_by_tag := alist_set type_tag slot n.latest_by_tag
    history := n.history ++ [(atom_id, lsn)] }

/-- Read the latest value for a tag (`Node::get`). -/
def node_get (n : Node) (tag : List Nat) : Option AtomValue :=
  match alist_find tag n.latest_by_tag with
  | some (some e) => some e.value
  | _ => none

/-- Modelled from the spec: `ProjectionEngine::rebuild` for the
reference-layer store. The `projection_engine.cpp` in the sources is an older
copy written against the pre-reference-layer `Atom` (it reads
`atom.entity_id()` and `atom.lsn()`, which the current `core/atom.h` no
longer has), so the current rebuild loop is taken from spec section 4.8:
fetch the entity's reference list, iterate it in order, look each atom up by
id, and `apply(atom_id, tag, value, lsn)` on the node. -/
def rebuild (s : Store) (entity : EntityId) : Node :=
  let refs := (get_entity_atoms s entity).getD []
  refs.foldl
    (fun n r =>
      match get_atom s r.atom_id with
      | some a => node_apply n a.atom_id a.type_tag a.value r.lsn
      | none => n)
    ⟨entity, [], []⟩

/-- The latest-string tracker of the fast index build: one pass over an
entity's reference list, with the acceptance logic of
`QueryIndex::build_indexes_direct` (skip unresolvable references; consider a
reference only when its resolved tag is the requested one and it is newer
than the accepted slot; accept it only when its value is a string, leaving
the slot's LSN untouched otherwise). -/
def latest_string_direct (s : Store) (refs : List AtomReference)
    (tag : List Nat) : Option (List Nat) :=
  (refs.foldl
    (fun acc r =>
      match get_atom s r.atom_id with
      | none => acc
      | some a =>
          if a.type_tag = tag then
            match acc with
            | none =>
                match a.value with
                | .vstring str => some (str, r.lsn)
                | _ => acc
            | some (_, l) =>
                if r.lsn > l then
                  match a.value with
                  | .vstring str => some (str, r.lsn)
                  | _ => acc
                else acc
          else acc)
    none).map Prod.fst

/-- The fast index-build path (`QueryIndex::build_indexes_direct`), as the
per-tag entity-to-string maps it produces for the requested tags. The C++
loop runs entities outermost with one slot per requested tag; for a
duplicate-free tag set this builds, for each tag, one entry per entity in
`get_all_entities` order, which is what this definition states directly. -/
def build_indexes_direct (s : Store) (tags : List (List Nat)) :
    List (List Nat × List (EntityId × List Nat)) :=
  tags.map (fun t =>
    (t, (get_all_entities s).filterMap (fun e =>
      match get_entity_atoms s e with
      | none => none
      | some refs => (latest_string_direct s refs t).map (fun str => (e, str)))))

/-- The fallback index-build path (`QueryIndex::build_indexes` when only a
projection engine is available): stream-rebuild every entity's node and keep
`node.get(tag)` when it is a string. `rebuild_all_streaming` hands every
entity's node to the callback exactly once (batching bounds memory only), so
the per-tag maps it fills are the ones built entity by entity below. -/
def build_indexes_fallback (s : Store) (tags : List (List Nat)) :
    List (List Nat × List (EntityId × List Nat)) :=
  tags.map (fun t =>
    (t, (get_all_entities s).filterMap (fun e =>
      match node_get (rebuild s e) t with
      | some (.vstring str) => some (e, str)
      | _ => none)))

/-- Byte encoder for `u8` (`BinaryWriter::write_u8`). -/
def write_u8 (v : Nat) : List Nat := [v % 256]

/-- Byte encoder for `u32`, host little-endian (`BinaryWriter::write_u32`). -/
def write_u32 (v : Nat) : List Nat := le_bytes 4 v

/-- Byte encoder for `u64`, host little-endian (`BinaryWriter::write_u64`). -/
def write_u64 (v : Nat) : List Nat := le_bytes 8 v

/-- Raw byte block (`BinaryWriter::write_bytes`); bytes are truncated to
`uint8_t` as the C++ types force. -/
def write_bytes (bs : List Nat) : List Nat := bs.map (· % 256)

/-- Length-prefixed string (`BinaryWriter::write_string`). -/
def write_string (str : List Nat) : List Nat :=
  write_u32 str.length ++ write_bytes str

/-- The 16 raw bytes of an atom id (`BinaryWriter::write_atom_id`). -/
def write_atom_id (id : AtomId) : List Nat := write_u64 id.lo ++ write_u64 id.hi

/-- The 16 raw bytes of an entity id (`BinaryWriter::write_entity_id`). -/
def write_entity_id (e : EntityId) : List Nat := write_u64 e.lo ++ write_u64 e.hi

/-- The `u8` discriminator of a classification, per the persisted format. -/
def classification_u8 : AtomType → Nat
  | .Canonical => 0
  | .Temporal => 1
  | .Mutable => 2

/-- Tagged value encoding (`BinaryWriter::write_atom_value`): one `u8`
discriminator, then the payload; strings, float vectors and blobs carry `u32`
length prefixes here (unlike the 8-byte lengths fed to the hasher). -/
def write_atom_value : AtomValue → List Nat
  | .vnull => write_u8 0
  | .vbool b => write_u8 1 ++ write_u8 (if b then 1 else 0)
  | .vint n => write_u8 2 ++ write_u64 n
  | .vdouble n => write_u8 3 ++ write_u64 n
  | .vstring str => write_u8 4 ++ write_string str
  | .vfloat_vec fs => write_u8 5 ++ write_u32 fs.length
      ++ write_bytes ((fs.map (le_bytes 4)).flatten)
  | .vblob bs => write_u8 6 ++ write_u32 bs.length ++ write_bytes bs
  | .vedge t r => write_u8 7 ++ write_entity_id t ++ write_string r

/-- One persisted content record (`AtomLog::save`'s per-atom block). -/
def write_atom (a : Atom) : List Nat :=
  write_atom_id a.atom_id ++ write_u8 (classification_u8 a.classification)
    ++ write_string a.type_tag ++ write_atom_value a.value ++ write_u64 a.created_at

/-- One persisted entity bucket (`AtomLog::save`'s per-entity block). -/
def write_entity_bucket (e : EntityId) (refs : List AtomReference) : List Nat :=
  write_entity_id e ++ write_u64 refs.length
    ++ (refs.map (fun r => write_atom_id r.atom_id ++ write_u64 r.lsn)).flatten

/-- The magic bytes `GTAF`. -/
def MAGIC : List Nat := [71, 84, 65, 70]

/-- Serialise the store (`AtomLog::save`, version 2): header, content
records, entity reference layer, refcounts. The model produces the file's
bytes; the C++ boolean result concerns I/O errors outside the format. -/
def save (s : Store) : List Nat :=
  MAGIC ++ write_u32 2 ++ write_u64 s.next_lsn ++ write_u64 s.next_atom_id
    ++ write_u64 s.atoms.length ++ (s.atoms.map write_atom).flatten
    ++ write_u64 s.entity_refs.length
    ++ (s.entity_refs.map (fun er => write_entity_bucket er.1 er.2)).flatten
    ++ write_u64 s.refcounts.length
    ++ (s.refcounts.map (fun rc => write_atom_id rc.1 ++ write_u32 rc.2)).flatten

/-- Take exactly `n` bytes from the input (`BinaryReader::read_bytes`). The
model reports end-of-input as a failure; the C++ reader never returns on
that path (`refill_buffer` obtains no bytes and the copy loop stops making
progress), so no theorem asserts anything of the source there. -/
def read_exact : Nat → List Nat → Option (List Nat × List Nat)
  | 0, rest => some ([], rest)
  | _ + 1, [] => none
  | n + 1, b :: rest =>
      match read_exact n rest with
      | some (bs, rest') => some (b :: bs, rest')
      | none => none

/-- Read one byte (`BinaryReader::read_u8`). Empty input is a failure in
the model, while the C++ reader would consume a stale zero-initialized
buffer byte and run past the buffer end; no theorem relies on this path. -/
def read_u8 : List Nat → Option (Nat × List Nat)
  | [] => none
  | b :: rest => some (b % 256, rest)

/-- Read a `u32` (`BinaryReader::read_u32`). -/
def read_u32 (l : List Nat) : Option (Nat × List Nat) :=
  match read_exact 4 l with
  | some (bs, rest) => some (from_le bs, rest)
  | none => none

/-- Read a `u64` (`BinaryReader::read_u64`). -/
def read_u64 (l : List Nat) : Option (Nat × List Nat) :=
  match read_exact 8 l with
  | some (bs, rest) => some (from_le bs, rest)
  | none => none

/-- Read a length-prefixed string (`BinaryReader::read_string`). -/
def read_string (l : List Nat) : Option (List Nat × List Nat) :=
  match read_u32 l with
  | some (len, rest) => read_exact len rest
  | none => none

/-- Read a 16-byte atom id (`BinaryReader::read_atom_id`). -/
def read_atom_id (l : List Nat) : Option (AtomId × List Nat) :=
  match read_u64 l with
  | some (lo, rest) =>
      match read_u64 rest with
      | some (hi, rest') => some (⟨lo, hi⟩, rest')
      | none => none
  | none => none

/-- Read a 16-byte entity id (`BinaryReader::read_entity_id`). -/
def read_entity_id (l : List Nat) : Option (EntityId × List Nat) :=
  match read_u64 l with
  | some (lo, rest) =>
      match read_u64 rest with
      | some (hi, rest') => some (⟨lo, hi⟩, rest')
      | none => none
  | none => none

/-- Read a tagged value (`BinaryReader::read_atom_value`); an unknown
discriminator is the `runtime_error` failure. -/
def read_atom_value (l : List Nat) : Option (AtomValue × List Nat) :=
  match read_u8 l with
  | none => none
  | some (0, rest) => some (.vnull, rest)
  | some (1, rest) =>
      match read_u8 rest with
      | some (b, rest') => some (.vbool (b ≠ 0), rest')
      | none => none
  | some (2, rest) =>
      match read_u64 rest with
      | some (n, rest') => some (.vint n, rest')
      | none => none
  | some (3, rest) =>
      match read_u64 rest with
      | some (n, rest') => some (.vdouble n, rest')
      | none => none
  | some (4, rest) =>
      match read_string rest with
      | some (str, rest') => some (.vstring str, rest')
      | none => none
  | some (5, rest) =>
      match read_u32 rest with
      | some (len, rest') =>
          match read_exact (4 * len) rest' with
          | some (raw, rest'') =>
              some (.vfloat_vec ((List.range len).map
                (fun i => from_le ((raw.drop (4 * i)).take 4))), rest'')
          | none => none
      | none => none
  | some (6, rest) =>
      match read_u32 rest with
      | some (len, rest') =>
          match read_exact len rest' with
          | some (bs, rest'') => some (.vblob bs, rest'')
          | none => none
      | none => none
  | some (7, rest) =>
      match read_entity_id rest with
      | some (t, rest') =>
          match read_string rest' with
          | some (r, rest'') => some (.vedge t r, rest'')
          | none => none
      | none => none
  | some _ => none

/-- Decode the classification byte (`static_cast<AtomType>`; only 0, 1, 2
occur in files written by `save`). -/
def decode_atom_type (n : Nat) : AtomType :=
  if n = 0 then .Canonical else if n = 1 then .Temporal else .Mutable

/-- The in-memory containers cleared by `AtomLog::load` once the header has
validated. -/
def cleared (s : Store) : Store :=
  { s with
    atoms := []
    content_index := []
    canonical_dedup_map := []
    entity_refs := []
    refcounts := []
    active_chunks := []
    sealed_chunks := []
    mutable_states := []
    next_chunk_id := [] }

/-- The content-record loop of `AtomLog::load`: parse each record, append it,
emplace it into the content index (first occurrence wins), and into the dedup
map with the canonical counter when Canonical. A parse failure surrenders the
partially built store, as the C++ `catch` does. -/
def load_atoms : Nat → Store → List Nat → Bool × Store × List Nat
  | 0, s, l => (true, s, l)
  | n + 1, s, l =>
      match read_atom_id l with
      | none => (false, s, [])
      | some (atom_id, l) =>
      match read_u8 l with
      | none => (false, s, [])
      | some (ty, l) =>
      match read_string l with
      | none => (false, s, [])
      | some (tag, l) =>
      match read_atom_value l with
      | none => (false, s, [])
      | some (value, l) =>
      match read_u64 l with
      | none => (false, s, [])
      | some (ts, l) =>
          let classification := decode_atom_type ty
          let i := s.atoms.length
          let s := { s with
                     atoms := s.atoms ++ [⟨atom_id, classification, tag, value, ts⟩]
                     content_index := alist_emplace atom_id i s.content_index }
          let s := if classification = .Canonical then
                     { s with
                       canonical_dedup_map := alist_emplace atom_id i s.canonical_dedup_map
                       canonical_atom_count := s.canonical_atom_count + 1 }
                   else s
          load_atoms n s l

/-- Parse `n` references of 24 bytes each (the bulk `read_bytes` plus the
`memcpy` slicing of `AtomLog::load`, one reference at a time). -/
def read_refs : Nat → List Nat → Option (List AtomReference × List Nat)
  | 0, l => some ([], l)
  | n + 1, l =>
      match read_atom_id l with
      | none => none
      | some (atom_id, l) =>
      match read_u64 l with
      | none => none
      | some (lsn, l) =>
          match read_refs n l with
          | some (rs, l') => some (⟨atom_id, lsn⟩ :: rs, l')
          | none => none

/-- The entity-bucket loop of `AtomLog::load`. When the bulk reference read
fails, the C++ store keeps the bucket resized to `ref_count`
default-constructed references. -/
def load_entities : Nat → Store → List Nat → Bool × Store × List Nat
  | 0, s, l => (true, s, l)
  | n + 1, s, l =>
      match read_entity_id l with
      | none => (false, s, [])
      | some (entity, l) =>
      match read_u64 l with
      | none => (false, s, [])
      | some (ref_count, l) =>
          match read_refs ref_count l with
          | none =>
              (false,
                { s with
                  entity_refs := alist_set entity
                    (List.replicate ref_count ⟨⟨0, 0⟩, 0⟩) s.entity_refs }, [])
          | some (refs, l) =>
              load_entities n
                { s with entity_refs := alist_set entity refs s.entity_refs } l

/-- The refcount loop of `AtomLog::load`. -/
def load_refcounts : Nat → Store → List Nat → Bool × Store × List Nat
  | 0, s, l => (true, s, l)
  | n + 1, s, l =>
      match read_atom_id l with
      | none => (false, s, [])
      | some (atom_id, l) =>
      match read_u32 l with
      | none => (false, s, [])
      | some (count, l) =>
          load_refcounts n
            { s with refcounts := alist_emplace atom_id count s.refcounts } l

/-- Restore a store from file bytes (`AtomLog::load`). Faithful to the
source's sequencing: the magic and version are checked before anything is
cleared (so a header failure leaves the previous contents untouched); the
in-memory state is cleared only after the header validates; a failure later
leaves whatever was rebuilt so far; on success the session counters
`dedup_hits` and `snapshot_count` are reset to zero. -/
def load (s : Store) (f : List Nat) : Bool × Store :=
  match read_exact 4 f with
  | none => (false, s)
  | some (magic, r) =>
  if magic ≠ MAGIC then (false, s) else
  match read_u32 r with
  | none => (false, s)
  | some (version, r) =>
  if version ≠ 2 then (false, s) else
  let s := cleared s
  match read_u64 r with
  | none => (false, s)
  | some (nlsn, r) =>
  let s := { s with next_lsn := nlsn }
  match read_u64 r with
  | none => (false, s)
  | some (naid, r) =>
  let s := { s with next_atom_id := naid }
  match read_u64 r with
  | none => (false, s)
  | some (atom_count, r) =>
  let s := { s with canonical_atom_count := 0 }
  match load_atoms atom_count s r with
  | (false, s, _) => (false, s)
  | (true, s, r) =>
  match read_u64 r with
  | none => (false, s)
  | some (entity_count, r) =>
  match load_entities entity_count s r with
  | (false, s, _) => (false, s)
  | (true, s, r) =>
  match read_u64 r with
  | none => (false, s)
  | some (refcount_count, r) =>
  match load_refcounts refcount_count s r with
  | (false, s, _) => (false, s)
  | (true, s, _) => (true, { s with dedup_hits := 0, snapshot_count := 0 })

section AssocLemmas

variable {κ : Type} {ν : Type} [DecidableEq κ]

theorem alist_find_set_self (k : κ) (v : ν) (l : List (κ × ν)) :
    alist_find k (alist_set k v l) = some v := by
  induction l with
  | nil => simp [alist_find, alist_set]
  | cons p rest ih =>
      obtain ⟨a, b⟩ := p
      by_cases h : a = k
      · simp [alist_find, alist_set, h]
      · simp [alist_find, alist_set, h, ih]

theorem alist_find_set_ne (k k' : κ) (v : ν) (l : List (κ × ν)) (h : k' ≠ k) :
    alist_find k (alist_set k' v l) = alist_find k l := by
  induction l with
  | nil => simp [alist_find, alist_set, h]
  | cons p rest ih =>
      obtain ⟨a, b⟩ := p
      by_cases h2 : a = k'
      · have h3 : a ≠ k := by rw [h2]; exact h
        simp [alist_find, alist_set, h2, h3, h]
      · simp only [alist_set, if_neg h2]
        by_cases h3 : a = k
        · simp [alist_find, h3]
        · simp [alist_find, h3, ih]

theorem mem_alist_set (k : κ) (v : ν) (l : List (κ × ν)) (q : κ × ν)
    (h : q ∈ alist_set k v l) : q = (k, v) ∨ q ∈ l := by
  induction l with
  | nil => simpa [alist_set] using h
  | cons p rest ih =>
      obtain ⟨a, b⟩ := p
      by_cases h2 : a = k
      · simp only [alist_set, if_pos h2] at h
        rcases List.mem_cons.mp h with h3 | h3
        · exact Or.inl h3
        · exact Or.inr (List.mem_cons_of_mem _ h3)
      · simp only [alist_set, if_neg h2] at h
        rcases List.mem_cons.mp h with h3 | h3
        · exact Or.inr (List.mem_cons.mpr (Or.inl h3))
        · rcases ih h3 with h4 | h4
          · exact Or.inl h4
          · exact Or.inr (List.mem_cons_of_mem _ h4)

theorem alist_find_mem (k : κ) (l : List (κ × ν)) (v : ν)
    (h : alist_find k l = some v) : (k, v) ∈ l := by
  induction l with
  | nil => simp [alist_find] at h
  | cons p rest ih =>
      obtain ⟨a, b⟩ := p
      by_cases h2 : a = k
      · simp only [alist_find, if_pos h2] at h
        injection h with h4
        subst h4
        subst h2
        exact List.mem_cons_self _ _
      · simp only [alist_find, if_neg h2] at h
        exact List.mem_cons_of_mem _ (ih h)

end AssocLemmas

/-- Strictly ascending LSNs along one reference list. -/
def ref_lsns_ascending : List AtomReference → Bool
  | [] => true
  | [_] => true
  | a :: b :: rest => decide (a.lsn < b.lsn) && ref_lsns_ascending (b :: rest)

/-- Strict LSN order of one reference list. -/
def RefChain (rs : List AtomReference) : Prop := ref_lsns_ascending rs = true

instance (rs : List AtomReference) : Decidable (RefChain rs) :=
  inferInstanceAs (Decidable (ref_lsns_ascending rs = true))

/-- Per-entity LSN order over the whole store. -/
def refs_in_lsn_order (s : Store) : Prop := ∀ p ∈ s.entity_refs, RefChain p.2

instance (s : Store) : Decidable (refs_in_lsn_order s) :=
  inferInstanceAs (Decidable (∀ p ∈ s.entity_refs, RefChain p.2))

theorem RefChain_append_last (rs : List AtomReference) (r : AtomReference)
    (h1 : RefChain rs) (h2 : ∀ x ∈ rs, x.lsn < r.lsn) : RefChain (rs ++ [r]) := by
  unfold RefChain at *
  induction rs with
  | nil => rfl
  | cons a rest ih =>
      cases rest with
      | nil =>
          simp [ref_lsns_ascending]
          exact h2 a (List.mem_singleton_self a)
      | cons b rest2 =>
          simp only [ref_lsns_ascending, Bool.and_eq_true, decide_eq_true_eq] at h1
          have := ih h1.2 (fun x hx => h2 x (List.mem_cons_of_mem a hx))
          simp only [List.cons_append, ref_lsns_ascending, Bool.and_eq_true,
            decide_eq_true_eq]
          exact ⟨h1.1, by simpa using this⟩

/-- The inductive invariant for C1: every reference list is in strict LSN
order, and every recorded LSN is bounded by the LSN counter. -/
def RefsInv (entries : List (EntityId × List AtomReference)) (bound : Nat) : Prop :=
  ∀ p ∈ entries, RefChain p.2 ∧ ∀ r ∈ p.2, r.lsn ≤ bound

theorem RefsInv_push (entries : List (EntityId × List AtomReference))
    (bound : Nat) (e : EntityId) (id : AtomId) (hi : RefsInv entries bound) :
    RefsInv (refs_push entries e ⟨id, bound + 1⟩) (bound + 1) := by
  intro p hp
  rcases mem_alist_set _ _ _ _ hp with h | h
  · have hold : RefChain ((alist_find e entries).getD []) ∧
        ∀ x ∈ (alist_find e entries).getD [], x.lsn ≤ bound := by
      cases hfind : alist_find e entries with
      | none =>
          constructor
          · rfl
          · intro x hx
            simp at hx
      | some rs => simpa using hi (e, rs) (alist_find_mem _ _ _ hfind)
    subst h
    constructor
    · exact RefChain_append_last _ _ hold.1
        (fun x hx => Nat.lt_succ_of_le (hold.2 x hx))
    · intro r hr
      rcases List.mem_append.mp hr with h3 | h3
      · exact le_trans (hold.2 r h3) (Nat.le_succ _)
      · simp only [List.mem_singleton] at h3
        subst h3
        exact le_refl _
  · exact ⟨(hi p h).1, fun r hr => le_trans ((hi p h).2 r hr) (Nat.le_succ _)⟩


theorem append_canonical_entity_refs (s : Store) (e : EntityId) (tag : List Nat)
    (v : AtomValue) (now : Nat) :
    (append_canonical s e tag v now).2.entity_refs
      = refs_push s.entity_refs e ⟨compute_content_hash tag v, s.next_lsn + 1⟩ := by
  unfold append_canonical
  rcases h : alist_find (compute_content_hash tag v) s.canonical_dedup_map
      with _ | idx <;> simp [h]

theorem append_canonical_next_lsn (s : Store) (e : EntityId) (tag : List Nat)
    (v : AtomValue) (now : Nat) :
    (append_canonical s e tag v now).2.next_lsn = s.next_lsn + 1 := by
  unfold append_canonical
  rcases h : alist_find (compute_content_hash tag v) s.canonical_dedup_map
      with _ | idx <;> simp [h]

theorem append_canonical_snapshot_count (s : Store) (e : EntityId) (tag : List Nat)
    (v : AtomValue) (now : Nat) :
    (append_canonical s e tag v now).2.snapshot_count = s.snapshot_count := by
  unfold append_canonical
  rcases h : alist_find (compute_content_hash tag v) s.canonical_dedup_map
      with _ | idx <;> simp [h]

theorem get_or_create_active_chunk_entity_refs (s : Store) (key : StreamKey)
    (now : Nat) :
    (get_or_create_active_chunk s key now).2.entity_refs = s.entity_refs := by
  unfold get_or_create_active_chunk
  rcases h : alist_find key s.active_chunks with _ | c
  · rcases h2 : alist_find key s.next_chunk_id with _ | n <;> simp [h, h2]
  · simp [h]

theorem get_or_create_active_chunk_next_lsn (s : Store) (key : StreamKey)
    (now : Nat) :
    (get_or_create_active_chunk s key now).2.next_lsn = s.next_lsn := by
  unfold get_or_create_active_chunk
  rcases h : alist_find key s.active_chunks with _ | c
  · rcases h2 : alist_find key s.next_chunk_id with _ | n <;> simp [h, h2]
  · simp [h]

theorem get_or_create_active_chunk_snapshot_count (s : Store) (key : StreamKey)
    (now : Nat) :
    (get_or_create_active_chunk s key now).2.snapshot_count = s.snapshot_count := by
  unfold get_or_create_active_chunk
  rcases h : alist_find key s.active_chunks with _ | c
  · rcases h2 : alist_find key s.next_chunk_id with _ | n <;> simp [h, h2]
  · simp [h]

theorem seal_and_rotate_chunk_entity_refs (s : Store) (key : StreamKey) (now : Nat) :
    (seal_and_rotate_chunk s key now).entity_refs = s.entity_refs := by
  unfold seal_and_rotate_chunk
  rcases h : alist_find key s.active_chunks with _ | c <;> simp [h]

theorem seal_and_rotate_chunk_next_lsn (s : Store) (key : StreamKey) (now : Nat) :
    (seal_and_rotate_chunk s key now).next_lsn = s.next_lsn := by
  unfold seal_and_rotate_chunk
  rcases h : alist_find key s.active_chunks with _ | c <;> simp [h]

theorem seal_and_rotate_chunk_snapshot_count (s : Store) (key : StreamKey)
    (now : Nat) :
    (seal_and_rotate_chunk s key now).snapshot_count = s.snapshot_count := by
  unfold seal_and_rotate_chunk
  rcases h : alist_find key s.active_chunks with _ | c <;> simp [h]

theorem get_or_create_mutable_state_entity_refs (s : Store) (key : StreamKey)
    (v : AtomValue) (now : Nat) :
    (get_or_create_mutable_state s key v now).2.entity_refs = s.entity_refs := by
  unfold get_or_create_mutable_state
  rcases h : alist_find key s.mutable_states with _ | st <;> simp [h]

theorem get_or_create_mutable_state_next_lsn (s : Store) (key : StreamKey)
    (v : AtomValue) (now : Nat) :
    (get_or_create_mutable_state s key v now).2.next_lsn = s.next_lsn := by
  unfold get_or_create_mutable_state
  rcases h : alist_find key s.mutable_states with _ | st <;> simp [h]

theorem get_or_create_mutable_state_snapshot_count (s : Store) (key : StreamKey)
    (v : AtomValue) (now : Nat) :
    (get_or_create_mutable_state s key v now).2.snapshot_count = s.snapshot_count := by
  unfold get_or_create_mutable_state
  rcases h : alist_find key s.mutable_states with _ | st <;> simp [h]

theorem emit_snapshot_count_found (s : Store) (key : StreamKey) (now : Nat)
    (st : MutableState) (h : alist_find key s.mutable_states = some st) :
    (emit_snapshot s key now).snapshot_count = s.snapshot_count + 1 := by
  unfold emit_snapshot
  simp [h]

/-- Every append leaves the snapshot counter where it was or raises it. -/
theorem apply_op_snapshot_mono (s : Store) (op : AppendOp) :
    s.snapshot_count ≤ (apply_op s op).snapshot_count := by
  cases op with
  | canonical e tag v now =>
      simp [apply_op, append_canonical_snapshot_count]
  | temporal e tag v now =>
      simp only [apply_op]
      unfold append_temporal
      rcases h1 : get_or_create_active_chunk { s with next_lsn := s.next_lsn + 1 }
          (e, tag) now with ⟨c, s2⟩
      have hc : s2.snapshot_count = s.snapshot_count := by
        have := get_or_create_active_chunk_snapshot_count
          { s with next_lsn := s.next_lsn + 1 } (e, tag) now
        rw [h1] at this
        simpa using this
      simp only [h1]
      split <;> simp [seal_and_rotate_chunk_snapshot_count, hc]
  | mutableOp e tag v now =>
      simp only [apply_op]
      unfold append_mutable
      rcases h1 : get_or_create_mutable_state { s with next_lsn := s.next_lsn + 1 }
          ((e, tag) : StreamKey) v now with ⟨st, s2⟩
      have hc : s2.snapshot_count = s.snapshot_count := by
        have := get_or_create_mutable_state_snapshot_count
          { s with next_lsn := s.next_lsn + 1 } (e, tag) v now
        rw [h1] at this
        simpa using this
      simp only [h1]
      split
      · have hkey := alist_find_set_self ((e, tag) : StreamKey)
          (mutate st v (s.next_lsn + 1) (ts_of now)) s2.mutable_states
        have hemit := emit_snapshot_count_found
          { s2 with mutable_states := (alist_set ((e, tag) : StreamKey)
              (mutate st v (s.next_lsn + 1) (ts_of now)) s2.mutable_states) }
          (e, tag) now (mutate st v (s.next_lsn + 1) (ts_of now))
          (by simpa using hkey)
        simp [hemit]
        omega
      · simp [hc]

theorem run_ops_cons (s : Store) (op : AppendOp) (rest : List AppendOp) :
    run_ops s (op :: rest) = run_ops (apply_op s op) rest := rfl

theorem run_ops_snapshot_mono (s : Store) (ops : List AppendOp) :
    s.snapshot_count ≤ (run_ops s ops).snapshot_count := by
  induction ops generalizing s with
  | nil => simp [run_ops]
  | cons op rest ih =>
      rw [run_ops_cons]
      exact le_trans (apply_op_snapshot_mono s op) (ih (apply_op s op))

theorem apply_op_refs_inv (s : Store) (op : AppendOp)
    (hsnap : (apply_op s op).snapshot_count = s.snapshot_count)
    (hi : RefsInv s.entity_refs s.next_lsn) :
    RefsInv (apply_op s op).entity_refs (apply_op s op).next_lsn := by
  cases op with
  | canonical e tag v now =>
      simp only [apply_op]
      rw [append_canonical_entity_refs, append_canonical_next_lsn]
      exact RefsInv_push _ _ _ _ hi
  | temporal e tag v now =>
      simp only [apply_op]
      unfold append_temporal
      rcases h1 : get_or_create_active_chunk { s with next_lsn := s.next_lsn + 1 }
          (e, tag) now with ⟨c, s2⟩
      have he : s2.entity_refs = s.entity_refs := by
        have := get_or_create_active_chunk_entity_refs
          { s with next_lsn := s.next_lsn + 1 } (e, tag) now
        rw [h1] at this
        simpa using this
      have hl : s2.next_lsn = s.next_lsn + 1 := by
        have := get_or_create_active_chunk_next_lsn
          { s with next_lsn := s.next_lsn + 1 } (e, tag) now
        rw [h1] at this
        simpa using this
      simp only [h1]
      split
      · simp [seal_and_rotate_chunk_entity_refs, seal_and_rotate_chunk_next_lsn,
          he, hl]
        exact RefsInv_push _ _ _ _ hi
      · simp [he, hl]
        exact RefsInv_push _ _ _ _ hi
  | mutableOp e tag v now =>
      simp only [apply_op] at hsnap ⊢
      unfold append_mutable at hsnap ⊢
      rcases h1 : get_or_create_mutable_state { s with next_lsn := s.next_lsn + 1 }
          ((e, tag) : StreamKey) v now with ⟨st, s2⟩
      have he : s2.entity_refs = s.entity_refs := by
        have := get_or_create_mutable_state_entity_refs
          { s with next_lsn := s.next_lsn + 1 } (e, tag) v now
        rw [h1] at this
        simpa using this
      have hl : s2.next_lsn = s.next_lsn + 1 := by
        have := get_or_create_mutable_state_next_lsn
          { s with next_lsn := s.next_lsn + 1 } (e, tag) v now
        rw [h1] at this
        simpa using this
      have hc : s2.snapshot_count = s.snapshot_count := by
        have := get_or_create_mutable_state_snapshot_count
          { s with next_lsn := s.next_lsn + 1 } (e, tag) v now
        rw [h1] at this
        simpa using this
      simp only [h1] at hsnap ⊢
      split
      · rename_i hss
        rw [if_pos hss] at hsnap
        have hkey := alist_find_set_self ((e, tag) : StreamKey)
          (mutate st v (s.next_lsn + 1) (ts_of now)) s2.mutable_states
        have hemit := emit_snapshot_count_found
          { s2 with mutable_states := (alist_set ((e, tag) : StreamKey)
              (mutate st v (s.next_lsn + 1) (ts_of now)) s2.mutable_states) }
          (e, tag) now (mutate st v (s.next_lsn + 1) (ts_of now))
          (by simpa using hkey)
        simp [hemit] at hsnap
        exfalso
        omega
      · rename_i hss
        rw [if_neg (by simpa using hss)] at hsnap
        simp [he, hl]
        exact RefsInv_push _ _ _ _ hi

theorem run_ops_refs_inv (s : Store) (ops : List AppendOp)
    (hi : RefsInv s.entity_refs s.next_lsn)
    (hsnap : (run_ops s ops).snapshot_count = s.snapshot_count) :
    RefsInv (run_ops s ops).entity_refs (run_ops s ops).next_lsn := by
  induction ops generalizing s with
  | nil => simpa [run_ops] using hi
  | cons op rest ih =>
      rw [run_ops_cons] at hsnap ⊢
      have ha := apply_op_snapshot_mono s op
      have hb := run_ops_snapshot_mono (apply_op s op) rest
      have h1 : (apply_op s op).snapshot_count = s.snapshot_count := by omega
      exact ih (apply_op s op) (apply_op_refs_inv s op h1 hi) (by omega)

/-- C1 (amended): for every append sequence on one store during which no
snapshot was emitted (final `snapshot_count` zero), every entity's reference
list is ordered by strictly increasing LSN, equal to insertion order. The
restriction is forced: a Mutable append that triggers a snapshot pushes the
snapshot's reference (with the larger, later LSN) before the mutation's own
reference, so that list is out of LSN order (see the counterexample). -/
theorem c1_per_entity_lsn_order (ct st : Nat) (ops : List AppendOp)
    (h : (run_ops (new_store ct st) ops).snapshot_count = 0) :
    refs_in_lsn_order (run_ops (new_store ct st) ops) := by
  have hi : RefsInv (new_store ct st).entity_refs (new_store ct st).next_lsn := by
    intro p hp
    simp [new_store] at hp
  have hres := run_ops_refs_inv (new_store ct st) ops hi (by rw [h]; rfl)
  intro p hp
  exact (hres p hp).1

/-- Ten Mutable appends to one `(entity, tag)` stream at the default
snapshot threshold 10: the tenth triggers the snapshot. -/
def c1_cex_store : Store :=
  run_ops (new_store 1000 10)
    ((List.range 10).map (fun i => .mutableOp ⟨1, 0⟩ [99] (.vint (i + 1)) 0))

/-- C1 (counterexample): after ten Mutable appends at snapshot threshold 10,
the entity's reference list carries LSNs 1..9, 11, 10 — the snapshot's
reference (LSN 11) sits before the triggering mutation's (LSN 10), so the
list is not in LSN order. -/
theorem c1_counterexample : ¬ refs_in_lsn_order c1_cex_store := by decide

/-- C1 (witness): a snapshot-free run of all three append classes satisfies
the amended theorem's hypothesis and conclusion. -/
theorem c1_witness :
    (run_ops (new_store 1000 10)
        [.canonical ⟨1, 0⟩ [1] .vnull 0, .mutableOp ⟨1, 0⟩ [2] (.vint 1) 0,
          .temporal ⟨1, 0⟩ [3] (.vint 2) 0]).snapshot_count = 0 ∧
      refs_in_lsn_order (run_ops (new_store 1000 10)
        [.canonical ⟨1, 0⟩ [1] .vnull 0, .mutableOp ⟨1, 0⟩ [2] (.vint 1) 0,
          .temporal ⟨1, 0⟩ [3] (.vint 2) 0]) :=
  ⟨by decide, c1_per_entity_lsn_order 1000 10 _ (by decide)⟩

/-- Number of references to one atom id across all entity reference lists. -/
def refs_count (entries : List (EntityId × List AtomReference)) (id : AtomId) : Nat :=
  (entries.map (fun er => (er.2.filter (fun r => r.atom_id = id)).length)).sum

/-- Number of references to one atom id across the store. -/
def ref_total (s : Store) (id : AtomId) : Nat := refs_count s.entity_refs id

/-- The stored refcount of an atom id (absent entries count zero, as
`operator[]` would default-construct them). -/
def refcount_of (s : Store) (id : AtomId) : Nat :=
  (alist_find id s.refcounts).getD 0

theorem refs_count_push (entries : List (EntityId × List AtomReference))
    (e : EntityId) (id0 : AtomId) (lsn : Nat) (id : AtomId) :
    refs_count (refs_push entries e ⟨id0, lsn⟩) id
      = refs_count entries id + (if id0 = id then 1 else 0) := by
  induction entries with
  | nil =>
      simp only [refs_push, alist_find, alist_set, Option.getD_none, List.nil_append,
        refs_count, List.map_cons, List.map_nil, List.sum_cons, List.sum_nil]
      by_cases h : id0 = id <;> simp [h]
  | cons p rest ih =>
      obtain ⟨k, rs⟩ := p
      by_cases h : k = e
      · subst h
        simp only [refs_push, alist_find, if_pos rfl, Option.getD_some, alist_set,
          refs_count, List.map_cons, List.sum_cons]
        by_cases h2 : id0 = id
        · simp [h2, List.filter_append]
          omega
        · simp [h2, List.filter_append]
      · have hne : e ≠ k := fun hh => h hh.symm
        simp only [refs_push, alist_find, if_neg h, alist_set, if_neg h]
        simp only [refs_count, List.map_cons, List.sum_cons]
        have := ih
        simp only [refs_push, refs_count] at this
        rw [this]
        omega

theorem refs_count_zero (entries : List (EntityId × List AtomReference))
    (id : AtomId) (h : ∀ p ∈ entries, ∀ r ∈ p.2, r.atom_id ≠ id) :
    refs_count entries id = 0 := by
  induction entries with
  | nil => rfl
  | cons p rest ih =>
      simp only [refs_count, List.map_cons, List.sum_cons]
      have h1 : (p.2.filter (fun r => r.atom_id = id)).length = 0 := by
        rw [List.length_eq_zero, List.filter_eq_nil_iff]
        intro r hr
        simpa using h p (List.mem_cons_self _ _) r hr
      rw [h1]
      have h2 := ih (fun q hq r hr => h q (List.mem_cons_of_mem _ hq) r hr)
      simp only [refs_count] at h2
      omega

/-- The C6 inductive invariant: refcounts agree with the reference layer, and
every referenced id is present in the dedup map. -/
def RefcountInv (s : Store) : Prop :=
  (∀ id, refcount_of s id = ref_total s id) ∧
    ∀ p ∈ s.entity_refs, ∀ r ∈ p.2,
      alist_find r.atom_id s.canonical_dedup_map ≠ none

theorem append_canonical_refcount_inv (s : Store) (e : EntityId)
    (tag : List Nat) (v : AtomValue) (now : Nat) (hi : RefcountInv s) :
    RefcountInv (append_canonical s e tag v now).2 := by
  obtain ⟨hi1, hi2⟩ := hi
  unfold append_canonical
  rcases hfind : alist_find (compute_content_hash tag v) s.canonical_dedup_map
      with _ | idx
  · -- new content: refcount set to 1, reference pushed, dedup extended
    simp only [hfind]
    constructor
    · intro id
      by_cases h : compute_content_hash tag v = id
      · subst h
        have hz : ref_total s (compute_content_hash tag v) = 0 := by
          apply refs_count_zero
          intro p hp r hr heq
          exact (heq ▸ hi2 p hp r hr) hfind
        simp only [refcount_of, ref_total] at *
        simp only [alist_find_set_self]
        rw [refs_count_push]
        simp [hz]
      · simp only [refcount_of, ref_total] at *
        rw [alist_find_set_ne _ _ _ _ h, refs_count_push]
        simp [h, hi1 id]
    · intro p hp r hr
      by_cases h : r.atom_id = compute_content_hash tag v
      · rw [h, alist_find_set_self]
        simp
      · rw [alist_find_set_ne _ _ _ _ (fun hh => h hh.symm)]
        rcases mem_alist_set _ _ _ _ hp with h2 | h2
        · subst h2
          simp only [] at hr
          rcases List.mem_append.mp hr with h3 | h3
          · rcases hfind2 : alist_find e s.entity_refs with _ | rs
            · rw [hfind2] at h3
              simp at h3
            · rw [hfind2] at h3
              exact hi2 (e, rs) (alist_find_mem _ _ _ hfind2) r (by simpa using h3)
          · simp only [List.mem_singleton] at h3
            subst h3
            simp at h
        · exact hi2 p h2 r hr
  · -- deduplicated: refcount bumped, reference pushed
    simp only [hfind]
    constructor
    · intro id
      by_cases h : compute_content_hash tag v = id
      · subst h
        simp only [refcount_of, ref_total, refcount_bump] at *
        simp only [alist_find_set_self]
        rw [refs_count_push]
        simp [hi1 (compute_content_hash tag v)]
      · simp only [refcount_of, ref_total, refcount_bump] at *
        rw [alist_find_set_ne _ _ _ _ h, refs_count_push]
        simp [h, hi1 id]
    · intro p hp r hr
      rcases mem_alist_set _ _ _ _ hp with h2 | h2
      · subst h2
        simp only [] at hr
        rcases List.mem_append.mp hr with h3 | h3
        · rcases hfind2 : alist_find e s.entity_refs with _ | rs
          · rw [hfind2] at h3
            simp at h3
          · rw [hfind2] at h3
            exact hi2 (e, rs) (alist_find_mem _ _ _ hfind2) r (by simpa using h3)
        · simp only [List.mem_singleton] at h3
          subst h3
          simp [hfind]
      · exact hi2 p h2 r hr

/-- Recogniser for the Canonical append discipline. -/
def is_canonical_op : AppendOp → Bool
  | .canonical _ _ _ _ => true
  | _ => false

theorem run_ops_refcount_inv (s : Store) (ops : List AppendOp)
    (hc : ∀ op ∈ ops, is_canonical_op op = true) (hi : RefcountInv s) :
    RefcountInv (run_ops s ops) := by
  induction ops generalizing s with
  | nil => simpa [run_ops] using hi
  | cons op rest ih =>
      rw [run_ops_cons]
      have h1 := hc op (List.mem_cons_self _ _)
      cases op with
      | canonical e tag v now =>
          exact ih (apply_op s (.canonical e tag v now))
            (fun o ho => hc o (List.mem_cons_of_mem _ ho))
            (append_canonical_refcount_inv s e tag v now hi)
      | temporal e tag v now => simp [is_canonical_op] at h1
      | mutableOp e tag v now => simp [is_canonical_op] at h1

/-- C6 (amended): after every sequence of Canonical appends, each atom id's
stored refcount equals the number of references to that atom across all
entity reference lists. The restriction to the Canonical discipline is
forced: `append_temporal`, `append_mutable` and `emit_snapshot` add entity
references without ever touching the refcount map (see the counterexample,
where one Temporal append leaves a reference with no refcount). -/
theorem c6_refcounts_match_references (ct st : Nat) (ops : List AppendOp)
    (hc : ∀ op ∈ ops, is_canonical_op op = true) :
    ∀ id, refcount_of (run_ops (new_store ct st) ops) id
      = ref_total (run_ops (new_store ct st) ops) id := by
  have hi : RefcountInv (new_store ct st) := by
    constructor
    · intro id
      rfl
    · intro p hp
      simp [new_store] at hp
  exact (run_ops_refcount_inv (new_store ct st) ops hc hi).1

/-- One Temporal append: a reference to sequential id 1 exists but no
refcount entry does. -/
def c6_cex_store : Store :=
  run_ops (new_store 1000 10) [.temporal ⟨1, 0⟩ [99] (.vint 5) 0]

/-- C6 (counterexample): after a single Temporal append the stored refcount
of the new atom id is 0 while one entity reference points at it, so the
claimed equality fails for sequences that are not Canonical-only. -/
theorem c6_counterexample :
    ¬ ∀ id, refcount_of c6_cex_store id = ref_total c6_cex_store id := by
  intro h
  have := h ⟨1, 0⟩
  revert this
  decide

/-- C6 (witness): three Canonical appends (one a dedup hit), checked at the
shared content hash. -/
theorem c6_witness :
    (∀ op ∈ ([.canonical ⟨1, 0⟩ [5] (.vstring [97]) 0,
        .canonical ⟨2, 0⟩ [5] (.vstring [97]) 0,
        .canonical ⟨1, 0⟩ [5] (.vstring [98]) 0] : List AppendOp),
      is_canonical_op op = true) ∧
      refcount_of (run_ops (new_store 1000 10)
          [.canonical ⟨1, 0⟩ [5] (.vstring [97]) 0,
            .canonical ⟨2, 0⟩ [5] (.vstring [97]) 0,
            .canonical ⟨1, 0⟩ [5] (.vstring [98]) 0])
          (compute_content_hash [5] (.vstring [97]))
        = ref_total (run_ops (new_store 1000 10)
            [.canonical ⟨1, 0⟩ [5] (.vstring [97]) 0,
              .canonical ⟨2, 0⟩ [5] (.vstring [97]) 0,
              .canonical ⟨1, 0⟩ [5] (.vstring [98]) 0])
            (compute_content_hash [5] (.vstring [97])) :=
  ⟨by decide, c6_refcounts_match_references 1000 10 _ (by decide)
    (compute_content_hash [5] (.vstring [97]))⟩

/-- The C8 inductive invariant for one mutable stream on an otherwise empty
store: the count of stored snapshot-tagged records and the session snapshot
counter both equal the number of emitted snapshots `q`, and the stream's
delta buffer and delta counter both hold `rem` entries. -/
def MutInv (E : EntityId) (tag : List Nat) (s : Store) (q rem : Nat) : Prop :=
  (s.atoms.filter (fun a => a.type_tag = tag ++ DOT_SNAPSHOT)).length = q ∧
    s.snapshot_count = q ∧
    ((s.mutable_states = [] ∧ q = 0 ∧ rem = 0) ∨
      (∃ st : MutableState, s.mutable_states = [((E, tag), st)] ∧
        st.metadata.tag = tag ∧ st.metadata.entity_id = E ∧
        st.metadata.delta_count_since_snapshot = rem ∧ st.deltas.length = rem))

theorem tag_ne_snapshot_tag (tag : List Nat) : ¬ tag = tag ++ DOT_SNAPSHOT := by
  intro h
  have := congrArg List.length h
  simp [DOT_SNAPSHOT] at this

theorem mutable_step (s : Store) (E : EntityId) (tag : List Nat) (v : AtomValue)
    (now : Nat) (q rem : Nat) (hInv : MutInv E tag s q rem)
    (hrem : rem + 1 ≤ s.snapshot_delta_threshold) :
    (append_mutable s E tag v now).2.snapshot_delta_threshold
        = s.snapshot_delta_threshold ∧
      (rem + 1 < s.snapshot_delta_threshold →
        MutInv E tag (append_mutable s E tag v now).2 q (rem + 1)) ∧
      (rem + 1 = s.snapshot_delta_threshold →
        MutInv E tag (append_mutable s E tag v now).2 (q + 1) 0) := by
  obtain ⟨hatoms, hcount, hstream⟩ := hInv
  rcases hstream with ⟨hempty, hq0, hrem0⟩ | ⟨st, hst, htag, hent, hdc, hdl⟩
  · -- first append of the stream: the state is created with zero deltas
    subst hq0
    subst hrem0
    unfold append_mutable get_or_create_mutable_state
    simp only [hempty, alist_find, new_mutable_state, alist_emplace, mutate,
      should_snapshot, List.nil_append]
    split
    · rename_i hss
      simp only [ge_iff_le, decide_eq_true_eq] at hss
      unfold emit_snapshot
      refine ⟨?_, fun hlt => absurd hlt (by omega), fun heq => ?_⟩
      · simp [alist_set, alist_find]
      · simp [MutInv, alist_set, alist_find, mark_snapshot, List.filter_append,
          hatoms, hcount, tag_ne_snapshot_tag tag]
    · rename_i hss
      simp only [ge_iff_le, decide_eq_true_eq] at hss
      refine ⟨?_, fun hlt => ?_, fun heq => absurd heq (by omega)⟩
      · simp [alist_set, alist_find]
      · simp [MutInv, alist_set, alist_find, List.filter_append,
          hatoms, hcount, tag_ne_snapshot_tag tag]
  · -- subsequent append: the state is found and mutated
    have hfind : alist_find ((E, tag) : StreamKey) s.mutable_states = some st := by
      rw [hst]
      simp [alist_find]
    unfold append_mutable get_or_create_mutable_state
    simp only [hfind, mutate, should_snapshot, hdc]
    split
    · rename_i hss
      simp only [ge_iff_le, decide_eq_true_eq] at hss
      unfold emit_snapshot
      have hfind2 := alist_find_set_self ((E, tag) : StreamKey)
        (mutate st v (s.next_lsn + 1) (ts_of now)) s.mutable_states
      simp only [mutate, hdc] at hfind2
      simp only [hfind2, mark_snapshot]
      refine ⟨?_, fun hlt => absurd hlt (by omega), fun heq => ?_⟩
      · trivial
      · simp [MutInv, hst, alist_set, alist_find, List.filter_append,
          hatoms, hcount, htag, hent, tag_ne_snapshot_tag tag]
    · rename_i hss
      simp only [ge_iff_le, decide_eq_true_eq] at hss
      refine ⟨?_, fun hlt => ?_, fun heq => absurd heq (by omega)⟩
      · rfl
      · simp [MutInv, hst, alist_set, alist_find, List.filter_append,
          hatoms, hcount, htag, hent, hdc, hdl, tag_ne_snapshot_tag tag]

theorem run_mut_inv (E : EntityId) (tag : List Nat)
    (vals : List (AtomValue × Nat)) (s : Store) (q rem : Nat)
    (ht : 1 ≤ s.snapshot_delta_threshold)
    (hrem : rem < s.snapshot_delta_threshold) (hi : MutInv E tag s q rem) :
    ∃ q' rem',
      MutInv E tag
          (run_ops s (vals.map (fun p => AppendOp.mutableOp E tag p.1 p.2)))
          q' rem' ∧
        (run_ops s (vals.map (fun p => AppendOp.mutableOp E tag p.1 p.2))).snapshot_delta_threshold
          = s.snapshot_delta_threshold ∧
        rem' < s.snapshot_delta_threshold ∧
        q' * s.snapshot_delta_threshold + rem'
          = q * s.snapshot_delta_threshold + rem + vals.length := by
  induction vals generalizing s q rem with
  | nil => exact ⟨q, rem, by simpa [run_ops] using hi, rfl, hrem, by simp [run_ops]⟩
  | cons p rest ih =>
      simp only [List.map_cons, run_ops_cons]
      have hstep := mutable_step s E tag p.1 p.2 q rem hi (by omega)
      have happ : apply_op s (AppendOp.mutableOp E tag p.1 p.2)
          = (append_mutable s E tag p.1 p.2).2 := rfl
      by_cases hc : rem + 1 < s.snapshot_delta_threshold
      · have hi1 := hstep.2.1 hc
        obtain ⟨q', rem', h1, h2, h3, h4⟩ :=
          ih (apply_op s (AppendOp.mutableOp E tag p.1 p.2)) q (rem + 1)
            (by rw [happ, hstep.1]; exact ht)
            (by rw [happ, hstep.1]; exact hc) (by rw [happ]; exact hi1)
        rw [happ, hstep.1] at h2 h3 h4
        refine ⟨q', rem', h1, by rw [happ]; exact h2, h3, ?_⟩
        simp only [List.length_cons]
        omega
      · have hceq : rem + 1 = s.snapshot_delta_threshold := by omega
        have hi1 := hstep.2.2 hceq
        obtain ⟨q', rem', h1, h2, h3, h4⟩ :=
          ih (apply_op s (AppendOp.mutableOp E tag p.1 p.2)) (q + 1) 0
            (by rw [happ, hstep.1]; exact ht)
            (by rw [happ, hstep.1]; omega) (by rw [happ]; exact hi1)
        rw [happ, hstep.1] at h2 h3 h4
        refine ⟨q', rem', h1, by rw [happ]; exact h2, h3, ?_⟩
        simp only [List.length_cons]
        have : (q + 1) * s.snapshot_delta_threshold
            = q * s.snapshot_delta_threshold + s.snapshot_delta_threshold := by ring
        omega

/-- C8: for every n ≥ 1 and snapshot threshold t ≥ 1, after n Mutable appends
to one `(entity, tag)` stream on a fresh store exactly ⌊n/t⌋ snapshot content
records with tag `"<tag>.snapshot"` have been stored, and the stream's delta
buffer (and delta counter) hold exactly n mod t ≤ t−1 entries: the snapshot
emitted on every t-th mutation clears the buffer and resets the counter.
Since the value sequence is universally quantified, the buffer bound holds
after every completed append (apply the theorem to each prefix). -/
theorem c8_mutable_snapshot_counting (ct t : Nat) (ht : 1 ≤ t) (E : EntityId)
    (tag : List Nat) (vals : List (AtomValue × Nat)) (_hn : 1 ≤ vals.length) :
    ((run_ops (new_store ct t)
          (vals.map (fun p => AppendOp.mutableOp E tag p.1 p.2))).atoms.filter
        (fun a => a.type_tag = tag ++ DOT_SNAPSHOT)).length = vals.length / t ∧
      (run_ops (new_store ct t)
          (vals.map (fun p => AppendOp.mutableOp E tag p.1 p.2))).snapshot_count
        = vals.length / t ∧
      ∀ st, alist_find ((E, tag) : StreamKey)
            (run_ops (new_store ct t)
              (vals.map (fun p => AppendOp.mutableOp E tag p.1 p.2))).mutable_states
          = some st →
        st.deltas.length = vals.length % t ∧
          st.metadata.delta_count_since_snapshot = vals.length % t ∧
          st.deltas.length ≤ t - 1 := by
  have hi : MutInv E tag (new_store ct t) 0 0 :=
    ⟨rfl, rfl, Or.inl ⟨rfl, rfl, rfl⟩⟩
  obtain ⟨q', rem', hInv, hthr, hlt, hacc⟩ :=
    run_mut_inv E tag vals (new_store ct t) 0 0 ht ht hi
  have hthr0 : (new_store ct t).snapshot_delta_threshold = t := rfl
  rw [hthr0] at hlt hacc
  simp only [Nat.zero_mul, Nat.zero_add] at hacc
  have hq : q' = vals.length / t := by
    rw [← hacc, Nat.add_comm, Nat.mul_comm q' t,
      Nat.add_mul_div_left _ _ (by omega : 0 < t), Nat.div_eq_of_lt hlt]
    omega
  have hr : rem' = vals.length % t := by
    rw [← hacc, Nat.add_comm, Nat.mul_comm q' t, Nat.add_mul_mod_self_left,
      Nat.mod_eq_of_lt hlt]
  obtain ⟨ha, hc, hstream⟩ := hInv
  refine ⟨by rw [ha, hq], by rw [hc, hq], ?_⟩
  intro st hfind
  rcases hstream with ⟨hempty, _, _⟩ | ⟨st0, hst, _, _, hdc, hdl⟩
  · rw [hempty] at hfind
    simp [alist_find] at hfind
  · rw [hst] at hfind
    simp [alist_find] at hfind
    subst hfind
    refine ⟨by rw [hdl, hr], by rw [hdc, hr], ?_⟩
    rw [hdl, hr]
    have := Nat.mod_lt vals.length (show 0 < t by omega)
    omega

/-- C8 (witness): five Mutable appends at threshold 2 store ⌊5/2⌋ = 2
snapshot records. -/
theorem c8_witness :
    1 ≤ 2 ∧
      1 ≤ ([((.vint 1 : AtomValue), 0), (.vint 2, 0), (.vint 3, 0),
        (.vint 4, 0), (.vint 5, 0)] : List (AtomValue × Nat)).length ∧
      ((run_ops (new_store 1000 2)
            (([((.vint 1 : AtomValue), 0), (.vint 2, 0), (.vint 3, 0),
              (.vint 4, 0), (.vint 5, 0)] : List (AtomValue × Nat)).map
              (fun p => AppendOp.mutableOp ⟨7, 0⟩ [99] p.1 p.2))).atoms.filter
          (fun a => a.type_tag = [99] ++ DOT_SNAPSHOT)).length
        = ([((.vint 1 : AtomValue), 0), (.vint 2, 0), (.vint 3, 0),
            (.vint 4, 0), (.vint 5, 0)] : List (AtomValue × Nat)).length / 2 :=
  ⟨by decide, by decide,
    (c8_mutable_snapshot_counting 1000 2 (by decide) ⟨7, 0⟩ [99] _ (by decide)).1⟩

theorem sorted_emplace_append {ν : Type} (q : Nat) (c : ν) (l : List (Nat × ν))
    (h : ∀ k ∈ l.map Prod.fst, k < q) : sorted_emplace q c l = l ++ [(q, c)] := by
  induction l with
  | nil => rfl
  | cons p rest ih =>
      obtain ⟨k, v⟩ := p
      have hk : k < q := h k (by simp)
      simp only [sorted_emplace, if_neg (by omega : ¬ q < k),
        if_neg (by omega : ¬ q = k), List.cons_append, List.cons.injEq, true_and]
      exact ih (fun k2 hk2 => h k2 (by simp [hk2]))

theorem sorted_emplace_present {ν : Type} (q : Nat) (c c0 : ν)
    (pre : List (Nat × ν)) (hpre : ∀ k ∈ pre.map Prod.fst, k < q) :
    sorted_emplace q c (pre ++ [(q, c0)]) = pre ++ [(q, c0)] := by
  induction pre with
  | nil => simp [sorted_emplace]
  | cons p rest ih =>
      obtain ⟨k, v⟩ := p
      have hk : k < q := hpre k (by simp)
      simp only [List.cons_append, sorted_emplace, if_neg (by omega : ¬ q < k),
        if_neg (by omega : ¬ q = k), List.cons.injEq, true_and]
      exact ih (fun k2 hk2 => hpre k2 (by simp [hk2]))

theorem chunk_rows_full_range (c : TemporalChunk)
    (hts : c.timestamps.length = c.values.length)
    (hls : c.lsns.length = c.values.length)
    (hu : ∀ u ∈ c.timestamps, u < U64) :
    (chunk_rows_in_range c 0 (U64 - 1)).map (fun row => row.1) = c.values ∧
      (chunk_rows_in_range c 0 (U64 - 1)).length = c.values.length := by
  unfold chunk_rows_in_range
  have hfull : (c.values.zip (c.timestamps.zip c.lsns)).filter
      (fun row => decide (0 ≤ row.2.1 ∧ row.2.1 ≤ U64 - 1))
      = c.values.zip (c.timestamps.zip c.lsns) := by
    apply List.filter_eq_self.mpr
    intro row hrow
    have hmem := List.of_mem_zip hrow
    have hmem2 := List.of_mem_zip hmem.2
    have := hu row.2.1 hmem2.1
    simp only [decide_eq_true_eq]
    omega
  rw [hfull]
  constructor
  · exact List.map_fst_zip _ _ (by simp [List.length_zip]; omega)
  · rw [List.length_zip, List.length_zip]
    omega

/-- The C7 inductive invariant for one temporal stream on an otherwise empty
store: `q` sealed chunks of exactly `T` rows each, keyed 0..q−1 in order, an
active chunk with the `r` trailing rows exactly when `r ≠ 0`, and the
next-chunk-id counter at the number of chunks created. `vs` is the sequence
of values appended so far. -/
def TempInv (E : EntityId) (tag : List Nat) (T : Nat) (s : Store)
    (q r : Nat) (vs : List AtomValue) : Prop :=
  s.chunk_size_threshold = T ∧
    vs.length = q * T + r ∧ r < T ∧
    s.sealed_chunks.map Prod.fst = List.range q ∧
    (∀ kc ∈ s.sealed_chunks,
      kc.2.metadata.entity_id = E ∧ kc.2.metadata.tag = tag ∧
        kc.2.metadata.is_sealed = true ∧ kc.2.metadata.value_count = T ∧
        kc.2.values.length = T ∧ kc.2.timestamps.length = T ∧
        kc.2.lsns.length = T ∧ ∀ u ∈ kc.2.timestamps, u < U64) ∧
    (if r = 0 then
      s.active_chunks = [] ∧
        (s.sealed_chunks.map (fun kc => kc.2.values)).flatten = vs
    else
      ∃ c, s.active_chunks = [((E, tag), c)] ∧
        c.metadata.entity_id = E ∧ c.metadata.tag = tag ∧
        c.metadata.is_sealed = false ∧ c.metadata.value_count = r ∧
        c.metadata.chunk_id = q ∧ c.values.length = r ∧
        c.timestamps.length = r ∧ c.lsns.length = r ∧
        (∀ u ∈ c.timestamps, u < U64) ∧
        (s.sealed_chunks.map (fun kc => kc.2.values)).flatten ++ c.values = vs) ∧
    s.next_chunk_id =
      (if q = 0 ∧ r = 0 then []
       else [((E, tag), q + (if r = 0 then 0 else 1))])

theorem ts_of_lt (now : Nat) : ts_of now < U64 :=
  Nat.mod_lt _ (by norm_num [U64])

theorem temporal_step (s : Store) (E : EntityId) (tag : List Nat)
    (v : AtomValue) (now : Nat) (T q r : Nat) (vs : List AtomValue)
    (hT : 1 ≤ T) (hInv : TempInv E tag T s q r vs) :
    (r + 1 < T →
      TempInv E tag T (append_temporal s E tag v now).2 q (r + 1) (vs ++ [v])) ∧
    (r + 1 = T →
      TempInv E tag T (append_temporal s E tag v now).2 (q + 1) 0 (vs ++ [v])) := by
  obtain ⟨hthr, hlen, hr, hkeys, hsealed, hactive, hmap⟩ := hInv
  have hkeys_lt : ∀ k ∈ s.sealed_chunks.map Prod.fst, k < q := by
    rw [hkeys]
    intro k hk
    exact List.mem_range.mp hk
  by_cases hr0 : r = 0
  · -- no active chunk: this append creates chunk q and appends into it
    subst hr0
    rw [if_pos rfl] at hactive
    obtain ⟨hact, hflat⟩ := hactive
    have hfindA : alist_find ((E, tag) : StreamKey) s.active_chunks = none := by
      rw [hact]
      rfl
    have hm2 : alist_set ((E, tag) : StreamKey) (q + 1) s.next_chunk_id
        = [((E, tag), q + 1)] := by
      by_cases hq0 : q = 0
      · rw [hmap, if_pos ⟨hq0, rfl⟩, hq0]
        rfl
      · rw [hmap, if_neg (by simp [hq0])]
        simp [alist_set]
    have hcid : (match alist_find ((E, tag) : StreamKey) s.next_chunk_id with
        | some n => (n, { s with
            next_lsn := s.next_lsn + 1
            next_chunk_id := alist_set ((E, tag) : StreamKey) (n + 1) s.next_chunk_id })
        | none => (0, { s with
            next_lsn := s.next_lsn + 1
            next_chunk_id := alist_set ((E, tag) : StreamKey) 1 s.next_chunk_id }))
        = ((q, { s with
            next_lsn := s.next_lsn + 1
            next_chunk_id := alist_set ((E, tag) : StreamKey) (q + 1) s.next_chunk_id })
          : Nat × Store) := by
      by_cases hq0 : q = 0
      · rw [hmap, if_pos ⟨hq0, rfl⟩, hq0]
        rfl
      · have hx : s.next_chunk_id = [((E, tag), q)] := by
          rw [hmap, if_neg (by simp [hq0])]
          simp
        rw [hx]
        simp [alist_find]
    unfold append_temporal get_or_create_active_chunk
    simp only [hfindA]
    rw [hcid]
    simp only [hm2, hact, new_chunk, chunk_append, chunk_should_seal,
      alist_emplace, alist_find, alist_set, List.nil_append, if_true, hthr]
    split
    · rename_i hss
      simp only [ge_iff_le, decide_eq_true_eq] at hss
      have hT1 : T = 1 := by omega
      unfold seal_and_rotate_chunk
      simp only [alist_find, if_true, chunk_seal, alist_erase]
      rw [sorted_emplace_append _ _ _ hkeys_lt]
      refine ⟨fun hlt => absurd hlt (by omega), fun heq => ?_⟩
      unfold TempInv
      refine ⟨rfl, ?_, hr, ?_, ?_, ?_, ?_⟩
      · simp only [List.length_append, List.length_singleton, hlen]
        subst hT1
        omega
      · simp [List.map_append, hkeys, List.range_succ]
      · intro kc hkc
        rcases List.mem_append.mp hkc with h2 | h2
        · exact hsealed kc h2
        · simp only [List.mem_singleton] at h2
          subst h2
          subst hT1
          refine ⟨rfl, rfl, rfl, rfl, rfl, rfl, rfl, ?_⟩
          intro u hu
          simp only [List.mem_singleton] at hu
          subst hu
          exact ts_of_lt now
      · simp [List.map_append, List.flatten_append, hflat]
      · simp
    · rename_i hss
      simp only [ge_iff_le, decide_eq_true_eq] at hss
      refine ⟨fun hlt => ?_, fun heq => absurd heq (by omega)⟩
      unfold TempInv
      refine ⟨rfl, ?_, by omega, hkeys, hsealed, ?_, ?_⟩
      · simp only [List.length_append, List.length_singleton, hlen]
      · rw [if_neg (by omega)]
        refine ⟨_, rfl, rfl, rfl, rfl, rfl, rfl, rfl, rfl, rfl, ?_, ?_⟩
        · intro u hu
          simp only [List.mem_singleton] at hu
          subst hu
          exact ts_of_lt now
        · simp [hflat]
      · simp
  · -- active chunk exists: append into it, seal when it fills
    rw [if_neg hr0] at hactive
    obtain ⟨c, hact, hcE, hcT, hcS, hcC, hcId, hvl, htl, hll, hub, hflat⟩ := hactive
    have hfindA : alist_find ((E, tag) : StreamKey) s.active_chunks = some c := by
      rw [hact]
      simp [alist_find]
    have hmapv : s.next_chunk_id = [((E, tag), q + 1)] := by
      rw [hmap, if_neg (by simp [hr0]), if_neg hr0]
    unfold append_temporal get_or_create_active_chunk
    simp only [hfindA]
    simp only [hact, chunk_append, chunk_should_seal, alist_set,
      List.nil_append, if_true, hthr, hcC]
    split
    · rename_i hss
      simp only [ge_iff_le, decide_eq_true_eq] at hss
      have hreq : r + 1 = T := by omega
      unfold seal_and_rotate_chunk
      simp only [alist_find, if_true, chunk_seal, alist_erase, hcId]
      rw [sorted_emplace_append _ _ _ hkeys_lt]
      refine ⟨fun hlt => absurd hlt (by omega), fun heq => ?_⟩
      unfold TempInv
      have hmul : (q + 1) * T = q * T + T := by ring
      refine ⟨rfl, ?_, by omega, ?_, ?_, ?_, ?_⟩
      · simp only [List.length_append, List.length_singleton, hlen]
        omega
      · simp [List.map_append, hkeys, List.range_succ]
      · intro kc hkc
        rcases List.mem_append.mp hkc with h2 | h2
        · exact hsealed kc h2
        · simp only [List.mem_singleton] at h2
          subst h2
          refine ⟨hcE, hcT, rfl, by simpa using hreq, ?_, ?_, ?_, ?_⟩
          · simp [hvl, hreq]
          · simp [htl, hreq]
          · simp [hll, hreq]
          · intro u hu
            rcases List.mem_append.mp hu with h3 | h3
            · exact hub u h3
            · simp only [List.mem_singleton] at h3
              subst h3
              exact ts_of_lt now
      · simp only [if_pos rfl]
        constructor
        · trivial
        · simp only [List.map_append, List.flatten_append]
          simp only [List.map_cons, List.map_nil, List.flatten_cons,
            List.flatten_nil, List.append_nil]
          rw [← List.append_assoc, hflat]
      · rw [hmapv]
        simp
    · rename_i hss
      simp only [ge_iff_le, decide_eq_true_eq] at hss
      refine ⟨fun hlt => ?_, fun heq => absurd heq (by omega)⟩
      unfold TempInv
      refine ⟨rfl, ?_, by omega, hkeys, hsealed, ?_, ?_⟩
      · simp only [List.length_append, List.length_singleton, hlen]
        omega
      · rw [if_neg (by omega)]
        refine ⟨_, rfl, hcE, hcT, hcS, by simp [hcC], hcId, ?_, ?_, ?_, ?_, ?_⟩
        · simp [hvl]
        · simp [htl]
        · simp [hll]
        · intro u hu
          rcases List.mem_append.mp hu with h3 | h3
          · exact hub u h3
          · simp only [List.mem_singleton] at h3
            subst h3
            exact ts_of_lt now
        · rw [← List.append_assoc, hflat]
      · rw [hmapv]
        simp [hr0]

theorem run_temp_inv (E : EntityId) (tag : List Nat)
    (vals : List (AtomValue × Nat)) (s : Store) (T q r : Nat)
    (vs : List AtomValue) (hT : 1 ≤ T) (hInv : TempInv E tag T s q r vs) :
    ∃ q' r',
      TempInv E tag T
          (run_ops s (vals.map (fun p => AppendOp.temporal E tag p.1 p.2)))
          q' r' (vs ++ vals.map Prod.fst) ∧
        q' * T + r' = q * T + r + vals.length := by
  induction vals generalizing s q r vs with
  | nil => exact ⟨q, r, by simpa [run_ops] using hInv, by simp⟩
  | cons p rest ih =>
      simp only [List.map_cons, run_ops_cons]
      have happ : apply_op s (AppendOp.temporal E tag p.1 p.2)
          = (append_temporal s E tag p.1 p.2).2 := rfl
      have hrlt : r < T := hInv.2.2.1
      have hstep := temporal_step s E tag p.1 p.2 T q r vs hT hInv
      by_cases hc : r + 1 < T
      · obtain ⟨q', r', h1, h2⟩ :=
          ih (apply_op s (AppendOp.temporal E tag p.1 p.2)) q (r + 1) (vs ++ [p.1])
            (by rw [happ]; exact hstep.1 hc)
        refine ⟨q', r', ?_, ?_⟩
        · simpa using h1
        · simp only [List.length_cons]
          omega
      · have hceq : r + 1 = T := by omega
        obtain ⟨q', r', h1, h2⟩ :=
          ih (apply_op s (AppendOp.temporal E tag p.1 p.2)) (q + 1) 0 (vs ++ [p.1])
            (by rw [happ]; exact hstep.2 hceq)
        refine ⟨q', r', ?_, ?_⟩
        · simpa using h1
        · simp only [List.length_cons]
          have : (q + 1) * T = q * T + T := by ring
          omega

theorem sealed_rows_map_fst (l : List (Nat × TemporalChunk))
    (h : ∀ kc ∈ l, kc.2.timestamps.length = kc.2.values.length ∧
      kc.2.lsns.length = kc.2.values.length ∧ ∀ u ∈ kc.2.timestamps, u < U64) :
    ((l.flatMap (fun kc => chunk_rows_in_range kc.2 0 (U64 - 1))).map
        (fun row => row.1))
      = (l.map (fun kc => kc.2.values)).flatten := by
  induction l with
  | nil => rfl
  | cons kc rest ih =>
      obtain ⟨h1, h2, h3⟩ := h kc (List.mem_cons_self _ _)
      have hrows := chunk_rows_full_range kc.2 h1 h2 h3
      simp only [List.flatMap_cons, List.map_cons, List.flatten_cons,
        List.map_append, hrows.1]
      rw [ih (fun kc2 hk => h kc2 (List.mem_cons_of_mem _ hk))]

theorem query_from_temp_inv (E : EntityId) (tag : List Nat) (T q r : Nat)
    (vs : List AtomValue) (s : Store) (hInv : TempInv E tag T s q r vs) :
    (query_temporal_all s E tag).values = vs ∧
      (query_temporal_all s E tag).total_count = vs.length := by
  obtain ⟨hthr, hlen, hr, hkeys, hsealed, hactive, hmap⟩ := hInv
  have hfilter : s.sealed_chunks.filter
      (fun kc => decide (kc.2.metadata.entity_id = E ∧ kc.2.metadata.tag = tag))
      = s.sealed_chunks := by
    apply List.filter_eq_self.mpr
    intro kc hk
    have := hsealed kc hk
    simp [this.1, this.2.1]
  have hlens : ∀ kc ∈ s.sealed_chunks,
      kc.2.timestamps.length = kc.2.values.length ∧
        kc.2.lsns.length = kc.2.values.length ∧
        ∀ u ∈ kc.2.timestamps, u < U64 := by
    intro kc hk
    obtain ⟨_, _, _, _, h5, h6, h7, h8⟩ := hsealed kc hk
    exact ⟨h6.trans h5.symm, h7.trans h5.symm, h8⟩
  have hsr := sealed_rows_map_fst s.sealed_chunks hlens
  unfold query_temporal_all query_temporal_range
  by_cases hr0 : r = 0
  · subst hr0
    rw [if_pos rfl] at hactive
    obtain ⟨hact, hflat⟩ := hactive
    have hfA : alist_find ((E, tag) : StreamKey) s.active_chunks = none := by
      rw [hact]
      rfl
    simp only [hfA, hfilter]
    have hv : ((s.sealed_chunks.flatMap
        (fun kc => chunk_rows_in_range kc.2 0 (U64 - 1))).map
          (fun row => row.1)) = vs := by rw [hsr, hflat]
    constructor
    · exact hv
    · have := congrArg List.length hv
      simpa using this
  · rw [if_neg hr0] at hactive
    obtain ⟨c, hact, hcE, hcT, hcS, hcC, hcId, hvl, htl, hll, hub, hflat⟩ := hactive
    have hfA : alist_find ((E, tag) : StreamKey) s.active_chunks = some c := by
      rw [hact]
      simp [alist_find]
    simp only [hfA, hfilter]
    have hcrows := chunk_rows_full_range c (htl.trans hvl.symm)
      (hll.trans hvl.symm) hub
    have hv : (((s.sealed_chunks.flatMap
        (fun kc => chunk_rows_in_range kc.2 0 (U64 - 1)))
          ++ chunk_rows_in_range c 0 (U64 - 1)).map (fun row => row.1)) = vs := by
      rw [List.map_append, hsr, hcrows.1, hflat]
    constructor
    · exact hv
    · have := congrArg List.length hv
      simpa using this

/-- C7: for every k ≥ 1 and chunk threshold T ≥ 1, appending k Temporal
values to one `(entity, tag)` stream on a fresh store produces ⌈k/T⌉ chunks:
⌊k/T⌋ sealed chunks of exactly T values each, plus an unsealed active chunk
holding the k mod T trailing values exactly when T does not divide k; and
`query_temporal_all` on that stream returns exactly k values in insertion
order. Sealed chunks are iterated in chunk-id order, a detail modelled from
the spec (section 4.4) because the container's declaration is in the
`atom_store.h` header absent from the sources. -/
theorem c7_temporal_chunking (st T : Nat) (hT : 1 ≤ T) (E : EntityId)
    (tag : List Nat) (vals : List (AtomValue × Nat)) (hk : 1 ≤ vals.length) :
    (run_ops (new_store T st)
        (vals.map (fun p => AppendOp.temporal E tag p.1 p.2))).sealed_chunks.length
        = vals.length / T ∧
      (∀ kc ∈ (run_ops (new_store T st)
          (vals.map (fun p => AppendOp.temporal E tag p.1 p.2))).sealed_chunks,
        kc.2.metadata.is_sealed = true ∧ kc.2.values.length = T ∧
          kc.2.metadata.value_count = T) ∧
      (vals.length % T = 0 →
        (run_ops (new_store T st)
          (vals.map (fun p => AppendOp.temporal E tag p.1 p.2))).active_chunks = []) ∧
      (vals.length % T ≠ 0 →
        ∃ c, (run_ops (new_store T st)
            (vals.map (fun p => AppendOp.temporal E tag p.1 p.2))).active_chunks
            = [((E, tag), c)] ∧
          c.metadata.is_sealed = false ∧ c.values.length = vals.length % T) ∧
      (run_ops (new_store T st)
          (vals.map (fun p => AppendOp.temporal E tag p.1 p.2))).sealed_chunks.length
          + (run_ops (new_store T st)
            (vals.map (fun p => AppendOp.temporal E tag p.1 p.2))).active_chunks.length
        = (vals.length + T - 1) / T ∧
      (query_temporal_all (run_ops (new_store T st)
          (vals.map (fun p => AppendOp.temporal E tag p.1 p.2))) E tag).values
        = vals.map Prod.fst ∧
      (query_temporal_all (run_ops (new_store T st)
          (vals.map (fun p => AppendOp.temporal E tag p.1 p.2))) E tag).total_count
        = vals.length := by
  have hi : TempInv E tag T (new_store T st) 0 0 [] := by
    refine ⟨rfl, by simp, by omega, rfl, ?_, ?_, rfl⟩
    · intro kc hk2
      simp [new_store] at hk2
    · simp [new_store]
  obtain ⟨q', r', hInv, hacc⟩ :=
    run_temp_inv E tag vals (new_store T st) T 0 0 [] hT hi
  simp only [List.nil_append, Nat.zero_mul, Nat.zero_add] at hInv hacc
  have hmulc : T * q' = q' * T := by ring
  have hrlt : r' < T := hInv.2.2.1
  have hq : q' = vals.length / T := by
    rw [← hacc, Nat.add_comm, Nat.mul_comm q' T,
      Nat.add_mul_div_left _ _ (by omega : 0 < T), Nat.div_eq_of_lt hrlt]
    omega
  have hr : r' = vals.length % T := by
    rw [← hacc, Nat.add_comm, Nat.mul_comm q' T, Nat.add_mul_mod_self_left,
      Nat.mod_eq_of_lt hrlt]
  obtain ⟨hthr, hlen2, _, hkeys, hsealed, hactive, hmap⟩ := hInv
  have hslen : (run_ops (new_store T st)
      (vals.map (fun p => AppendOp.temporal E tag p.1 p.2))).sealed_chunks.length
      = q' := by
    have := congrArg List.length hkeys
    simpa using this
  have hquery := query_from_temp_inv E tag T q' r'
    (vals.map Prod.fst)
    (run_ops (new_store T st) (vals.map (fun p => AppendOp.temporal E tag p.1 p.2)))
    ⟨hthr, hlen2, hrlt, hkeys, hsealed, hactive, hmap⟩
  refine ⟨by rw [hslen, hq], ?_, ?_, ?_, ?_, hquery.1, by rw [hquery.2]; simp⟩
  · intro kc hk2
    obtain ⟨_, _, h3, h4, h5, _, _, _⟩ := hsealed kc hk2
    exact ⟨h3, h5, h4⟩
  · intro hmod
    rw [← hr] at hmod
    rw [if_pos hmod] at hactive
    exact hactive.1
  · intro hmod
    rw [← hr] at hmod
    rw [if_neg hmod] at hactive
    obtain ⟨c, hact, _, _, hcS, _, _, hvl, _⟩ := hactive
    exact ⟨c, hact, hcS, by rw [hvl, hr]⟩
  · by_cases hmod : r' = 0
    · rw [if_pos hmod] at hactive
      rw [hactive.1, hslen]
      have hn1 : 1 ≤ vals.length := hk
      have hq1 : 1 ≤ q' := by
        rcases Nat.eq_zero_or_pos q' with h0 | h0
        · subst h0
          omega
        · exact h0
      have he : vals.length + T - 1 = (T - 1) + T * q' := by omega
      rw [he, Nat.add_mul_div_left _ _ (by omega : 0 < T),
        Nat.div_eq_of_lt (by omega : T - 1 < T)]
      simp
    · rw [if_neg hmod] at hactive
      obtain ⟨c, hact, _⟩ := hactive
      rw [hact, hslen]
      have hmulc2 : T * (q' + 1) = T * q' + T := by ring
      have he : vals.length + T - 1 = (r' - 1) + T * (q' + 1) := by omega
      rw [he, Nat.add_mul_div_left _ _ (by omega : 0 < T),
        Nat.div_eq_of_lt (by omega : r' - 1 < T)]
      simp

/-- C7 (witness): three Temporal appends at chunk threshold 2 leave
⌊3/2⌋ = 1 sealed chunk. -/
theorem c7_witness :
    1 ≤ 2 ∧
      1 ≤ ([((.vint 1 : AtomValue), 0), (.vint 2, 0), (.vint 3, 0)]
        : List (AtomValue × Nat)).length ∧
      (run_ops (new_store 2 10)
          (([((.vint 1 : AtomValue), 0), (.vint 2, 0), (.vint 3, 0)]
            : List (AtomValue × Nat)).map
            (fun p => AppendOp.temporal ⟨3, 0⟩ [7] p.1 p.2))).sealed_chunks.length
        = ([((.vint 1 : AtomValue), 0), (.vint 2, 0), (.vint 3, 0)]
            : List (AtomValue × Nat)).length / 2 :=
  ⟨by decide, by decide,
    (c7_temporal_chunking 10 2 (by decide) ⟨3, 0⟩ [7] _ (by decide)).1⟩

/-- The C10 phase-2 invariant: a foreign sealed chunk keyed 0 sits in the
sealed map while a second stream fills its own first chunk (also numbered 0).
`j` counts the second stream's appends; when its chunk seals at `j = T`, the
`emplace` under the already-taken key 0 drops it, leaving the sealed map
unchanged and no active chunk. -/
def Phase2Inv (keyA keyB : StreamKey) (T : Nat) (cA : TemporalChunk)
    (s : Store) (j : Nat) : Prop :=
  s.chunk_size_threshold = T ∧
    s.sealed_chunks = [(0, cA)] ∧
    (if j = 0 ∨ j = T then s.active_chunks = []
     else ∃ c, s.active_chunks = [(keyB, c)] ∧ c.metadata.chunk_id = 0 ∧
       c.metadata.value_count = j ∧ c.values.length = j) ∧
    s.next_chunk_id = (if j = 0 then [(keyA, 1)] else [(keyA, 1), (keyB, 1)])

theorem phase2_step (keyA : StreamKey) (E2 : EntityId) (t2 : List Nat)
    (hne : ((E2, t2) : StreamKey) ≠ keyA) (T : Nat) (hT : 1 ≤ T)
    (cA : TemporalChunk) (s : Store) (j : Nat) (hj : j < T)
    (hInv : Phase2Inv keyA (E2, t2) T cA s j) (v : AtomValue) (now : Nat) :
    Phase2Inv keyA (E2, t2) T cA (append_temporal s E2 t2 v now).2 (j + 1) := by
  obtain ⟨hthr, hsealed, hactive, hmap⟩ := hInv
  by_cases hj0 : j = 0
  · subst hj0
    rw [if_pos (Or.inl rfl)] at hactive
    rw [if_pos rfl] at hmap
    have hfindA : alist_find ((E2, t2) : StreamKey) s.active_chunks = none := by
      rw [hactive]
      rfl
    have hfindN : alist_find ((E2, t2) : StreamKey) s.next_chunk_id = none := by
      rw [hmap]
      obtain ⟨ka, kt⟩ := keyA
      simp only [alist_find]
      rw [if_neg (fun hh => hne hh.symm)]
    have hsetN : alist_set ((E2, t2) : StreamKey) 1 s.next_chunk_id
        = [(keyA, 1), ((E2, t2), 1)] := by
      rw [hmap]
      obtain ⟨ka, kt⟩ := keyA
      simp only [alist_set]
      rw [if_neg (fun hh => hne hh.symm)]
    unfold append_temporal get_or_create_active_chunk
    simp only [hfindA, hfindN, hsetN, hactive, new_chunk, chunk_append,
      chunk_should_seal, alist_emplace, alist_find, alist_set,
      List.nil_append, if_true, hthr]
    split
    · rename_i hss
      simp only [ge_iff_le, decide_eq_true_eq] at hss
      have hT1 : T = 1 := by omega
      unfold seal_and_rotate_chunk
      simp only [alist_find, if_true, chunk_seal, alist_erase, hsealed,
        sorted_emplace, lt_self_iff_false, if_false, if_pos rfl]
      refine ⟨rfl, by simp [sorted_emplace], ?_, by simp⟩
      rw [if_pos (Or.inr hT1.symm)]
    · refine ⟨rfl, by simp [hsealed], ?_, by simp⟩
      rename_i hss
      simp only [ge_iff_le, decide_eq_true_eq] at hss
      rw [if_neg (by omega)]
      exact ⟨_, rfl, rfl, rfl, rfl⟩
  · rw [if_neg (by omega)] at hactive
    rw [if_neg hj0] at hmap
    obtain ⟨c, hact, hcId, hcC, hvl⟩ := hactive
    have hfindA : alist_find ((E2, t2) : StreamKey) s.active_chunks = some c := by
      rw [hact]
      simp [alist_find]
    unfold append_temporal get_or_create_active_chunk
    simp only [hfindA]
    simp only [hact, chunk_append, chunk_should_seal, alist_set,
      List.nil_append, if_true, hthr, hcC]
    split
    · rename_i hss
      simp only [ge_iff_le, decide_eq_true_eq] at hss
      have hTeq : j + 1 = T := by omega
      unfold seal_and_rotate_chunk
      simp only [alist_find, if_true, chunk_seal, alist_erase, hcId, hsealed,
        sorted_emplace, lt_self_iff_false, if_false, if_pos rfl]
      refine ⟨rfl, by simp [sorted_emplace], ?_, by simp [hmap, hj0]⟩
      rw [if_pos (Or.inr hTeq)]
    · rename_i hss
      simp only [ge_iff_le, decide_eq_true_eq] at hss
      refine ⟨rfl, by simp [hsealed], ?_, by simp [hmap, hj0]⟩
      rw [if_neg (by omega)]
      exact ⟨_, rfl, hcId, rfl, by simp [hvl]⟩

theorem run_phase2 (keyA : StreamKey) (E2 : EntityId) (t2 : List Nat)
    (hne : ((E2, t2) : StreamKey) ≠ keyA) (T : Nat) (hT : 1 ≤ T)
    (cA : TemporalChunk) (vals : List (AtomValue × Nat)) (s : Store) (j : Nat)
    (hj : j + vals.length ≤ T) (hInv : Phase2Inv keyA (E2, t2) T cA s j) :
    Phase2Inv keyA (E2, t2) T cA
      (run_ops s (vals.map (fun p => AppendOp.temporal E2 t2 p.1 p.2)))
      (j + vals.length) := by
  induction vals generalizing s j with
  | nil => simpa [run_ops] using hInv
  | cons p rest ih =>
      simp only [List.map_cons, run_ops_cons, List.length_cons]
      have happ : apply_op s (AppendOp.temporal E2 t2 p.1 p.2)
          = (append_temporal s E2 t2 p.1 p.2).2 := rfl
      have hstep := phase2_step keyA E2 t2 hne T hT cA s j
        (by simp only [List.length_cons] at hj; omega) hInv p.1 p.2
      rw [← happ] at hstep
      have hres := ih (apply_op s (AppendOp.temporal E2 t2 p.1 p.2)) (j + 1)
        (by simp only [List.length_cons] at hj; omega) hstep
      have hidx : j + 1 + rest.length = j + (rest.length + 1) := by omega
      rw [hidx] at hres
      exact hres

/-- C10: the sealed-chunk store is keyed by the per-stream chunk id alone.
After a first stream `(E1, t1)` seals its chunk number 0 (T Temporal appends
at threshold T), a second, distinct stream `(E2, t2)` that also appends T
values seals its own chunk number 0, but the `emplace` under the already
occupied key 0 discards it: the sealed map is unchanged (still the single
chunk of the first stream), no active chunk remains, `query_temporal_all`
on the second stream returns no values at all, and the first stream's query
still returns its T values. The sealed-chunk container itself is modelled
from the spec (section 4.4) since `atom_store.h` is absent from the
sources; the discard is the `m_sealed_chunks.emplace(chunk_id, ...)` of
`seal_and_rotate_chunk`. -/
theorem c10_sealed_chunk_key_collision (st T : Nat) (hT : 1 ≤ T)
    (E1 E2 : EntityId) (t1 t2 : List Nat)
    (hne : ((E2, t2) : StreamKey) ≠ ((E1, t1) : StreamKey))
    (valsA valsB : List (AtomValue × Nat))
    (hA : valsA.length = T) (hB : valsB.length = T) :
    (run_ops (run_ops (new_store T st)
          (valsA.map (fun p => AppendOp.temporal E1 t1 p.1 p.2)))
        (valsB.map (fun p => AppendOp.temporal E2 t2 p.1 p.2))).sealed_chunks
      = (run_ops (new_store T st)
          (valsA.map (fun p => AppendOp.temporal E1 t1 p.1 p.2))).sealed_chunks ∧
    (run_ops (run_ops (new_store T st)
          (valsA.map (fun p => AppendOp.temporal E1 t1 p.1 p.2)))
        (valsB.map (fun p => AppendOp.temporal E2 t2 p.1 p.2))).sealed_chunks.length
      = 1 ∧
    (run_ops (run_ops (new_store T st)
          (valsA.map (fun p => AppendOp.temporal E1 t1 p.1 p.2)))
        (valsB.map (fun p => AppendOp.temporal E2 t2 p.1 p.2))).active_chunks
      = [] ∧
    (query_temporal_all (run_ops (run_ops (new_store T st)
          (valsA.map (fun p => AppendOp.temporal E1 t1 p.1 p.2)))
        (valsB.map (fun p => AppendOp.temporal E2 t2 p.1 p.2))) E2 t2).values
      = [] ∧
    (query_temporal_all (run_ops (run_ops (new_store T st)
          (valsA.map (fun p => AppendOp.temporal E1 t1 p.1 p.2)))
        (valsB.map (fun p => AppendOp.temporal E2 t2 p.1 p.2))) E2 t2).total_count
      = 0 ∧
    (query_temporal_all (run_ops (run_ops (new_store T st)
          (valsA.map (fun p => AppendOp.temporal E1 t1 p.1 p.2)))
        (valsB.map (fun p => AppendOp.temporal E2 t2 p.1 p.2))) E1 t1).values
      = valsA.map Prod.fst := by
  have hi : TempInv E1 t1 T (new_store T st) 0 0 [] := by
    refine ⟨rfl, by simp, by omega, rfl, ?_, ?_, rfl⟩
    · intro kc hk2
      simp [new_store] at hk2
    · simp [new_store]
  obtain ⟨q', r', hInv, hacc⟩ :=
    run_temp_inv E1 t1 valsA (new_store T st) T 0 0 [] hT hi
  simp only [List.nil_append, Nat.zero_mul, Nat.zero_add, hA] at hInv hacc
  have hrlt : r' < T := hInv.2.2.1
  have hq1 : q' = 1 := by
    rcases Nat.eq_zero_or_pos q' with h0 | h0
    · subst h0
      simp at hacc
      omega
    · by_contra hne1
      have h2 : 2 ≤ q' := by omega
      have hmul : 2 * T ≤ q' * T := Nat.mul_le_mul_right T h2
      omega
  subst hq1
  have hr0 : r' = 0 := by omega
  subst hr0
  obtain ⟨hthr, _, _, hkeys, hsealedF, hactiveF, hmapF⟩ := hInv
  rw [if_pos rfl] at hactiveF
  obtain ⟨hact1, hflat1⟩ := hactiveF
  rw [show List.range 1 = [0] from rfl] at hkeys
  obtain ⟨kc0, hsc1⟩ : ∃ kc0,
      (run_ops (new_store T st)
        (valsA.map (fun p => AppendOp.temporal E1 t1 p.1 p.2))).sealed_chunks
      = [kc0] := by
    rcases hseq : (run_ops (new_store T st)
        (valsA.map (fun p => AppendOp.temporal E1 t1 p.1 p.2))).sealed_chunks
      with _ | ⟨kc, rest⟩
    · rw [hseq] at hkeys
      simp at hkeys
    · rw [hseq] at hkeys
      simp only [List.map_cons] at hkeys
      have : rest.map Prod.fst = [] := by
        have := congrArg List.tail hkeys
        simpa using this
      have hrest : rest = [] := List.map_eq_nil_iff.mp this
      exact ⟨kc, by rw [hseq, hrest]⟩
  have hkc0 : kc0.1 = 0 := by
    rw [hsc1] at hkeys
    simpa using hkeys
  have hsc1' : (run_ops (new_store T st)
        (valsA.map (fun p => AppendOp.temporal E1 t1 p.1 p.2))).sealed_chunks
      = [(0, kc0.2)] := by
    rw [hsc1]
    congr 1
    exact Prod.ext hkc0 rfl
  obtain ⟨hcE, hcT, hcS, hcC, hvlA, htlA, hllA, hubA⟩ :=
    hsealedF kc0 (by rw [hsc1]; exact List.mem_singleton.mpr rfl)
  have hcvals : kc0.2.values = valsA.map Prod.fst := by
    rw [hsc1] at hflat1
    simpa using hflat1
  have hmap1 : (run_ops (new_store T st)
        (valsA.map (fun p => AppendOp.temporal E1 t1 p.1 p.2))).next_chunk_id
      = [((E1, t1), 1)] := by
    rw [hmapF]
    simp
  have hinv0 : Phase2Inv (E1, t1) (E2, t2) T kc0.2
      (run_ops (new_store T st)
        (valsA.map (fun p => AppendOp.temporal E1 t1 p.1 p.2))) 0 := by
    refine ⟨hthr, hsc1', ?_, ?_⟩
    · rw [if_pos (Or.inl rfl)]
      exact hact1
    · rw [if_pos rfl]
      exact hmap1
  have hP := run_phase2 (E1, t1) E2 t2 hne T hT kc0.2 valsB
    (run_ops (new_store T st)
      (valsA.map (fun p => AppendOp.temporal E1 t1 p.1 p.2))) 0
    (by omega) hinv0
  rw [hB] at hP
  simp only [Nat.zero_add] at hP
  obtain ⟨hthr2, hsealed2, hactive2, hmap2⟩ := hP
  rw [if_pos (Or.inr rfl)] at hactive2
  refine ⟨by rw [hsealed2, hsc1'], by rw [hsealed2]; rfl, hactive2, ?_⟩
  have hfA2 : alist_find ((E2, t2) : StreamKey)
      (run_ops (run_ops (new_store T st)
          (valsA.map (fun p => AppendOp.temporal E1 t1 p.1 p.2)))
        (valsB.map (fun p => AppendOp.temporal E2 t2 p.1 p.2))).active_chunks
      = none := by
    rw [hactive2]
    rfl
  have hfA1 : alist_find ((E1, t1) : StreamKey)
      (run_ops (run_ops (new_store T st)
          (valsA.map (fun p => AppendOp.temporal E1 t1 p.1 p.2)))
        (valsB.map (fun p => AppendOp.temporal E2 t2 p.1 p.2))).active_chunks
      = none := by
    rw [hactive2]
    rfl
  have hneq2 : ¬(kc0.2.metadata.entity_id = E2 ∧ kc0.2.metadata.tag = t2) := by
    rintro ⟨h1, h2⟩
    rw [hcE] at h1
    rw [hcT] at h2
    exact hne (by rw [← h1, ← h2])
  have hfilterB : (run_ops (run_ops (new_store T st)
          (valsA.map (fun p => AppendOp.temporal E1 t1 p.1 p.2)))
        (valsB.map (fun p => AppendOp.temporal E2 t2 p.1 p.2))).sealed_chunks.filter
      (fun kc => decide (kc.2.metadata.entity_id = E2 ∧ kc.2.metadata.tag = t2))
      = [] := by
    rw [hsealed2]
    simp [hneq2]
  have hfilterA : (run_ops (run_ops (new_store T st)
          (valsA.map (fun p => AppendOp.temporal E1 t1 p.1 p.2)))
        (valsB.map (fun p => AppendOp.temporal E2 t2 p.1 p.2))).sealed_chunks.filter
      (fun kc => decide (kc.2.metadata.entity_id = E1 ∧ kc.2.metadata.tag = t1))
      = [(0, kc0.2)] := by
    rw [hsealed2]
    simp [hcE, hcT]
  have hrows := chunk_rows_full_range kc0.2 (htlA.trans hvlA.symm)
    (hllA.trans hvlA.symm) hubA
  refine ⟨?_, ?_, ?_⟩
  · unfold query_temporal_all query_temporal_range
    simp only [hfA2, hfilterB]
    rfl
  · unfold query_temporal_all query_temporal_range
    simp only [hfA2, hfilterB]
    rfl
  · unfold query_temporal_all query_temporal_range
    simp only [hfA1, hfilterA]
    simp [hrows.1, hcvals]

/-- C10 (witness): at threshold 2, stream (entity 1, tag 5) seals chunk 0,
then stream (entity 2, tag 6) appends two values whose sealed chunk is
dropped under the occupied key 0, so its full-range query is empty. -/
theorem c10_witness :
    (1 : Nat) ≤ 2 ∧
    ((⟨2, 0⟩, [6]) : StreamKey) ≠ ((⟨1, 0⟩, [5]) : StreamKey) ∧
    (query_temporal_all (run_ops (run_ops (new_store 2 10)
          (([((.vint 1 : AtomValue), 0), (.vint 2, 0)] : List (AtomValue × Nat)).map
            (fun p => AppendOp.temporal ⟨1, 0⟩ [5] p.1 p.2)))
        (([((.vint 3 : AtomValue), 0), (.vint 4, 0)] : List (AtomValue × Nat)).map
          (fun p => AppendOp.temporal ⟨2, 0⟩ [6] p.1 p.2))) ⟨2, 0⟩ [6]).values
      = [] :=
  ⟨by decide, by decide,
    (c10_sealed_chunk_key_collision 10 2 (by decide) ⟨1, 0⟩ ⟨2, 0⟩ [5] [6]
      (by decide)
      [((.vint 1 : AtomValue), 0), (.vint 2, 0)]
      [((.vint 3 : AtomValue), 0), (.vint 4, 0)]
      (by decide) (by decide)).2.2.2.1⟩

/-- An entity's reference list resolved through the content index: for each
reference whose atom id is found, the atom's id, tag and value together with
the reference's LSN — exactly the arguments the rebuild loop passes to
`Node::apply`. -/
def resolved_atoms (s : Store) (refs : List AtomReference) :
    List (AtomId × List Nat × AtomValue × Nat) :=
  refs.filterMap
    (fun r => (get_atom s r.atom_id).map
      (fun a => (a.atom_id, a.type_tag, a.value, r.lsn)))

/-- One rebuild step on a resolved reference. -/
def apply_resolved (n : Node) (x : AtomId × List Nat × AtomValue × Nat) :
    Node :=
  node_apply n x.1 x.2.1 x.2.2.1 x.2.2.2

/-- The per-tag slot as `Node::apply` evolves it over a list of resolved
references: a matching reference replaces the slot exactly when its LSN
strictly exceeds the slot's. -/
def latest_entry (tag : List Nat) (acc : Option NodeEntry)
    (l : List (AtomId × List Nat × AtomValue × Nat)) : Option NodeEntry :=
  l.foldl
    (fun acc x =>
      if x.2.1 = tag then
        match acc with
        | none => some ⟨x.1, x.2.2.1, x.2.2.2⟩
        | some e =>
            if x.2.2.2 > e.lsn then some ⟨x.1, x.2.2.1, x.2.2.2⟩ else some e
      else acc)
    acc

theorem rebuild_foldl (s : Store) (e : EntityId) :
    rebuild s e
      = (resolved_atoms s ((get_entity_atoms s e).getD [])).foldl
          apply_resolved ⟨e, [], []⟩ := by
  unfold rebuild
  generalize (get_entity_atoms s e).getD [] = refs
  generalize (⟨e, [], []⟩ : Node) = n0
  induction refs generalizing n0 with
  | nil => rfl
  | cons r rest ih =>
      simp only [List.foldl_cons, resolved_atoms, List.filterMap_cons]
      rcases h : get_atom s r.atom_id with _ | a
      · simp only [h, Option.map_none]
        exact ih n0
      · simp only [h, Option.map_some, List.foldl_cons]
        exact ih (apply_resolved n0 (a.atom_id, a.type_tag, a.value, r.lsn))

theorem fold_apply_history (l : List (AtomId × List Nat × AtomValue × Nat))
    (n : Node) :
    (l.foldl apply_resolved n).history
      = n.history ++ l.map (fun x => (x.1, x.2.2.2)) := by
  induction l generalizing n with
  | nil => simp
  | cons x rest ih =>
      simp only [List.foldl_cons, List.map_cons]
      rw [ih (apply_resolved n x)]
      simp [apply_resolved, node_apply]

theorem latest_entry_skip (tag : List Nat)
    (l : List (AtomId × List Nat × AtomValue × Nat))
    (h : l.filter (fun x => decide (x.2.1 = tag)) = []) (acc : Option NodeEntry) :
    latest_entry tag acc l = acc := by
  induction l generalizing acc with
  | nil => rfl
  | cons x rest ih =>
      simp only [List.filter_cons] at h
      rcases hx : decide (x.2.1 = tag) with _ | _
      · rw [hx] at h
        have hx' : ¬x.2.1 = tag := of_decide_eq_false hx
        simp only [latest_entry, List.foldl_cons, if_neg hx']
        exact ih h acc
      · rw [hx] at h
        simp at h

theorem latest_entry_eq_none (tag : List Nat)
    (l : List (AtomId × List Nat × AtomValue × Nat)) (acc : Option NodeEntry)
    (h : latest_entry tag acc l = none) :
    acc = none ∧ l.filter (fun x => decide (x.2.1 = tag)) = [] := by
  induction l generalizing acc with
  | nil => exact ⟨h, rfl⟩
  | cons x rest ih =>
      simp only [latest_entry, List.foldl_cons] at h
      by_cases hx : x.2.1 = tag
      · rw [if_pos hx] at h
        rcases acc with _ | a
        · have h' : latest_entry tag
              (some (⟨x.1, x.2.2.1, x.2.2.2⟩ : NodeEntry)) rest = none := h
          have := (ih _ h').1
          simp at this
        · have h' : latest_entry tag
              (if x.2.2.2 > a.lsn
               then some (⟨x.1, x.2.2.1, x.2.2.2⟩ : NodeEntry) else some a)
              rest = none := h
          rcases hlt : decide (x.2.2.2 > a.lsn) with _ | _
          · rw [if_neg (of_decide_eq_false hlt)] at h'
            have := (ih _ h').1
            simp at this
          · rw [if_pos (of_decide_eq_true hlt)] at h'
            have := (ih _ h').1
            simp at this
      · rw [if_neg hx] at h
        have h' : latest_entry tag acc rest = none := h
        obtain ⟨h1, h2⟩ := ih acc h'
        refine ⟨h1, ?_⟩
        simp only [List.filter_cons, decide_eq_true_eq, hx]
        simpa using h2

theorem latest_entry_spec (tag : List Nat)
    (l : List (AtomId × List Nat × AtomValue × Nat)) (acc : Option NodeEntry)
    (w : NodeEntry) (h : latest_entry tag acc l = some w) :
    (acc = some w ∨
      ∃ z ∈ l, z.2.1 = tag ∧ w = ⟨z.1, z.2.2.1, z.2.2.2⟩) ∧
    (∀ z ∈ l, z.2.1 = tag → z.2.2.2 ≤ w.lsn) ∧
    (∀ a, acc = some a → a.lsn ≤ w.lsn) := by
  induction l generalizing acc with
  | nil =>
      refine ⟨Or.inl h, by simp, ?_⟩
      intro a ha
      rw [ha] at h
      cases h
      exact le_refl _
  | cons x rest ih =>
      simp only [latest_entry, List.foldl_cons] at h
      by_cases hx : x.2.1 = tag
      · rw [if_pos hx] at h
        rcases acc with _ | a
        · have h' : latest_entry tag
              (some (⟨x.1, x.2.2.1, x.2.2.2⟩ : NodeEntry)) rest = some w := h
          obtain ⟨horig, hbound, hmono⟩ := ih _ h'
          have hax : x.2.2.2 ≤ w.lsn := hmono _ rfl
          refine ⟨?_, ?_, by intro a ha; cases ha⟩
          · rcases horig with horig | ⟨z, hz1, hz2, hz3⟩
            · cases horig
              exact Or.inr ⟨x, List.mem_cons_self _ _, hx, rfl⟩
            · exact Or.inr ⟨z, List.mem_cons_of_mem _ hz1, hz2, hz3⟩
          · intro z hz hzt
            rcases List.mem_cons.mp hz with hz | hz
            · subst hz
              exact hax
            · exact hbound z hz hzt
        · have h' : latest_entry tag
              (if x.2.2.2 > a.lsn
               then some (⟨x.1, x.2.2.1, x.2.2.2⟩ : NodeEntry) else some a)
              rest = some w := h
          rcases hlt : decide (x.2.2.2 > a.lsn) with _ | _
          · rw [if_neg (of_decide_eq_false hlt)] at h'
            obtain ⟨horig, hbound, hmono⟩ := ih _ h'
            have halsn : a.lsn ≤ w.lsn := hmono a rfl
            have h2 : ¬x.2.2.2 > a.lsn := of_decide_eq_false hlt
            refine ⟨?_, ?_, ?_⟩
            · rcases horig with horig | ⟨z, hz1, hz2, hz3⟩
              · exact Or.inl horig
              · exact Or.inr ⟨z, List.mem_cons_of_mem _ hz1, hz2, hz3⟩
            · intro z hz hzt
              rcases List.mem_cons.mp hz with hz | hz
              · subst hz
                omega
              · exact hbound z hz hzt
            · intro b hb
              cases hb
              exact halsn
          · rw [if_pos (of_decide_eq_true hlt)] at h'
            obtain ⟨horig, hbound, hmono⟩ := ih _ h'
            have hax : x.2.2.2 ≤ w.lsn := hmono _ rfl
            have h2 : x.2.2.2 > a.lsn := of_decide_eq_true hlt
            refine ⟨?_, ?_, ?_⟩
            · rcases horig with horig | ⟨z, hz1, hz2, hz3⟩
              · cases horig
                exact Or.inr ⟨x, List.mem_cons_self _ _, hx, rfl⟩
              · exact Or.inr ⟨z, List.mem_cons_of_mem _ hz1, hz2, hz3⟩
            · intro z hz hzt
              rcases List.mem_cons.mp hz with hz | hz
              · subst hz
                exact hax
              · exact hbound z hz hzt
            · intro b hb
              cases hb
              omega
      · rw [if_neg hx] at h
        have h' : latest_entry tag acc rest = some w := h
        obtain ⟨horig, hbound, hmono⟩ := ih acc h'
        refine ⟨?_, ?_, hmono⟩
        · rcases horig with horig | ⟨z, hz1, hz2, hz3⟩
          · exact Or.inl horig
          · exact Or.inr ⟨z, List.mem_cons_of_mem _ hz1, hz2, hz3⟩
        · intro z hz hzt
          rcases List.mem_cons.mp hz with hz | hz
          · subst hz
            exact absurd hzt hx
          · exact hbound z hz hzt

theorem fold_apply_slot (tag : List Nat)
    (l : List (AtomId × List Nat × AtomValue × Nat)) (n : Node) :
    alist_find tag (l.foldl apply_resolved n).latest_by_tag
      = if l.filter (fun y => decide (y.2.1 = tag)) = [] then
          alist_find tag n.latest_by_tag
        else
          some (latest_entry tag
            ((alist_find tag n.latest_by_tag).getD none) l) := by
  induction l generalizing n with
  | nil => simp
  | cons x rest ih =>
      by_cases hx : x.2.1 = tag
      · have hfcons : (x :: rest).filter (fun y => decide (y.2.1 = tag))
            = x :: rest.filter (fun y => decide (y.2.1 = tag)) := by
          simp [List.filter_cons, hx]
        have hn' : (apply_resolved n x).latest_by_tag
            = alist_set tag
                (match (alist_find tag n.latest_by_tag).getD none with
                 | none => some (⟨x.1, x.2.2.1, x.2.2.2⟩ : NodeEntry)
                 | some e => if x.2.2.2 > e.lsn
                     then some ⟨x.1, x.2.2.1, x.2.2.2⟩ else some e)
                n.latest_by_tag := by
          simp only [apply_resolved, node_apply, hx]
        have hstep : latest_entry tag
              ((alist_find tag n.latest_by_tag).getD none) (x :: rest)
            = latest_entry tag
                (match (alist_find tag n.latest_by_tag).getD none with
                 | none => some (⟨x.1, x.2.2.1, x.2.2.2⟩ : NodeEntry)
                 | some e => if x.2.2.2 > e.lsn
                     then some ⟨x.1, x.2.2.1, x.2.2.2⟩ else some e)
                rest := by
          simp only [latest_entry, List.foldl_cons]
          rw [if_pos hx]
        rw [hfcons, if_neg (by simp), List.foldl_cons,
          ih (apply_resolved n x), hstep]
        by_cases hrest : rest.filter (fun y => decide (y.2.1 = tag)) = []
        · rw [if_pos hrest, hn', alist_find_set_self,
            latest_entry_skip tag rest hrest]
        · rw [if_neg hrest, hn', alist_find_set_self, Option.getD_some]
      · have hfcons : (x :: rest).filter (fun y => decide (y.2.1 = tag))
            = rest.filter (fun y => decide (y.2.1 = tag)) := by
          simp [List.filter_cons, hx]
        have hfind : alist_find tag (apply_resolved n x).latest_by_tag
            = alist_find tag n.latest_by_tag := by
          simp only [apply_resolved, node_apply]
          exact alist_find_set_ne tag x.2.1 _ _ hx
        have hstep : latest_entry tag
              ((alist_find tag n.latest_by_tag).getD none) (x :: rest)
            = latest_entry tag
                ((alist_find tag n.latest_by_tag).getD none) rest := by
          simp only [latest_entry, List.foldl_cons]
          rw [if_neg hx]
        rw [hfcons, List.foldl_cons, ih (apply_resolved n x), hfind, hstep]

/-- C9: projection latest-wins. Rebuilding an entity's node applies each
resolvable reference in list order; the history records every applied
reference unconditionally, an unmatched tag projects to nothing, and
whenever one tag-matching resolved reference has a strictly larger LSN than
every other, `Node.get(tag)` returns exactly that reference's value (the
per-tag slot is replaced only when an applied LSN strictly exceeds the
slot's). The rebuild loop itself is modelled from the spec (section 4.8)
because the `projection_engine.cpp` in the sources is an older copy written
against a pre-reference-layer `Atom`. -/
theorem c9_projection_latest_wins (s : Store) (e : EntityId) (tag : List Nat) :
    (rebuild s e).history
      = (resolved_atoms s ((get_entity_atoms s e).getD [])).map
          (fun x => (x.1, x.2.2.2)) ∧
    ((resolved_atoms s ((get_entity_atoms s e).getD [])).filter
        (fun y => decide (y.2.1 = tag)) = [] →
      node_get (rebuild s e) tag = none) ∧
    (∀ x ∈ (resolved_atoms s ((get_entity_atoms s e).getD [])).filter
        (fun y => decide (y.2.1 = tag)),
      (∀ y ∈ (resolved_atoms s ((get_entity_atoms s e).getD [])).filter
          (fun y => decide (y.2.1 = tag)), y ≠ x → y.2.2.2 < x.2.2.2) →
      node_get (rebuild s e) tag = some x.2.2.1) := by
  refine ⟨?_, ?_, ?_⟩
  · rw [rebuild_foldl, fold_apply_history]
    rfl
  · intro hempty
    unfold node_get
    rw [rebuild_foldl, fold_apply_slot, if_pos hempty]
    rfl
  · intro x hx hmax
    unfold node_get
    rw [rebuild_foldl, fold_apply_slot,
      if_neg (by intro hc; rw [hc] at hx; cases hx)]
    rcases hle : latest_entry tag
        ((alist_find tag (Node.latest_by_tag ⟨e, [], []⟩)).getD none)
        (resolved_atoms s ((get_entity_atoms s e).getD [])) with _ | w
    · obtain ⟨_, hflt⟩ := latest_entry_eq_none _ _ _ hle
      rw [hflt] at hx
      cases hx
    · show some w.value = some x.2.2.1
      obtain ⟨horig, hbound, _⟩ := latest_entry_spec _ _ _ _ hle
      rcases horig with horig | ⟨z, hz1, hz2, hz3⟩
      · cases horig
      · obtain ⟨hxmem, hxtag⟩ := List.mem_filter.mp hx
        have hzmem : z ∈ (resolved_atoms s
            ((get_entity_atoms s e).getD [])).filter
              (fun y => decide (y.2.1 = tag)) :=
          List.mem_filter.mpr ⟨hz1, by simpa using hz2⟩
        have hxb : x.2.2.2 ≤ w.lsn :=
          hbound x hxmem (by simpa using hxtag)
        have hzx : z = x := by
          by_contra hne
          have := hmax z hzmem hne
          rw [hz3] at hxb
          simp only at hxb
          omega
        subst hzx
        rw [hz3]

/-- C9 (witness): two Temporal appends to entity 4 under tag 5 rebuild to a
node whose get returns the second (larger-LSN) value. -/
theorem c9_witness :
    ((⟨⟨2, 0⟩, [5], .vint 2, 2⟩ : AtomId × List Nat × AtomValue × Nat)
        ∈ (resolved_atoms
            (run_ops (new_store 10 20)
              [AppendOp.temporal ⟨4, 0⟩ [5] (.vint 1) 0,
               AppendOp.temporal ⟨4, 0⟩ [5] (.vint 2) 0])
            ((get_entity_atoms
              (run_ops (new_store 10 20)
                [AppendOp.temporal ⟨4, 0⟩ [5] (.vint 1) 0,
                 AppendOp.temporal ⟨4, 0⟩ [5] (.vint 2) 0]) ⟨4, 0⟩).getD [])).filter
          (fun y => decide (y.2.1 = [5]))) ∧
    (∀ y ∈ (resolved_atoms
            (run_ops (new_store 10 20)
              [AppendOp.temporal ⟨4, 0⟩ [5] (.vint 1) 0,
               AppendOp.temporal ⟨4, 0⟩ [5] (.vint 2) 0])
            ((get_entity_atoms
              (run_ops (new_store 10 20)
                [AppendOp.temporal ⟨4, 0⟩ [5] (.vint 1) 0,
                 AppendOp.temporal ⟨4, 0⟩ [5] (.vint 2) 0]) ⟨4, 0⟩).getD [])).filter
          (fun y => decide (y.2.1 = [5])),
        y ≠ (⟨⟨2, 0⟩, [5], .vint 2, 2⟩ : AtomId × List Nat × AtomValue × Nat) →
          y.2.2.2 < 2) ∧
    node_get (rebuild
        (run_ops (new_store 10 20)
          [AppendOp.temporal ⟨4, 0⟩ [5] (.vint 1) 0,
           AppendOp.temporal ⟨4, 0⟩ [5] (.vint 2) 0]) ⟨4, 0⟩) [5]
      = some (.vint 2) :=
  ⟨by decide, by decide,
    (c9_projection_latest_wins
        (run_ops (new_store 10 20)
          [AppendOp.temporal ⟨4, 0⟩ [5] (.vint 1) 0,
           AppendOp.temporal ⟨4, 0⟩ [5] (.vint 2) 0]) ⟨4, 0⟩ [5]).2.2
      ⟨⟨2, 0⟩, [5], .vint 2, 2⟩ (by decide) (by decide)⟩

/-- The accepted-string slot as the fast index build evolves it over a list
of resolved references (`QueryIndex::build_indexes_direct` inner loop): a
matching reference is considered when it is newer than the accepted entry,
but accepted — and the slot's LSN advanced — only when its value is a
string. -/
def string_slot_step (tag : List Nat) (acc : Option (List Nat × Nat))
    (x : AtomId × List Nat × AtomValue × Nat) : Option (List Nat × Nat) :=
  if x.2.1 = tag then
    match acc with
    | none =>
        match x.2.2.1 with
        | .vstring str => some (str, x.2.2.2)
        | _ => acc
    | some (_, l0) =>
        if x.2.2.2 > l0 then
          match x.2.2.1 with
          | .vstring str => some (str, x.2.2.2)
          | _ => acc
        else acc
  else acc

def latest_string_entry (tag : List Nat) (acc : Option (List Nat × Nat))
    (l : List (AtomId × List Nat × AtomValue × Nat)) :
    Option (List Nat × Nat) :=
  l.foldl (string_slot_step tag) acc

theorem latest_string_direct_foldl (s : Store) (refs : List AtomReference)
    (tag : List Nat) :
    latest_string_direct s refs tag
      = (latest_string_entry tag none (resolved_atoms s refs)).map Prod.fst := by
  unfold latest_string_direct
  congr 1
  generalize (none : Option (List Nat × Nat)) = acc
  induction refs generalizing acc with
  | nil => rfl
  | cons r rest ih =>
      simp only [List.foldl_cons, resolved_atoms, List.filterMap_cons]
      rcases h : get_atom s r.atom_id with _ | a
      · simp only [h, Option.map_none]
        exact ih acc
      · simp only [h, Option.map_some, latest_string_entry, List.foldl_cons]
        exact ih _

theorem string_slot_step_skip (tag : List Nat) (acc : Option (List Nat × Nat))
    (x : AtomId × List Nat × AtomValue × Nat) (hx : ¬x.2.1 = tag) :
    string_slot_step tag acc x = acc := by
  unfold string_slot_step
  rw [if_neg hx]

theorem string_slot_step_none_str (tag : List Nat)
    (x : AtomId × List Nat × AtomValue × Nat) (str : List Nat)
    (hx : x.2.1 = tag) (hvs : x.2.2.1 = .vstring str) :
    string_slot_step tag none x = some (str, x.2.2.2) := by
  unfold string_slot_step
  rw [if_pos hx, hvs]

theorem string_slot_step_none_nonstr (tag : List Nat)
    (x : AtomId × List Nat × AtomValue × Nat) (hx : x.2.1 = tag)
    (hnv : ∀ str, x.2.2.1 ≠ .vstring str) :
    string_slot_step tag none x = none := by
  unfold string_slot_step
  rw [if_pos hx]
  rcases hv : x.2.2.1 with _ | b | i | d0 | str | fv | bl | ed
  · rfl
  · rfl
  · rfl
  · rfl
  · exact absurd hv (hnv str)
  · rfl
  · rfl
  · rfl

theorem string_slot_step_some_old (tag : List Nat) (b : List Nat) (l0 : Nat)
    (x : AtomId × List Nat × AtomValue × Nat) (hx : x.2.1 = tag)
    (hlt : ¬x.2.2.2 > l0) :
    string_slot_step tag (some (b, l0)) x = some (b, l0) := by
  unfold string_slot_step
  rw [if_pos hx]
  exact if_neg hlt

theorem string_slot_step_some_new_str (tag : List Nat) (b : List Nat)
    (l0 : Nat) (x : AtomId × List Nat × AtomValue × Nat) (str : List Nat)
    (hx : x.2.1 = tag) (hlt : x.2.2.2 > l0) (hvs : x.2.2.1 = .vstring str) :
    string_slot_step tag (some (b, l0)) x = some (str, x.2.2.2) := by
  unfold string_slot_step
  rw [if_pos hx]
  show (if x.2.2.2 > l0 then _ else _) = _
  rw [if_pos hlt, hvs]

theorem string_slot_step_some_new_nonstr (tag : List Nat) (b : List Nat)
    (l0 : Nat) (x : AtomId × List Nat × AtomValue × Nat) (hx : x.2.1 = tag)
    (hlt : x.2.2.2 > l0) (hnv : ∀ str, x.2.2.1 ≠ .vstring str) :
    string_slot_step tag (some (b, l0)) x = some (b, l0) := by
  unfold string_slot_step
  rw [if_pos hx]
  show (if x.2.2.2 > l0 then _ else _) = _
  rw [if_pos hlt]
  rcases hv : x.2.2.1 with _ | b2 | i | d0 | str | fv | bl | ed
  · rfl
  · rfl
  · rfl
  · rfl
  · exact absurd hv (hnv str)
  · rfl
  · rfl
  · rfl

theorem latest_string_eq_none (tag : List Nat)
    (l : List (AtomId × List Nat × AtomValue × Nat)) :
    ∀ acc, latest_string_entry tag acc l = none →
      acc = none ∧ ∀ z ∈ l, z.2.1 = tag → ∀ str, z.2.2.1 ≠ .vstring str := by
  induction l with
  | nil => exact fun acc h => ⟨h, by simp⟩
  | cons x rest ih =>
      intro acc h
      have h' : latest_string_entry tag (string_slot_step tag acc x) rest
          = none := h
      obtain ⟨h1, h2⟩ := ih _ h'
      by_cases hx : x.2.1 = tag
      · rcases acc with _ | ⟨b, l0⟩
        · by_cases hstr : ∃ str, x.2.2.1 = AtomValue.vstring str
          · obtain ⟨str, hvs⟩ := hstr
            rw [string_slot_step_none_str tag x str hx hvs] at h1
            cases h1
          · have hnv : ∀ str, x.2.2.1 ≠ AtomValue.vstring str :=
              fun str hs => hstr ⟨str, hs⟩
            refine ⟨rfl, ?_⟩
            intro z hz hzt
            rcases List.mem_cons.mp hz with hz | hz
            · subst hz
              exact hnv
            · exact h2 z hz hzt
        · by_cases hlt : x.2.2.2 > l0
          · by_cases hstr : ∃ str, x.2.2.1 = AtomValue.vstring str
            · obtain ⟨str, hvs⟩ := hstr
              rw [string_slot_step_some_new_str tag b l0 x str hx hlt hvs] at h1
              cases h1
            · have hnv : ∀ str, x.2.2.1 ≠ AtomValue.vstring str :=
                fun str hs => hstr ⟨str, hs⟩
              rw [string_slot_step_some_new_nonstr tag b l0 x hx hlt hnv] at h1
              cases h1
          · rw [string_slot_step_some_old tag b l0 x hx hlt] at h1
            cases h1
      · rw [string_slot_step_skip tag acc x hx] at h1
        refine ⟨h1, ?_⟩
        intro z hz hzt
        rcases List.mem_cons.mp hz with hz | hz
        · subst hz
          exact absurd hzt hx
        · exact h2 z hz hzt

theorem latest_string_spec (tag : List Nat)
    (l : List (AtomId × List Nat × AtomValue × Nat)) :
    ∀ acc w, latest_string_entry tag acc l = some w →
      (acc = some w ∨
        ∃ z ∈ l, z.2.1 = tag ∧ z.2.2.1 = .vstring w.1 ∧ w.2 = z.2.2.2) ∧
      (∀ z ∈ l, z.2.1 = tag → ∀ str, z.2.2.1 = .vstring str →
        z.2.2.2 ≤ w.2) ∧
      (∀ a, acc = some a → a.2 ≤ w.2) := by
  induction l with
  | nil =>
      intro acc w h
      refine ⟨Or.inl h, by simp, ?_⟩
      intro a ha
      rw [ha] at h
      cases h
      exact le_refl _
  | cons x rest ih =>
      intro acc w h
      have h' : latest_string_entry tag (string_slot_step tag acc x) rest
          = some w := h
      obtain ⟨horig, hbound, hmono⟩ := ih _ _ h'
      by_cases hx : x.2.1 = tag
      · rcases acc with _ | ⟨b, l0⟩
        · by_cases hstr : ∃ str, x.2.2.1 = AtomValue.vstring str
          · obtain ⟨str, hvs⟩ := hstr
            have hstep := string_slot_step_none_str tag x str hx hvs
            have hax : x.2.2.2 ≤ w.2 := by
              have := hmono (str, x.2.2.2) (by rw [hstep])
              simpa using this
            refine ⟨?_, ?_, by intro a ha; cases ha⟩
            · rcases horig with horig | ⟨z, hz1, hz2, hz3⟩
              · rw [hstep] at horig
                have hw : (str, x.2.2.2) = w := Option.some.inj horig
                exact Or.inr ⟨x, List.mem_cons_self _ _, hx,
                  by rw [hvs, ← hw], by rw [← hw]⟩
              · exact Or.inr ⟨z, List.mem_cons_of_mem _ hz1, hz2, hz3⟩
            · intro z hz hzt str2 hzs
              rcases List.mem_cons.mp hz with hz | hz
              · subst hz
                exact hax
              · exact hbound z hz hzt str2 hzs
          · have hnv : ∀ str, x.2.2.1 ≠ AtomValue.vstring str :=
              fun str hs => hstr ⟨str, hs⟩
            have hstep := string_slot_step_none_nonstr tag x hx hnv
            refine ⟨?_, ?_, by intro a ha; cases ha⟩
            · rcases horig with horig | ⟨z, hz1, hz2, hz3⟩
              · rw [hstep] at horig
                cases horig
              · exact Or.inr ⟨z, List.mem_cons_of_mem _ hz1, hz2, hz3⟩
            · intro z hz hzt str2 hzs
              rcases List.mem_cons.mp hz with hz | hz
              · subst hz
                exact absurd hzs (hnv str2)
              · exact hbound z hz hzt str2 hzs
        · have hbl : l0 ≤ w.2 → (b, l0).2 ≤ w.2 := fun hh => hh
          by_cases hlt : x.2.2.2 > l0
          · by_cases hstr : ∃ str, x.2.2.1 = AtomValue.vstring str
            · obtain ⟨str, hvs⟩ := hstr
              have hstep := string_slot_step_some_new_str tag b l0 x str hx hlt hvs
              have hax : x.2.2.2 ≤ w.2 := by
                have := hmono (str, x.2.2.2) (by rw [hstep])
                simpa using this
              refine ⟨?_, ?_, ?_⟩
              · rcases horig with horig | ⟨z, hz1, hz2, hz3⟩
                · rw [hstep] at horig
                  have hw : (str, x.2.2.2) = w := Option.some.inj horig
                  exact Or.inr ⟨x, List.mem_cons_self _ _, hx,
                    by rw [hvs, ← hw], by rw [← hw]⟩
                · exact Or.inr ⟨z, List.mem_cons_of_mem _ hz1, hz2, hz3⟩
              · intro z hz hzt str2 hzs
                rcases List.mem_cons.mp hz with hz | hz
                · subst hz
                  exact hax
                · exact hbound z hz hzt str2 hzs
              · intro a ha
                cases ha
                show l0 ≤ w.2
                omega
            · have hnv : ∀ str, x.2.2.1 ≠ AtomValue.vstring str :=
                fun str hs => hstr ⟨str, hs⟩
              have hstep := string_slot_step_some_new_nonstr tag b l0 x hx hlt hnv
              have hal : l0 ≤ w.2 := by
                have := hmono (b, l0) (by rw [hstep])
                simpa using this
              refine ⟨?_, ?_, ?_⟩
              · rcases horig with horig | ⟨z, hz1, hz2, hz3⟩
                · rw [hstep] at horig
                  exact Or.inl horig
                · exact Or.inr ⟨z, List.mem_cons_of_mem _ hz1, hz2, hz3⟩
              · intro z hz hzt str2 hzs
                rcases List.mem_cons.mp hz with hz | hz
                · subst hz
                  exact absurd hzs (hnv str2)
                · exact hbound z hz hzt str2 hzs
              · intro a ha
                cases ha
                exact hal
          · have hstep := string_slot_step_some_old tag b l0 x hx hlt
            have hal : l0 ≤ w.2 := by
              have := hmono (b, l0) (by rw [hstep])
              simpa using this
            refine ⟨?_, ?_, ?_⟩
            · rcases horig with horig | ⟨z, hz1, hz2, hz3⟩
              · rw [hstep] at horig
                exact Or.inl horig
              · exact Or.inr ⟨z, List.mem_cons_of_mem _ hz1, hz2, hz3⟩
            · intro z hz hzt str2 hzs
              rcases List.mem_cons.mp hz with hz | hz
              · subst hz
                omega
              · exact hbound z hz hzt str2 hzs
            · intro a ha
              cases ha
              exact hal
      · have hstep := string_slot_step_skip tag acc x hx
        rw [hstep] at horig hmono
        refine ⟨?_, ?_, hmono⟩
        · rcases horig with horig | ⟨z, hz1, hz2, hz3⟩
          · exact Or.inl horig
          · exact Or.inr ⟨z, List.mem_cons_of_mem _ hz1, hz2, hz3⟩
        · intro z hz hzt str2 hzs
          rcases List.mem_cons.mp hz with hz | hz
          · subst hz
            exact absurd hzt hx
          · exact hbound z hz hzt str2 hzs

theorem latest_string_of_max (tag : List Nat)
    (l : List (AtomId × List Nat × AtomValue × Nat))
    (x : AtomId × List Nat × AtomValue × Nat) (str : List Nat)
    (hx : x ∈ l.filter (fun y => decide (y.2.1 = tag)))
    (hmax : ∀ y ∈ l.filter (fun y => decide (y.2.1 = tag)), y ≠ x →
      y.2.2.2 < x.2.2.2)
    (hvs : x.2.2.1 = .vstring str) :
    latest_string_entry tag none l = some (str, x.2.2.2) := by
  obtain ⟨hxl, hxt⟩ := List.mem_filter.mp hx
  have hxt' : x.2.1 = tag := by simpa using hxt
  rcases hres : latest_string_entry tag none l with _ | w
  · obtain ⟨_, hall⟩ := latest_string_eq_none tag l none hres
    exact absurd hvs (hall x hxl hxt' str)
  · obtain ⟨horig, hbound, _⟩ := latest_string_spec tag l none w hres
    rcases horig with horig | ⟨z, hz1, hz2, hz3, hz4⟩
    · cases horig
    · have hzx : z = x := by
        by_contra hne
        have h1 := hmax z (List.mem_filter.mpr ⟨hz1, by simpa using hz2⟩) hne
        have h2 : x.2.2.2 ≤ w.2 := hbound x hxl hxt' str hvs
        omega
      subst hzx
      have hw1 : w.1 = str := by
        rw [hvs] at hz3
        exact (AtomValue.vstring.inj hz3).symm
      have hw : w = (str, z.2.2.2) := Prod.ext hw1 hz4
      rw [hw]

theorem node_get_rebuild_empty (s : Store) (e : EntityId) (t : List Nat)
    (h : (resolved_atoms s ((get_entity_atoms s e).getD [])).filter
      (fun y => decide (y.2.1 = t)) = []) :
    node_get (rebuild s e) t = none := by
  unfold node_get
  rw [rebuild_foldl, fold_apply_slot, if_pos h]
  rfl

theorem node_get_rebuild_some (s : Store) (e : EntityId) (t : List Nat)
    (hne : (resolved_atoms s ((get_entity_atoms s e).getD [])).filter
      (fun y => decide (y.2.1 = t)) ≠ []) :
    ∃ z ∈ (resolved_atoms s ((get_entity_atoms s e).getD [])).filter
        (fun y => decide (y.2.1 = t)),
      node_get (rebuild s e) t = some z.2.2.1 := by
  unfold node_get
  rw [rebuild_foldl, fold_apply_slot, if_neg hne]
  rcases hle : latest_entry t
      ((alist_find t (Node.latest_by_tag ⟨e, [], []⟩)).getD none)
      (resolved_atoms s ((get_entity_atoms s e).getD [])) with _ | w
  · obtain ⟨_, hflt⟩ := latest_entry_eq_none _ _ _ hle
    exact absurd hflt hne
  · obtain ⟨horig, _, _⟩ := latest_entry_spec _ _ _ _ hle
    rcases horig with horig | ⟨z, hz1, hz2, hz3⟩
    · cases horig
    · refine ⟨z, List.mem_filter.mpr ⟨hz1, by simpa using hz2⟩, ?_⟩
      rw [hz3]

theorem node_get_rebuild_max (s : Store) (e : EntityId) (t : List Nat)
    (x : AtomId × List Nat × AtomValue × Nat)
    (hx : x ∈ (resolved_atoms s ((get_entity_atoms s e).getD [])).filter
      (fun y => decide (y.2.1 = t)))
    (hmax : ∀ y ∈ (resolved_atoms s ((get_entity_atoms s e).getD [])).filter
        (fun y => decide (y.2.1 = t)), y ≠ x → y.2.2.2 < x.2.2.2) :
    node_get (rebuild s e) t = some x.2.2.1 := by
  unfold node_get
  rw [rebuild_foldl, fold_apply_slot,
    if_neg (by intro hc; rw [hc] at hx; cases hx)]
  rcases hle : latest_entry t
      ((alist_find t (Node.latest_by_tag ⟨e, [], []⟩)).getD none)
      (resolved_atoms s ((get_entity_atoms s e).getD [])) with _ | w
  · obtain ⟨_, hflt⟩ := latest_entry_eq_none _ _ _ hle
    rw [hflt] at hx
    cases hx
  · show some w.value = some x.2.2.1
    obtain ⟨horig, hbound, _⟩ := latest_entry_spec _ _ _ _ hle
    rcases horig with horig | ⟨z, hz1, hz2, hz3⟩
    · cases horig
    · obtain ⟨hxmem, hxtag⟩ := List.mem_filter.mp hx
      have hzmem : z ∈ (resolved_atoms s
          ((get_entity_atoms s e).getD [])).filter
            (fun y => decide (y.2.1 = t)) :=
        List.mem_filter.mpr ⟨hz1, by simpa using hz2⟩
      have hxb : x.2.2.2 ≤ w.lsn :=
        hbound x hxmem (by simpa using hxtag)
      have hzx : z = x := by
        by_contra hne
        have := hmax z hzmem hne
        rw [hz3] at hxb
        simp only at hxb
        omega
      subst hzx
      rw [hz3]

theorem map_congr_mem {α β : Type} (l : List α) (f g : α → β)
    (h : ∀ a ∈ l, f a = g a) : l.map f = l.map g := by
  induction l with
  | nil => rfl
  | cons a rest ih =>
      simp only [List.map_cons, h a (List.mem_cons_self _ _),
        ih (fun b hb => h b (List.mem_cons_of_mem _ hb))]

theorem filterMap_congr_mem {α β : Type} (l : List α) (f g : α → Option β)
    (h : ∀ a ∈ l, f a = g a) : l.filterMap f = l.filterMap g := by
  induction l with
  | nil => rfl
  | cons a rest ih =>
      simp only [List.filterMap_cons, h a (List.mem_cons_self _ _),
        ih (fun b hb => h b (List.mem_cons_of_mem _ hb))]

/-- Whether a value holds the string alternative
(`std::holds_alternative<std::string>` in the index builders). -/
def is_vstring : AtomValue → Bool
  | .vstring _ => true
  | _ => false

theorem is_vstring_true_iff (v : AtomValue) :
    is_vstring v = true ↔ ∃ str, v = .vstring str := by
  rcases v with _ | b | i | d0 | str | fv | bl | ed
  · simp [is_vstring]
  · simp [is_vstring]
  · simp [is_vstring]
  · simp [is_vstring]
  · simp [is_vstring]
  · simp [is_vstring]
  · simp [is_vstring]
  · simp [is_vstring]

theorem is_vstring_false_iff (v : AtomValue) :
    is_vstring v = false ↔ ∀ str, v ≠ .vstring str := by
  rcases v with _ | b | i | d0 | str | fv | bl | ed
  · simp [is_vstring]
  · simp [is_vstring]
  · simp [is_vstring]
  · simp [is_vstring]
  · simp [is_vstring]
  · simp [is_vstring]
  · simp [is_vstring]
  · simp [is_vstring]

/-- The per-`(tag, entity)` side condition under which the two index builds
agree: either no tag-matching resolved reference carries a string value, or
a tag-matching resolved reference of strictly largest LSN exists and its
value is a string. The counterexample to the unconditional claim violates
it: a stream whose largest-LSN value is not a string while an older string
exists. -/
@[reducible]
def latest_wins_stringly (s : Store) (t : List Nat) (e : EntityId) : Prop :=
  (∀ z ∈ (resolved_atoms s ((get_entity_atoms s e).getD [])).filter
      (fun y => decide (y.2.1 = t)), is_vstring z.2.2.1 = false) ∨
  (∃ x ∈ (resolved_atoms s ((get_entity_atoms s e).getD [])).filter
      (fun y => decide (y.2.1 = t)),
    (∀ y ∈ (resolved_atoms s ((get_entity_atoms s e).getD [])).filter
        (fun y => decide (y.2.1 = t)), y ≠ x → y.2.2.2 < x.2.2.2) ∧
    is_vstring x.2.2.1 = true)


/-- C4 (amended): the fast (direct-scan) and fallback (projection-based)
index builds produce identical per-tag entity-to-string maps for every
store and tag set in which, per tag and entity, either no tag-matching
resolved reference carries a string value or the strictly-latest
tag-matching resolved reference is a string. Without that side condition
the paths diverge: the direct scan keeps an older string (it never
advances its accepted LSN past a non-string value), while the projection
returns the true latest value and drops it when it is not a string. The
fallback's rebuild loop is modelled from the spec (section 4.8). -/
theorem c4_index_fast_path_equivalence (s : Store) (tags : List (List Nat))
    (h : ∀ t ∈ tags, ∀ e ∈ get_all_entities s, latest_wins_stringly s t e) :
    build_indexes_direct s tags = build_indexes_fallback s tags := by
  unfold build_indexes_direct build_indexes_fallback
  apply map_congr_mem
  intro t ht
  have hfm : ∀ e ∈ get_all_entities s,
      (match get_entity_atoms s e with
       | none => none
       | some refs => (latest_string_direct s refs t).map
           (fun str => (e, str)))
      = (match node_get (rebuild s e) t with
         | some (.vstring str) => some (e, str)
         | _ => (none : Option (EntityId × List Nat))) := by
    intro e he
    have hce := h t ht e he
    rcases hga : get_entity_atoms s e with _ | refs
    · have hmat : (resolved_atoms s ((get_entity_atoms s e).getD [])).filter
          (fun y => decide (y.2.1 = t)) = [] := by
        rw [hga]
        rfl
      rw [node_get_rebuild_empty s e t hmat]
    · have hgd : (get_entity_atoms s e).getD [] = refs := by
        rw [hga]
        rfl
      simp only [hga]
      unfold latest_wins_stringly at hce
      rw [hgd] at hce
      rcases hce with hnostr0 | ⟨x, hx, hmax, hxs⟩
      · have hnostr : ∀ z ∈ (resolved_atoms s refs).filter
            (fun y => decide (y.2.1 = t)), ∀ str,
              z.2.2.1 ≠ AtomValue.vstring str :=
          fun z hz => (is_vstring_false_iff z.2.2.1).mp (hnostr0 z hz)
        have hdirect : latest_string_direct s refs t = none := by
          rw [latest_string_direct_foldl]
          rcases hres : latest_string_entry t none (resolved_atoms s refs)
            with _ | w
          · rfl
          · obtain ⟨horig, _, _⟩ :=
              latest_string_spec t (resolved_atoms s refs) none w hres
            rcases horig with horig | ⟨z, hz1, hz2, hz3, _⟩
            · cases horig
            · exact absurd hz3
                (hnostr z (List.mem_filter.mpr ⟨hz1, by simpa using hz2⟩) w.1)
        by_cases hmat : (resolved_atoms s refs).filter
            (fun y => decide (y.2.1 = t)) = []
        · have hng := node_get_rebuild_empty s e t (by rw [hgd]; exact hmat)
          rw [hdirect, hng]
          rfl
        · obtain ⟨z, hz, hng⟩ :=
            node_get_rebuild_some s e t (by rw [hgd]; exact hmat)
          rw [hgd] at hz
          rw [hdirect, hng]
          have hznostr := hnostr z hz
          rcases hzv : z.2.2.1 with _ | b | i | d0 | str2 | fv | bl | ed
          · rfl
          · rfl
          · rfl
          · rfl
          · exact absurd hzv (hznostr str2)
          · rfl
          · rfl
          · rfl
      · obtain ⟨str, hvs⟩ := (is_vstring_true_iff x.2.2.1).mp hxs
        have hdirect : latest_string_direct s refs t = some str := by
          rw [latest_string_direct_foldl,
            latest_string_of_max t (resolved_atoms s refs) x str hx hmax hvs]
          rfl
        have hng := node_get_rebuild_max s e t x
          (by rw [hgd]; exact hx) (by rw [hgd]; exact hmax)
        rw [hvs] at hng
        rw [hdirect, hng]
        rfl
  have := filterMap_congr_mem (get_all_entities s) _ _ hfm
  rw [this]

/-- C4 (counterexample): one stream stores a string and then, under the same
tag, a newer non-string. The direct build keeps the stale string, the
projection-based build reports no string at all, so the two per-tag maps
differ. -/
theorem c4_counterexample :
    build_indexes_direct
        (run_ops (new_store 10 10)
          [AppendOp.temporal ⟨7, 0⟩ [110] (.vstring [97]) 0,
           AppendOp.temporal ⟨7, 0⟩ [110] (.vint 42) 0]) [[110]]
      ≠ build_indexes_fallback
          (run_ops (new_store 10 10)
            [AppendOp.temporal ⟨7, 0⟩ [110] (.vstring [97]) 0,
             AppendOp.temporal ⟨7, 0⟩ [110] (.vint 42) 0]) [[110]] := by
  decide

/-- C4 (witness): with a single string-valued stream the side condition
holds and the two index builds agree. -/
theorem c4_witness :
    (∀ t ∈ [[110]], ∀ e ∈ get_all_entities
        (run_ops (new_store 10 10)
          [AppendOp.temporal ⟨7, 0⟩ [110] (.vstring [97]) 0]),
      latest_wins_stringly
        (run_ops (new_store 10 10)
          [AppendOp.temporal ⟨7, 0⟩ [110] (.vstring [97]) 0]) t e) ∧
    build_indexes_direct
        (run_ops (new_store 10 10)
          [AppendOp.temporal ⟨7, 0⟩ [110] (.vstring [97]) 0]) [[110]]
      = build_indexes_fallback
          (run_ops (new_store 10 10)
            [AppendOp.temporal ⟨7, 0⟩ [110] (.vstring [97]) 0]) [[110]] :=
  ⟨by decide,
    c4_index_fast_path_equivalence
      (run_ops (new_store 10 10)
        [AppendOp.temporal ⟨7, 0⟩ [110] (.vstring [97]) 0]) [[110]]
      (by decide)⟩

/-- Number of stored content records carrying one atom id. -/
def content_count (s : Store) (id : AtomId) : Nat :=
  (s.atoms.filter (fun a => decide (a.atom_id = id))).length

/-- The canonical-dedup invariant: the dedup map misses exactly the ids with
no content record and hits exactly the ids with one. -/
def CanonDedupInv (s : Store) : Prop :=
  ∀ id : AtomId,
    (alist_find id s.canonical_dedup_map = none → content_count s id = 0) ∧
    (∀ idx, alist_find id s.canonical_dedup_map = some idx →
      content_count s id = 1)

theorem append_canonical_hit_fields (s : Store) (e : EntityId)
    (tag : List Nat) (v : AtomValue) (now : Nat) (idx : Nat)
    (hfind : alist_find (compute_content_hash tag v) s.canonical_dedup_map
      = some idx) :
    (append_canonical s e tag v now).2.atoms = s.atoms ∧
    (append_canonical s e tag v now).2.canonical_dedup_map
      = s.canonical_dedup_map ∧
    (append_canonical s e tag v now).2.entity_refs
      = refs_push s.entity_refs e
          ⟨compute_content_hash tag v, s.next_lsn + 1⟩ := by
  simp only [append_canonical]
  rw [hfind]
  exact ⟨rfl, rfl, rfl⟩

theorem append_canonical_miss_fields (s : Store) (e : EntityId)
    (tag : List Nat) (v : AtomValue) (now : Nat)
    (hfind : alist_find (compute_content_hash tag v) s.canonical_dedup_map
      = none) :
    (append_canonical s e tag v now).2.atoms
      = s.atoms ++ [⟨compute_content_hash tag v, .Canonical, tag, v,
          ts_of now⟩] ∧
    (append_canonical s e tag v now).2.canonical_dedup_map
      = alist_set (compute_content_hash tag v) s.atoms.length
          s.canonical_dedup_map := by
  simp only [append_canonical]
  rw [hfind]
  exact ⟨rfl, rfl⟩

theorem content_count_append (s2 atoms1 : List Atom) (a : Atom) (id : AtomId)
    (h : s2 = atoms1 ++ [a]) :
    (s2.filter (fun b => decide (b.atom_id = id))).length
      = (atoms1.filter (fun b => decide (b.atom_id = id))).length
        + (if a.atom_id = id then 1 else 0) := by
  subst h
  rw [List.filter_append]
  by_cases hid : a.atom_id = id
  · simp [hid]
  · simp [hid]

theorem append_canonical_dedup_inv (s : Store) (e : EntityId)
    (tag : List Nat) (v : AtomValue) (now : Nat) (hi : CanonDedupInv s) :
    CanonDedupInv (append_canonical s e tag v now).2 := by
  rcases hfind : alist_find (compute_content_hash tag v)
      s.canonical_dedup_map with _ | idx
  · obtain ⟨hatoms, hdmap⟩ :=
      append_canonical_miss_fields s e tag v now hfind
    intro id
    by_cases hid : id = compute_content_hash tag v
    · subst hid
      constructor
      · intro hfid
        rw [hdmap, alist_find_set_self] at hfid
        cases hfid
      · intro idx2 _
        unfold content_count
        rw [content_count_append _ _ _ _ hatoms, if_pos rfl]
        have h0 := (hi _).1 hfind
        unfold content_count at h0
        omega
    · have hfcarry : alist_find id
          (append_canonical s e tag v now).2.canonical_dedup_map
          = alist_find id s.canonical_dedup_map := by
        rw [hdmap]
        exact alist_find_set_ne _ _ _ _ (fun hh => hid hh.symm)
      have hccarry : content_count (append_canonical s e tag v now).2 id
          = content_count s id := by
        unfold content_count
        rw [content_count_append _ _ _ _ hatoms,
          if_neg (fun hh => hid hh.symm)]
        omega
      constructor
      · intro hfid
        rw [hfcarry] at hfid
        rw [hccarry]
        exact (hi id).1 hfid
      · intro idx2 hfid2
        rw [hfcarry] at hfid2
        rw [hccarry]
        exact (hi id).2 idx2 hfid2
  · obtain ⟨hatoms, hdmap, _⟩ :=
      append_canonical_hit_fields s e tag v now idx hfind
    intro id
    have hccarry : content_count (append_canonical s e tag v now).2 id
        = content_count s id := by
      unfold content_count
      rw [hatoms]
    constructor
    · intro hfid
      rw [hdmap] at hfid
      rw [hccarry]
      exact (hi id).1 hfid
    · intro idx2 hfid2
      rw [hdmap] at hfid2
      rw [hccarry]
      exact (hi id).2 idx2 hfid2

theorem run_ops_dedup_inv (ops : List AppendOp)
    (hc : ∀ op ∈ ops, is_canonical_op op = true) :
    ∀ s, CanonDedupInv s → CanonDedupInv (run_ops s ops) := by
  induction ops with
  | nil => exact fun s hi => hi
  | cons op rest ih =>
      intro s hi
      rw [run_ops_cons]
      rcases op with ⟨e, tag, v, now⟩ | ⟨e, tag, v, now⟩ | ⟨e, tag, v, now⟩
      · exact ih (fun o ho => hc o (List.mem_cons_of_mem _ ho)) _
          (append_canonical_dedup_inv s e tag v now hi)
      · have := hc _ (List.mem_cons_self _ _)
        simp [is_canonical_op] at this
      · have := hc _ (List.mem_cons_self _ _)
        simp [is_canonical_op] at this

/-- C5 (amended): along any sequence of Canonical appends (the
`append_canonical` path) from a fresh store, equal `(tag, value)` pairs
share the one content-hash `AtomId` and at most one content record is ever
stored under it; re-appending a `(tag, value)` whose record exists adds one
reference to that id for the chosen entity but stores no new content
record. Snapshot emissions, although they store records classified
Canonical, bypass the dedup map and are excluded: they can store a second
record under an existing id. -/
theorem c5_canonical_dedup (T st : Nat) (ops : List AppendOp)
    (hops : ∀ op ∈ ops, is_canonical_op op = true) (tag : List Nat)
    (value : AtomValue) :
    content_count (run_ops (new_store T st) ops)
        (compute_content_hash tag value) ≤ 1 ∧
    (∀ e now,
      content_count (run_ops (new_store T st) ops)
          (compute_content_hash tag value) = 1 →
        (append_canonical (run_ops (new_store T st) ops)
            e tag value now).2.atoms
            = (run_ops (new_store T st) ops).atoms ∧
          ref_total (append_canonical (run_ops (new_store T st) ops)
              e tag value now).2 (compute_content_hash tag value)
            = ref_total (run_ops (new_store T st) ops)
                (compute_content_hash tag value) + 1) := by
  have hbase : CanonDedupInv (new_store T st) := by
    intro id
    constructor
    · intro _
      rfl
    · intro idx hfid
      cases hfid
  have hinv := run_ops_dedup_inv ops hops (new_store T st) hbase
  constructor
  · rcases hf : alist_find (compute_content_hash tag value)
        (run_ops (new_store T st) ops).canonical_dedup_map with _ | idx
    · rw [(hinv _).1 hf]
      omega
    · rw [(hinv _).2 idx hf]
  · intro e now hcount1
    rcases hf : alist_find (compute_content_hash tag value)
        (run_ops (new_store T st) ops).canonical_dedup_map with _ | idx
    · rw [(hinv _).1 hf] at hcount1
      cases hcount1
    · obtain ⟨hatoms, _, hrefs⟩ :=
        append_canonical_hit_fields (run_ops (new_store T st) ops)
          e tag value now idx hf
      refine ⟨hatoms, ?_⟩
      unfold ref_total
      rw [hrefs, refs_count_push, if_pos rfl]

/-- C5 (counterexample): four Mutable appends of the same value at snapshot
threshold 2 emit two snapshots with equal `(tag, value)`; both store a
content record, so two records exist under the one content-hash id. -/
theorem c5_counterexample :
    content_count
        (run_ops (new_store 1000 2)
          (List.replicate 4 (AppendOp.mutableOp ⟨1, 0⟩ [5] (.vint 7) 0)))
        (compute_content_hash ([5] ++ DOT_SNAPSHOT) (.vint 7))
      = 2 := by
  decide

/-- C5 (witness): two Canonical appends of the same `(tag, value)` from two
entities leave one content record, and a further identical append adds a
reference but no record. -/
theorem c5_witness :
    (∀ op ∈ [AppendOp.canonical ⟨1, 0⟩ [5] (.vint 7) 0,
        AppendOp.canonical ⟨2, 0⟩ [5] (.vint 7) 0],
      is_canonical_op op = true) ∧
    content_count
        (run_ops (new_store 1000 10)
          [AppendOp.canonical ⟨1, 0⟩ [5] (.vint 7) 0,
           AppendOp.canonical ⟨2, 0⟩ [5] (.vint 7) 0])
        (compute_content_hash [5] (.vint 7)) = 1 ∧
    (append_canonical
        (run_ops (new_store 1000 10)
          [AppendOp.canonical ⟨1, 0⟩ [5] (.vint 7) 0,
           AppendOp.canonical ⟨2, 0⟩ [5] (.vint 7) 0])
        ⟨3, 0⟩ [5] (.vint 7) 0).2.atoms
      = (run_ops (new_store 1000 10)
          [AppendOp.canonical ⟨1, 0⟩ [5] (.vint 7) 0,
           AppendOp.canonical ⟨2, 0⟩ [5] (.vint 7) 0]).atoms :=
  ⟨by decide, by decide,
    ((c5_canonical_dedup 1000 10
        [AppendOp.canonical ⟨1, 0⟩ [5] (.vint 7) 0,
         AppendOp.canonical ⟨2, 0⟩ [5] (.vint 7) 0]
        (by decide) [5] (.vint 7)).2 ⟨3, 0⟩ 0 (by decide)).1⟩

theorem cleared_idem (s : Store) : cleared (cleared s) = cleared s := rfl

/-- C3 (amended): when the four magic bytes read completely but differ from
`GTAF`, or when the version field reads completely but is not 2, `load`
returns failure with the store exactly as it was — previous contents
retained, not cleared. Only once the header validates is the in-memory
state cleared, after which the outcome no longer depends on the prior
contents: loading into any store equals loading into its cleared image (a
later failure leaves whatever was rebuilt from the file, not the prior
contents). Truncated headers are outside this statement: the source's byte
reader does not terminate at end-of-input, so the model's clean
end-of-input failure is not asserted of the source. -/
theorem c3_load_header_check (s : Store) (f : List Nat) :
    ∀ magic r, read_exact 4 f = some (magic, r) →
      (magic ≠ MAGIC → load s f = (false, s)) ∧
      (∀ version r2, read_u32 r = some (version, r2) → version ≠ 2 →
        load s f = (false, s)) ∧
      (magic = MAGIC → ∀ version r2, read_u32 r = some (version, r2) →
        version = 2 → load s f = load (cleared s) f) := by
  intro magic r hre
  refine ⟨?_, ?_, ?_⟩
  · intro hm
    unfold load
    simp only [hre]
    rw [if_pos hm]
  · intro version r2 hv hv2
    unfold load
    simp only [hre]
    by_cases hm : magic ≠ MAGIC
    · rw [if_pos hm]
    · rw [if_neg hm]
      simp only [hv]
      rw [if_pos hv2]
  · intro hm version r2 hv hv2
    subst hm hv2
    show load s f = load (cleared s) f
    unfold load
    simp only [hre, hv]
    rw [if_neg (by simp), if_neg (by simp), cleared_idem]
    rfl

/-- C3 (counterexample): a store holding one atom, loaded from a four-byte
file with the wrong magic, reports failure with its previous contents
intact — the store is not left empty. -/
theorem c3_counterexample :
    (load (run_ops (new_store 10 10)
        [AppendOp.temporal ⟨1, 0⟩ [5] (.vint 7) 0]) [0, 0, 0, 0]).1 = false ∧
    (load (run_ops (new_store 10 10)
        [AppendOp.temporal ⟨1, 0⟩ [5] (.vint 7) 0]) [0, 0, 0, 0]).2
      = run_ops (new_store 10 10) [AppendOp.temporal ⟨1, 0⟩ [5] (.vint 7) 0] ∧
    (run_ops (new_store 10 10)
        [AppendOp.temporal ⟨1, 0⟩ [5] (.vint 7) 0]).atoms ≠ [] := by
  refine ⟨?_, ?_, by decide⟩
  · decide
  · decide

/-- C3 (witness): the wrong-magic branch of the header check at a concrete
store and file. -/
theorem c3_witness :
    read_exact 4 [0, 0, 0, 0] = some ([0, 0, 0, 0], []) ∧
    ([0, 0, 0, 0] : List Nat) ≠ MAGIC ∧
    load (run_ops (new_store 10 10)
        [AppendOp.temporal ⟨2, 0⟩ [6] (.vint 8) 0]) [0, 0, 0, 0]
      = (false, run_ops (new_store 10 10)
          [AppendOp.temporal ⟨2, 0⟩ [6] (.vint 8) 0]) :=
  ⟨by decide, by decide,
    (c3_load_header_check
        (run_ops (new_store 10 10)
          [AppendOp.temporal ⟨2, 0⟩ [6] (.vint 8) 0])
        [0, 0, 0, 0] [0, 0, 0, 0] [] (by decide)).1 (by decide)⟩

theorem le_bytes_length (k n : Nat) : (le_bytes k n).length = k := by
  induction k generalizing n with
  | zero => rfl
  | succ k ih =>
      simp only [le_bytes, List.length_cons, ih]

theorem le_bytes_lt (k n : Nat) : ∀ b ∈ le_bytes k n, b < 256 := by
  induction k generalizing n with
  | zero => simp [le_bytes]
  | succ k ih =>
      intro b hb
      simp only [le_bytes, List.mem_cons] at hb
      rcases hb with hb | hb
      · subst hb
        exact Nat.mod_lt _ (by omega)
      · exact ih _ b hb

theorem from_le_le_bytes (k n : Nat) : from_le (le_bytes k n) = n % 256 ^ k := by
  induction k generalizing n with
  | zero =>
      show 0 = n % 1
      omega
  | succ k ih =>
      simp only [le_bytes, from_le, ih]
      rw [Nat.mod_mod_of_dvd n (dvd_refl 256), pow_succ', Nat.mod_mul]

theorem read_exact_append (bs rest : List Nat) :
    read_exact bs.length (bs ++ rest) = some (bs, rest) := by
  induction bs with
  | nil => rfl
  | cons b bs ih =>
      simp only [List.length_cons, List.cons_append, read_exact,
        List.append_eq, ih]

theorem read_exact_of_length (n : Nat) (bs rest : List Nat)
    (h : bs.length = n) : read_exact n (bs ++ rest) = some (bs, rest) := by
  subst h
  exact read_exact_append bs rest

theorem read_u8_write (v : Nat) (rest : List Nat) (hv : v < 256) :
    read_u8 (write_u8 v ++ rest) = some (v, rest) := by
  simp only [write_u8, List.cons_append, List.nil_append, read_u8]
  rw [Nat.mod_mod_of_dvd v (dvd_refl 256), Nat.mod_eq_of_lt hv]

theorem read_u32_write (v : Nat) (rest : List Nat) (hv : v < 4294967296) :
    read_u32 (write_u32 v ++ rest) = some (v, rest) := by
  simp only [write_u32, read_u32,
    read_exact_of_length 4 (le_bytes 4 v) rest (le_bytes_length 4 v),
    from_le_le_bytes]
  rw [Nat.mod_eq_of_lt (by norm_num [hv])]

theorem read_u64_write (v : Nat) (rest : List Nat)
    (hv : v < 18446744073709551616) :
    read_u64 (write_u64 v ++ rest) = some (v, rest) := by
  simp only [write_u64, read_u64,
    read_exact_of_length 8 (le_bytes 8 v) rest (le_bytes_length 8 v),
    from_le_le_bytes]
  rw [Nat.mod_eq_of_lt (by norm_num [hv])]

theorem write_bytes_id (bs : List Nat) (h : ∀ b ∈ bs, b < 256) :
    write_bytes bs = bs := by
  unfold write_bytes
  induction bs with
  | nil => rfl
  | cons b rest ih =>
      simp only [List.map_cons]
      rw [Nat.mod_eq_of_lt (h b (List.mem_cons_self _ _)),
        ih (fun x hx => h x (List.mem_cons_of_mem _ hx))]

theorem read_string_write (str rest : List Nat)
    (hlen : str.length < 4294967296) (hb : ∀ b ∈ str, b < 256) :
    read_string (write_string str ++ rest) = some (str, rest) := by
  simp only [write_string, read_string, List.append_assoc]
  rw [read_u32_write _ _ hlen, write_bytes_id str hb]
  have := read_exact_append str rest
  simp only [this]

theorem read_atom_id_write (id : AtomId) (rest : List Nat)
    (hlo : id.lo < 18446744073709551616) (hhi : id.hi < 18446744073709551616) :
    read_atom_id (write_atom_id id ++ rest) = some (id, rest) := by
  simp only [write_atom_id, read_atom_id, List.append_assoc]
  rw [read_u64_write _ _ hlo]
  simp only [read_u64_write _ _ hhi]

theorem read_entity_id_write (e : EntityId) (rest : List Nat)
    (hlo : e.lo < 18446744073709551616) (hhi : e.hi < 18446744073709551616) :
    read_entity_id (write_entity_id e ++ rest) = some (e, rest) := by
  simp only [write_entity_id, read_entity_id, List.append_assoc]
  rw [read_u64_write _ _ hlo]
  simp only [read_u64_write _ _ hhi]

theorem take_append_of_length {α : Type} (l1 l2 : List α) (n : Nat)
    (h : l1.length = n) : (l1 ++ l2).take n = l1 := by
  induction l1 generalizing n with
  | nil =>
      subst h
      rfl
  | cons a l1 ih =>
      subst h
      simp only [List.cons_append, List.length_cons, List.take_succ_cons]
      rw [ih l1.length rfl]

theorem drop_append_of_length {α : Type} (l1 l2 : List α) (n k : Nat)
    (h : l1.length = n) : (l1 ++ l2).drop (n + k) = l2.drop k := by
  induction l1 generalizing n with
  | nil =>
      subst h
      simp
  | cons a l1 ih =>
      subst h
      have harith : a :: l1 ≠ [] := by simp
      simp only [List.cons_append, List.length_cons]
      have hs : l1.length + 1 + k = (l1.length + k) + 1 := by omega
      rw [hs, List.drop_succ_cons, ih l1.length rfl]

theorem float_flatten_length (fs : List Nat) :
    ((fs.map (le_bytes 4)).flatten).length = 4 * fs.length := by
  induction fs with
  | nil => rfl
  | cons x fs ih =>
      simp only [List.map_cons, List.flatten_cons, List.length_append,
        le_bytes_length, ih, List.length_cons]
      omega

theorem float_flatten_lt (fs : List Nat) :
    ∀ b ∈ (fs.map (le_bytes 4)).flatten, b < 256 := by
  induction fs with
  | nil => simp
  | cons x fs ih =>
      intro b hb
      simp only [List.map_cons, List.flatten_cons, List.mem_append] at hb
      rcases hb with hb | hb
      · exact le_bytes_lt 4 x b hb
      · exact ih b hb

theorem float_decode (fs : List Nat) (h : ∀ x ∈ fs, x < 4294967296) :
    (List.range fs.length).map
        (fun i => from_le ((((fs.map (le_bytes 4)).flatten).drop (4 * i)).take 4))
      = fs := by
  induction fs with
  | nil => rfl
  | cons x fs ih =>
      simp only [List.length_cons, List.range_succ_eq_map, List.map_cons,
        List.map_map]
      congr 1
      case _ =>
        simp only [Nat.mul_zero, List.drop_zero, List.map_cons,
          List.flatten_cons]
        rw [take_append_of_length _ _ 4 (le_bytes_length 4 x),
          from_le_le_bytes]
        exact Nat.mod_eq_of_lt (by norm_num [h x (List.mem_cons_self _ _)])
      case _ =>
        refine (map_congr_mem _ _ _ ?_).trans
          (ih (fun y hy => h y (List.mem_cons_of_mem _ hy)))
        intro i _
        simp only [Function.comp_apply, List.flatten_cons]
        have h4 : 4 * Nat.succ i = 4 + 4 * i := by omega
        rw [h4, drop_append_of_length _ _ 4 (4 * i) (le_bytes_length 4 x)]

/-- Value wellformedness for the codec: every numeric field fits the width
the file format stores it in, and byte payloads are bytes. Stores built by
the C++ types satisfy this by construction; the model makes it explicit. -/
def wf_value : AtomValue → Bool
  | .vnull => true
  | .vbool _ => true
  | .vint n => decide (n < 18446744073709551616)
  | .vdouble n => decide (n < 18446744073709551616)
  | .vstring str => decide (str.length < 4294967296)
      && str.all (fun b => decide (b < 256))
  | .vfloat_vec fs => decide (fs.length < 4294967296)
      && fs.all (fun x => decide (x < 4294967296))
  | .vblob bs => decide (bs.length < 4294967296)
      && bs.all (fun b => decide (b < 256))
  | .vedge t r => decide (t.lo < 18446744073709551616)
      && decide (t.hi < 18446744073709551616)
      && decide (r.length < 4294967296) && r.all (fun b => decide (b < 256))

theorem read_atom_value_write (v : AtomValue) (rest : List Nat)
    (hv : wf_value v = true) :
    read_atom_value (write_atom_value v ++ rest) = some (v, rest) := by
  rcases v with _ | b | i | d0 | str | fv | bl | ed
  · simp only [write_atom_value, read_atom_value,
      read_u8_write 0 rest (by omega)]
  · rcases b with _ | _
    · simp only [write_atom_value, read_atom_value, List.append_assoc,
        if_false, read_u8_write 1 _ (by omega),
        read_u8_write 0 rest (by omega)]
      rfl
    · simp only [write_atom_value, read_atom_value, List.append_assoc,
        if_true, read_u8_write 1 _ (by omega)]
      rfl
  · simp only [wf_value, decide_eq_true_eq] at hv
    simp only [write_atom_value, read_atom_value, List.append_assoc,
      read_u8_write 2 _ (by omega), read_u64_write i rest hv]
  · simp only [wf_value, decide_eq_true_eq] at hv
    simp only [write_atom_value, read_atom_value, List.append_assoc,
      read_u8_write 3 _ (by omega), read_u64_write d0 rest hv]
  · simp only [wf_value, Bool.and_eq_true, decide_eq_true_eq,
      List.all_eq_true] at hv
    simp only [write_atom_value, read_atom_value, List.append_assoc,
      read_u8_write 4 _ (by omega),
      read_string_write str rest hv.1
        (fun b hb => by simpa using hv.2 b hb)]
  · simp only [wf_value, Bool.and_eq_true, decide_eq_true_eq,
      List.all_eq_true] at hv
    have hx : ∀ x ∈ fv, x < 4294967296 := fun x hx => by simpa using hv.2 x hx
    simp only [write_atom_value, read_atom_value, List.append_assoc,
      read_u8_write 5 _ (by omega), read_u32_write fv.length _ hv.1,
      write_bytes_id _ (float_flatten_lt fv)]
    rw [read_exact_of_length (4 * fv.length) _ rest (float_flatten_length fv)]
    simp only [float_decode fv hx]
  · simp only [wf_value, Bool.and_eq_true, decide_eq_true_eq,
      List.all_eq_true] at hv
    simp only [write_atom_value, read_atom_value, List.append_assoc,
      read_u8_write 6 _ (by omega), read_u32_write bl.length _ hv.1,
      write_bytes_id bl (fun b hb => by simpa using hv.2 b hb)]
    rw [read_exact_of_length bl.length bl rest rfl]
  · simp only [wf_value, Bool.and_eq_true, decide_eq_true_eq,
      List.all_eq_true] at hv
    simp only [write_atom_value, read_atom_value, List.append_assoc,
      read_u8_write 7 _ (by omega),
      read_entity_id_write ed _ hv.1.1.1 hv.1.1.2,
      read_string_write _ rest hv.1.2
        (fun b hb => by simpa using hv.2 b hb)]

/-- Atom wellformedness for the codec. -/
def wf_atom (a : Atom) : Bool :=
  decide (a.atom_id.lo < 18446744073709551616)
    && decide (a.atom_id.hi < 18446744073709551616)
    && decide (a.type_tag.length < 4294967296)
    && a.type_tag.all (fun b => decide (b < 256))
    && wf_value a.value
    && decide (a.created_at < 18446744073709551616)

theorem classification_u8_lt (c : AtomType) : classification_u8 c < 256 := by
  cases c
  · decide
  · decide
  · decide

theorem decode_classification (c : AtomType) :
    decode_atom_type (classification_u8 c) = c := by
  cases c
  · rfl
  · rfl
  · rfl

/-- The content index as `load` rebuilds it: `emplace` of each record at its
position, first occurrence winning. -/
def index_emplace_from : Nat → List (AtomId × Nat) → List Atom →
    List (AtomId × Nat)
  | _, m, [] => m
  | i, m, a :: A => index_emplace_from (i + 1) (alist_emplace a.atom_id i m) A

/-- The dedup map as `load` rebuilds it: every Canonical record emplaced. -/
def dedup_emplace_from : Nat → List (AtomId × Nat) → List Atom →
    List (AtomId × Nat)
  | _, m, [] => m
  | i, m, a :: A =>
      dedup_emplace_from (i + 1)
        (if a.classification = .Canonical then alist_emplace a.atom_id i m
         else m) A

theorem load_atoms_write (A : List Atom) :
    ∀ (s0 : Store) (rest : List Nat), (∀ a ∈ A, wf_atom a = true) →
      load_atoms A.length s0 ((A.map write_atom).flatten ++ rest)
        = (true,
            { s0 with
              atoms := s0.atoms ++ A
              content_index :=
                index_emplace_from s0.atoms.length s0.content_index A
              canonical_dedup_map :=
                dedup_emplace_from s0.atoms.length s0.canonical_dedup_map A
              canonical_atom_count := s0.canonical_atom_count
                + (A.filter
                    (fun a => decide (a.classification = AtomType.Canonical))).length },
            rest) := by
  induction A with
  | nil =>
      intro s0 rest _
      simp [load_atoms, index_emplace_from, dedup_emplace_from]
  | cons a A ih =>
      intro s0 rest hwf
      have hw := hwf a (List.mem_cons_self _ _)
      simp only [wf_atom, Bool.and_eq_true, decide_eq_true_eq,
        List.all_eq_true] at hw
      obtain ⟨⟨⟨⟨⟨hlo, hhi⟩, htl⟩, htb⟩, hwv⟩, hca⟩ := hw
      simp only [List.length_cons, List.map_cons, List.flatten_cons,
        write_atom, List.append_assoc, load_atoms,
        read_atom_id_write a.atom_id _ hlo hhi,
        read_u8_write _ _ (classification_u8_lt a.classification),
        read_string_write a.type_tag _ htl
          (fun b hb => by simpa using htb b hb),
        read_atom_value_write a.value _ hwv,
        read_u64_write a.created_at _ hca,
        decode_classification]
      by_cases hc : a.classification = AtomType.Canonical
      · rw [if_pos hc]
        rw [ih _ rest (fun x hx => hwf x (List.mem_cons_of_mem _ hx))]
        refine Prod.ext rfl (Prod.ext ?_ rfl)
        show (_ : Store) = _
        simp only [index_emplace_from, dedup_emplace_from,
          List.length_append, List.length_cons, List.length_nil,
          if_pos hc]
        simp only [Store.mk.injEq]
        simp [List.filter_cons, hc]
        refine ⟨?_, by omega⟩
        rw [← hc]
      · rw [if_neg hc]
        rw [ih _ rest (fun x hx => hwf x (List.mem_cons_of_mem _ hx))]
        refine Prod.ext rfl (Prod.ext ?_ rfl)
        show (_ : Store) = _
        simp only [index_emplace_from, dedup_emplace_from,
          List.length_append, List.length_cons, List.length_nil,
          if_neg hc]
        simp only [Store.mk.injEq]
        simp [List.filter_cons, hc]

theorem read_refs_write (refs : List AtomReference) :
    ∀ rest, (∀ r ∈ refs, r.atom_id.lo < 18446744073709551616 ∧
        r.atom_id.hi < 18446744073709551616 ∧
        r.lsn < 18446744073709551616) →
      read_refs refs.length
          ((refs.map (fun r => write_atom_id r.atom_id ++ write_u64 r.lsn)).flatten
            ++ rest)
        = some (refs, rest) := by
  induction refs with
  | nil => intro rest _; rfl
  | cons r refs ih =>
      intro rest h
      obtain ⟨hlo, hhi, hlsn⟩ := h r (List.mem_cons_self _ _)
      simp only [List.length_cons, List.map_cons, List.flatten_cons,
        List.append_assoc, read_refs,
        read_atom_id_write r.atom_id _ hlo hhi,
        read_u64_write r.lsn _ hlsn,
        ih _ (fun x hx => h x (List.mem_cons_of_mem _ hx))]

theorem load_entities_write (E : List (EntityId × List AtomReference)) :
    ∀ (s0 : Store) (rest : List Nat),
      (∀ er ∈ E, er.1.lo < 18446744073709551616 ∧
        er.1.hi < 18446744073709551616 ∧
        er.2.length < 18446744073709551616 ∧
        ∀ r ∈ er.2, r.atom_id.lo < 18446744073709551616 ∧
          r.atom_id.hi < 18446744073709551616 ∧
          r.lsn < 18446744073709551616) →
      load_entities E.length s0
          ((E.map (fun er => write_entity_bucket er.1 er.2)).flatten ++ rest)
        = (true,
            { s0 with entity_refs :=
                E.foldl (fun m er => alist_set er.1 er.2 m) s0.entity_refs },
            rest) := by
  induction E with
  | nil =>
      intro s0 rest _
      simp [load_entities]
  | cons er E ih =>
      intro s0 rest h
      obtain ⟨hlo, hhi, hlen, hrefs⟩ := h er (List.mem_cons_self _ _)
      simp only [List.length_cons, List.map_cons, List.flatten_cons,
        List.append_assoc]
      rw [write_entity_bucket]
      simp only [List.append_assoc, load_entities,
        read_entity_id_write er.1 _ hlo hhi,
        read_u64_write er.2.length _ hlen,
        read_refs_write er.2 _ hrefs]
      rw [ih _ rest (fun x hx => h x (List.mem_cons_of_mem _ hx))]
      rfl

theorem load_refcounts_write (R : List (AtomId × Nat)) :
    ∀ (s0 : Store) (rest : List Nat),
      (∀ rc ∈ R, rc.1.lo < 18446744073709551616 ∧
        rc.1.hi < 18446744073709551616 ∧ rc.2 < 4294967296) →
      load_refcounts R.length s0
          ((R.map (fun rc => write_atom_id rc.1 ++ write_u32 rc.2)).flatten
            ++ rest)
        = (true,
            { s0 with refcounts :=
                R.foldl (fun m rc => alist_emplace rc.1 rc.2 m) s0.refcounts },
            rest) := by
  induction R with
  | nil =>
      intro s0 rest _
      simp [load_refcounts]
  | cons rc R ih =>
      intro s0 rest h
      obtain ⟨hlo, hhi, hct⟩ := h rc (List.mem_cons_self _ _)
      simp only [List.length_cons, List.map_cons, List.flatten_cons,
        List.append_assoc, load_refcounts,
        read_atom_id_write rc.1 _ hlo hhi,
        read_u32_write rc.2 _ hct]
      rw [ih _ rest (fun x hx => h x (List.mem_cons_of_mem _ hx))]
      rfl

theorem alist_find_eq_none_of_not_mem {κ ν : Type} [DecidableEq κ] (k : κ) (l : List (κ × ν))
    (h : k ∉ l.map Prod.fst) : alist_find k l = none := by
  induction l with
  | nil => rfl
  | cons p rest ih =>
      simp only [List.map_cons, List.mem_cons] at h
      push_neg at h
      simp only [alist_find]
      rw [if_neg (fun hh => h.1 (by rw [hh]))]
      exact ih h.2

theorem alist_set_of_not_mem {κ ν : Type} [DecidableEq κ] (k : κ) (v : ν) (l : List (κ × ν))
    (h : k ∉ l.map Prod.fst) : alist_set k v l = l ++ [(k, v)] := by
  induction l with
  | nil => rfl
  | cons p rest ih =>
      simp only [List.map_cons, List.mem_cons] at h
      push_neg at h
      simp only [alist_set]
      rw [if_neg (fun hh => h.1 (by rw [hh])), ih h.2]
      rfl

theorem alist_emplace_of_not_mem {κ ν : Type} [DecidableEq κ] (k : κ) (v : ν) (l : List (κ × ν))
    (h : k ∉ l.map Prod.fst) : alist_emplace k v l = l ++ [(k, v)] := by
  unfold alist_emplace
  rw [alist_find_eq_none_of_not_mem k l h]

theorem foldl_alist_set_rebuild {κ ν : Type} [DecidableEq κ] (E : List (κ × ν)) :
    ∀ acc, (E.map Prod.fst).Nodup →
      (∀ k ∈ E.map Prod.fst, k ∉ acc.map Prod.fst) →
      E.foldl (fun m er => alist_set er.1 er.2 m) acc = acc ++ E := by
  induction E with
  | nil =>
      intro acc _ _
      simp
  | cons er E ih =>
      intro acc hnd hdisj
      simp only [List.map_cons, List.nodup_cons] at hnd
      simp only [List.foldl_cons]
      rw [alist_set_of_not_mem er.1 er.2 acc
        (hdisj er.1 (by simp))]
      have hres := ih (acc ++ [(er.1, er.2)]) hnd.2 ?_
      · rw [hres]
        simp
      · intro k hk
        simp only [List.map_append, List.mem_append]
        push_neg
        constructor
        · exact hdisj k (by simp [hk])
        · intro hk2
          simp only [List.map_cons, List.map_nil, List.mem_singleton] at hk2
          rw [hk2] at hk
          exact hnd.1 hk

theorem foldl_alist_emplace_rebuild {κ ν : Type} [DecidableEq κ] (E : List (κ × ν)) :
    ∀ acc, (E.map Prod.fst).Nodup →
      (∀ k ∈ E.map Prod.fst, k ∉ acc.map Prod.fst) →
      E.foldl (fun m er => alist_emplace er.1 er.2 m) acc = acc ++ E := by
  induction E with
  | nil =>
      intro acc _ _
      simp
  | cons er E ih =>
      intro acc hnd hdisj
      simp only [List.map_cons, List.nodup_cons] at hnd
      simp only [List.foldl_cons]
      rw [alist_emplace_of_not_mem er.1 er.2 acc
        (hdisj er.1 (by simp))]
      have hres := ih (acc ++ [(er.1, er.2)]) hnd.2 ?_
      · rw [hres]
        simp
      · intro k hk
        simp only [List.map_append, List.mem_append]
        push_neg
        constructor
        · exact hdisj k (by simp [hk])
        · intro hk2
          simp only [List.map_cons, List.map_nil, List.mem_singleton] at hk2
          rw [hk2] at hk
          exact hnd.1 hk

/-- Store wellformedness for the persistence roundtrip: every persisted
number fits its stored width, the content index and dedup map are exactly
what replaying the atom list rebuilds (first occurrence winning), the
canonical counter counts the Canonical records, and map keys are unique.
Stores built from Canonical and Temporal appends satisfy this; Mutable
streams violate the content-index clause because each mutation overwrites
the stable id's index entry while the file replay keeps the first. -/
@[reducible]
def WFStore (s : Store) : Prop :=
  s.next_lsn < 18446744073709551616 ∧
  s.next_atom_id < 18446744073709551616 ∧
  s.atoms.length < 18446744073709551616 ∧
  s.entity_refs.length < 18446744073709551616 ∧
  s.refcounts.length < 18446744073709551616 ∧
  (∀ a ∈ s.atoms, wf_atom a = true) ∧
  (∀ er ∈ s.entity_refs, er.1.lo < 18446744073709551616 ∧
    er.1.hi < 18446744073709551616 ∧
    er.2.length < 18446744073709551616 ∧
    ∀ r ∈ er.2, r.atom_id.lo < 18446744073709551616 ∧
      r.atom_id.hi < 18446744073709551616 ∧
      r.lsn < 18446744073709551616) ∧
  (∀ rc ∈ s.refcounts, rc.1.lo < 18446744073709551616 ∧
    rc.1.hi < 18446744073709551616 ∧ rc.2 < 4294967296) ∧
  s.content_index = index_emplace_from 0 [] s.atoms ∧
  s.canonical_dedup_map = dedup_emplace_from 0 [] s.atoms ∧
  s.canonical_atom_count = (s.atoms.filter
    (fun a => decide (a.classification = AtomType.Canonical))).length ∧
  (s.entity_refs.map Prod.fst).Nodup ∧
  (s.refcounts.map Prod.fst).Nodup

theorem load_save_eq (T st : Nat) (s : Store) (hwf : WFStore s) :
    load (new_store T st) (save s)
      = (true,
          { next_atom_id := s.next_atom_id
            next_lsn := s.next_lsn
            atoms := s.atoms
            content_index := s.content_index
            canonical_dedup_map := s.canonical_dedup_map
            entity_refs := s.entity_refs
            refcounts := s.refcounts
            active_chunks := []
            sealed_chunks := []
            next_chunk_id := []
            mutable_states := []
            canonical_atom_count := s.canonical_atom_count
            dedup_hits := 0
            snapshot_count := 0
            chunk_size_threshold := T
            snapshot_delta_threshold := st }) := by
  obtain ⟨hnl, hna, hal, hel, hrl, hatoms, hents, hrcs, hci, hdm, hcac,
    hend, hrnd⟩ := hwf
  simp only [save, load, List.append_assoc,
    read_exact_of_length 4 MAGIC _ rfl]
  rw [if_neg (by simp)]
  simp only [read_u32_write 2 _ (by norm_num)]
  rw [if_neg (by simp)]
  simp only [read_u64_write s.next_lsn _ hnl,
    read_u64_write s.next_atom_id _ hna,
    read_u64_write s.atoms.length _ hal]
  rw [load_atoms_write s.atoms _ _ hatoms]
  simp only [read_u64_write s.entity_refs.length _ hel]
  rw [load_entities_write s.entity_refs _ _ hents]
  simp only [read_u64_write s.refcounts.length _ hrl]
  rw [← List.append_nil
    ((s.refcounts.map (fun rc => write_atom_id rc.1 ++ write_u32 rc.2)).flatten)]
  rw [load_refcounts_write s.refcounts _ _ hrcs]
  simp only [cleared, new_store, List.length_nil, List.nil_append,
    Nat.zero_add]
  rw [foldl_alist_set_rebuild s.entity_refs _ hend (by simp),
    foldl_alist_emplace_rebuild s.refcounts _ hrnd (by simp)]
  rw [← hci, ← hdm, ← hcac]
  rfl

/-- C2 (amended): for every wellformed store — numeric fields within their
persisted widths, content index and dedup map equal to the file replay's
first-occurrence rebuild, canonical counter counting Canonical records,
unique map keys — `save` then `load` on a fresh store succeeds and restores
every observable: `get_atom` for every id, every entity's reference list,
the five statistics, with the session counters `deduplicated_hits` and
`snapshot_count` reset to zero. Mutable streams break the wellformedness
clause on the content index (each mutation overwrites the stable id's
entry while the replay keeps the first), so their stores do not round-trip
observably. -/
theorem c2_save_load_roundtrip (T st : Nat) (s : Store) (hwf : WFStore s) :
    (load (new_store T st) (save s)).1 = true ∧
    (∀ id, get_atom (load (new_store T st) (save s)).2 id = get_atom s id) ∧
    (∀ e, get_entity_atoms (load (new_store T st) (save s)).2 e
      = get_entity_atoms s e) ∧
    get_stats (load (new_store T st) (save s)).2
      = { total_atoms := (get_stats s).total_atoms
          canonical_atoms := (get_stats s).canonical_atoms
          deduplicated_hits := 0
          unique_canonical_atoms := (get_stats s).unique_canonical_atoms
          total_entities := (get_stats s).total_entities
          total_references := (get_stats s).total_references } ∧
    (load (new_store T st) (save s)).2.snapshot_count = 0 := by
  rw [load_save_eq T st s hwf]
  exact ⟨rfl, fun id => rfl, fun e => rfl, rfl, rfl⟩

/-- C2 (counterexample): two Mutable appends to one stream save and load
with success, yet `get_atom` on the stream's stable id returns the second
value before the roundtrip and the first value after it: the in-memory
index points at the latest companion record while the file replay keeps the
first. -/
theorem c2_counterexample :
    (load (new_store 1000 10)
        (save (run_ops (new_store 1000 10)
          [AppendOp.mutableOp ⟨1, 0⟩ [5] (.vint 1) 0,
           AppendOp.mutableOp ⟨1, 0⟩ [5] (.vint 2) 0]))).1 = true ∧
    get_atom (load (new_store 1000 10)
        (save (run_ops (new_store 1000 10)
          [AppendOp.mutableOp ⟨1, 0⟩ [5] (.vint 1) 0,
           AppendOp.mutableOp ⟨1, 0⟩ [5] (.vint 2) 0]))).2 ⟨1, 0⟩
      ≠ get_atom (run_ops (new_store 1000 10)
          [AppendOp.mutableOp ⟨1, 0⟩ [5] (.vint 1) 0,
           AppendOp.mutableOp ⟨1, 0⟩ [5] (.vint 2) 0]) ⟨1, 0⟩ := by
  exact ⟨by decide, by decide⟩

/-- C2 (witness): a one-atom Temporal store is wellformed and round-trips
with all observables preserved. -/
theorem c2_witness :
    WFStore (run_ops (new_store 10 10)
      [AppendOp.temporal ⟨1, 0⟩ [5] (.vint 7) 0]) ∧
    (load (new_store 10 10)
        (save (run_ops (new_store 10 10)
          [AppendOp.temporal ⟨1, 0⟩ [5] (.vint 7) 0]))).1 = true ∧
    (∀ id, get_atom (load (new_store 10 10)
        (save (run_ops (new_store 10 10)
          [AppendOp.temporal ⟨1, 0⟩ [5] (.vint 7) 0]))).2 id
      = get_atom (run_ops (new_store 10 10)
          [AppendOp.temporal ⟨1, 0⟩ [5] (.vint 7) 0]) id) :=
  ⟨by decide,
    (c2_save_load_roundtrip 10 10
      (run_ops (new_store 10 10)
        [AppendOp.temporal ⟨1, 0⟩ [5] (.vint 7) 0]) (by decide)).1,
    (c2_save_load_roundtrip 10 10
      (run_ops (new_store 10 10)
        [AppendOp.temporal ⟨1, 0⟩ [5] (.vint 7) 0]) (by decide)).2.1⟩
